import Mathlib

/-!
Verification of the ruthenium searcher core (`src/search.rs`, `src/ignore.rs`,
`src/main.rs`) against its natural-language specification.

Bytes are modelled as `Nat` (the newline byte is `10`), buffers as `List Nat`,
strings as `List Char`.  A compiled regex is modelled by its `find` function
`List Nat → Option (Nat × Nat)`, returning the relative span of the first match
in a slice, as used by `search`.  Stateful Rust code is embedded by explicit
state passing; loops are embedded structurally with a fuel argument chosen
large enough that exhaustion is unreachable whenever the Rust loop terminates.
Rust panics (`unwrap` / `expect`) are modelled by `Option` / dedicated
outcome constructors.
-/

namespace Ru

set_option maxHeartbeats 1000000

/-! ### Pure line decomposition

`Lines::advance_to_line` (search.rs:143-156) finds the next line as the slice
up to and including the next `\n`, or the rest of the buffer.  `nextLineSlice`
is that one-line computation; `splitLines` applies it repeatedly, giving the
canonical line decomposition of a buffer.  -/

/-- The first line of a buffer slice: everything up to and including the
first newline byte, or the whole slice if it has no newline
(search.rs:148-151). -/
def nextLineSlice (l : List Nat) : List Nat :=
  match l.findIdx? (fun x => decide (x = 10)) with
  | some idx => l.take (idx + 1)
  | none => l

/-- Fuelled line splitting; fuel `l.length` always suffices because each
line consumes at least one byte. -/
def splitLinesF : Nat → List Nat → List (List Nat)
  | 0, _ => []
  | _, [] => []
  | fuel + 1, a :: l =>
    let t := nextLineSlice (a :: l)
    t :: splitLinesF fuel ((a :: l).drop t.length)

/-- All lines of a buffer, each including its terminating newline byte if
it has one (the final line may lack it). -/
def splitLines (l : List Nat) : List (List Nat) :=
  splitLinesF l.length l

/-- Number of lines of a buffer. -/
def numLines (buf : List Nat) : Nat :=
  (splitLines buf).length

/-- Byte offset of the start of line `n` (= total length of lines `0..n`). -/
def cum (buf : List Nat) (n : Nat) : Nat :=
  (((splitLines buf).take n).map List.length).sum

/-- Content of line `n` (empty list when out of range). -/
def lineAt (buf : List Nat) (n : Nat) : List Nat :=
  (splitLines buf).getD n []

theorem nextLineSlice_nil : nextLineSlice [] = [] := rfl

theorem nextLineSlice_ne_nil {l : List Nat} (h : l ≠ []) : nextLineSlice l ≠ [] := by
  unfold nextLineSlice
  match hf : l.findIdx? (fun x => decide (x = 10)) with
  | none => simpa using h
  | some idx =>
    simp only
    intro hc
    have : l = [] := by
      cases l with
      | nil => rfl
      | cons a l' => simp at hc
    exact h this

theorem nextLineSlice_length_pos {l : List Nat} (h : l ≠ []) :
    0 < (nextLineSlice l).length := by
  have := nextLineSlice_ne_nil h
  exact List.length_pos.mpr this

theorem nextLineSlice_le_length (l : List Nat) : (nextLineSlice l).length ≤ l.length := by
  unfold nextLineSlice
  match hf : l.findIdx? (fun x => decide (x = 10)) with
  | none => simp
  | some idx => simp

theorem nextLineSlice_prefix (l : List Nat) :
    l.take (nextLineSlice l).length = nextLineSlice l := by
  unfold nextLineSlice
  match hf : l.findIdx? (fun x => decide (x = 10)) with
  | none => simp
  | some idx =>
    simp only
    rw [List.length_take, List.take_eq_take]
    simp [Nat.min_assoc]

theorem splitLinesF_stable_aux :
    ∀ (n : Nat) (l : List Nat), l.length ≤ n → ∀ (f₁ f₂ : Nat), l.length ≤ f₁ →
      l.length ≤ f₂ → splitLinesF f₁ l = splitLinesF f₂ l := by
  intro n
  induction n with
  | zero =>
    intro l hl f₁ f₂ _ _
    have : l = [] := List.length_eq_zero.mp (by omega)
    subst this
    cases f₁ <;> cases f₂ <;> rfl
  | succ n ih =>
    intro l hl f₁ f₂ h₁ h₂
    cases l with
    | nil => cases f₁ <;> cases f₂ <;> rfl
    | cons a t =>
      have hlc : (a :: t).length = t.length + 1 := by simp
      cases f₁ with
      | zero => omega
      | succ f₁' =>
        cases f₂ with
        | zero => omega
        | succ f₂' =>
          simp only [splitLinesF]
          congr 1
          have hlp := nextLineSlice_length_pos (l := a :: t) (by simp)
          have hdrop : ((a :: t).drop (nextLineSlice (a :: t)).length).length
              = (a :: t).length - (nextLineSlice (a :: t)).length := by
            simp
          exact ih _ (by omega) _ _ (by omega) (by omega)

theorem splitLinesF_stable {l : List Nat} {f₁ f₂ : Nat}
    (h₁ : l.length ≤ f₁) (h₂ : l.length ≤ f₂) :
    splitLinesF f₁ l = splitLinesF f₂ l :=
  splitLinesF_stable_aux l.length l le_rfl f₁ f₂ h₁ h₂

theorem splitLines_nil : splitLines [] = [] := rfl

theorem splitLines_cons (a : Nat) (l : List Nat) :
    splitLines (a :: l) =
      nextLineSlice (a :: l) ::
        splitLines ((a :: l).drop (nextLineSlice (a :: l)).length) := by
  unfold splitLines
  have h1 : (a :: l).length = l.length + 1 := by simp
  rw [h1]
  simp only [splitLinesF]
  congr 1
  apply splitLinesF_stable
  · have := nextLineSlice_length_pos (l := a :: l) (by simp)
    simp only [List.length_drop]
    omega
  · exact le_rfl

theorem splitLines_ne_nil {l : List Nat} (h : l ≠ []) : splitLines l ≠ [] := by
  cases l with
  | nil => exact absurd rfl h
  | cons a t => rw [splitLines_cons]; simp

theorem splitLines_eq_nil_iff {l : List Nat} : splitLines l = [] ↔ l = [] := by
  constructor
  · intro h
    by_contra hne
    exact splitLines_ne_nil hne h
  · intro h; subst h; rfl

theorem splitLines_induction_aux (motive : List Nat → Prop)
    (hnil : motive [])
    (hcons : ∀ a l, motive ((a :: l).drop (nextLineSlice (a :: l)).length) →
      motive (a :: l)) :
    ∀ (n : Nat) (l : List Nat), l.length ≤ n → motive l := by
  intro n
  induction n with
  | zero =>
    intro l hl
    have : l = [] := List.length_eq_zero.mp (by omega)
    subst this
    exact hnil
  | succ n ih =>
    intro l hl
    cases l with
    | nil => exact hnil
    | cons a t =>
      apply hcons
      have hlp := nextLineSlice_length_pos (l := a :: t) (by simp)
      have hlc : (a :: t).length = t.length + 1 := by simp
      apply ih
      simp only [List.length_drop]
      omega

/-- Induction principle following the structure of `splitLines`. -/
theorem splitLines_induction (motive : List Nat → Prop)
    (hnil : motive [])
    (hcons : ∀ a l, motive ((a :: l).drop (nextLineSlice (a :: l)).length) →
      motive (a :: l)) :
    ∀ l, motive l := fun l =>
  splitLines_induction_aux motive hnil hcons l.length l le_rfl

theorem splitLines_flatten (l : List Nat) : (splitLines l).flatten = l := by
  induction l using splitLines_induction with
  | hnil => rfl
  | hcons a t ih =>
    rw [splitLines_cons, List.flatten_cons, ih]
    conv_rhs => rw [← List.take_append_drop (nextLineSlice (a :: t)).length (a :: t)]
    rw [ nextLineSlice_prefix]

theorem splitLines_mem_ne_nil {l x : List Nat} (h : x ∈ splitLines l) : x ≠ [] := by
  induction l using splitLines_induction with
  | hnil => simp [splitLines_nil] at h
  | hcons a t ih =>
    rw [splitLines_cons] at h
    rcases List.mem_cons.mp h with h1 | h2
    · subst h1; exact nextLineSlice_ne_nil (by simp)
    · exact ih h2

theorem numLines_le_length (l : List Nat) : numLines l ≤ l.length := by
  induction l using splitLines_induction with
  | hnil => simp [numLines, splitLines_nil]
  | hcons a t ih =>
    unfold numLines at *
    rw [splitLines_cons]
    have hlp := nextLineSlice_length_pos (l := a :: t) (by simp)
    have hlc : (a :: t).length = t.length + 1 := by simp
    simp only [List.length_cons]
    have hd : ((a :: t).drop (nextLineSlice (a :: t)).length).length
        = (a :: t).length - (nextLineSlice (a :: t)).length := by simp
    omega

theorem numLines_pos {l : List Nat} (h : l ≠ []) : 0 < numLines l := by
  have := splitLines_ne_nil h
  exact List.length_pos.mpr this

theorem cum_zero (buf : List Nat) : cum buf 0 = 0 := rfl

theorem cum_succ (buf : List Nat) (k : Nat) :
    cum buf (k + 1) = cum buf k + (lineAt buf k).length := by
  unfold cum lineAt
  rcases Nat.lt_or_ge k (splitLines buf).length with h | h
  · rw [List.take_succ, List.map_append, List.sum_append]
    congr 1
    simp [List.getElem?_eq_getElem h, List.getD]
  · rw [List.take_of_length_le (show (splitLines buf).length ≤ k + 1 by omega),
      List.take_of_length_le h, List.getD_eq_default _ _ h]
    simp

theorem cum_mono (buf : List Nat) {k m : Nat} (h : k ≤ m) : cum buf k ≤ cum buf m := by
  induction m with
  | zero =>
    have : k = 0 := by omega
    subst this
    exact le_rfl
  | succ m ih =>
    rcases Nat.lt_or_ge k (m + 1) with h2 | h2
    · have := ih (by omega)
      rw [cum_succ]
      omega
    · have : k = m + 1 := by omega
      subst this
      exact le_rfl

theorem lineAt_ne_nil {buf : List Nat} {k : Nat} (h : k < numLines buf) :
    lineAt buf k ≠ [] := by
  apply splitLines_mem_ne_nil (l := buf)
  unfold lineAt
  rw [List.getD_eq_getElem _ _ h]
  exact List.getElem_mem h

theorem cum_lt_succ {buf : List Nat} {k : Nat} (h : k < numLines buf) :
    cum buf k < cum buf (k + 1) := by
  rw [cum_succ]
  have := lineAt_ne_nil h
  have := List.length_pos.mpr this
  omega

theorem cum_strict_mono {buf : List Nat} {k m : Nat} (hk : k < m) (h : k < numLines buf) :
    cum buf k < cum buf m := by
  calc cum buf k < cum buf (k + 1) := cum_lt_succ h
    _ ≤ cum buf m := cum_mono buf hk

theorem cum_numLines (buf : List Nat) : cum buf (numLines buf) = buf.length := by
  unfold cum numLines
  rw [List.take_of_length_le le_rfl]
  conv_rhs => rw [← splitLines_flatten buf]
  rw [List.length_flatten]

theorem cum_of_ge {buf : List Nat} {k : Nat} (h : numLines buf ≤ k) :
    cum buf k = buf.length := by
  unfold cum
  rw [List.take_of_length_le h]
  have := cum_numLines buf
  unfold cum numLines at this
  rw [List.take_of_length_le le_rfl] at this
  exact this

theorem cum_le_length (buf : List Nat) (k : Nat) : cum buf k ≤ buf.length := by
  rcases Nat.lt_or_ge k (numLines buf) with h | h
  · have := cum_mono buf (Nat.le_of_lt h)
    rw [cum_numLines] at this
    exact this
  · rw [cum_of_ge h]

theorem cum_cons (a : Nat) (t : List Nat) (k : Nat) :
    cum (a :: t) (k + 1) =
      (nextLineSlice (a :: t)).length +
        cum ((a :: t).drop (nextLineSlice (a :: t)).length) k := by
  unfold cum
  rw [splitLines_cons]
  simp [Nat.add_comm]

theorem splitLines_drop_cum (buf : List Nat) :
    ∀ k, splitLines (buf.drop (cum buf k)) = (splitLines buf).drop k := by
  induction buf using splitLines_induction with
  | hnil => intro k; simp [splitLines_nil]
  | hcons a t ih =>
    intro k
    cases k with
    | zero => simp [cum_zero]
    | succ k =>
      have hdd : (a :: t).drop (cum (a :: t) (k + 1)) =
          ((a :: t).drop (nextLineSlice (a :: t)).length).drop
            (cum ((a :: t).drop (nextLineSlice (a :: t)).length) k) := by
        rw [cum_cons, List.drop_drop, Nat.add_comm]
      rw [hdd, splitLines_cons, ih k]
      simp

theorem numLines_drop_cum (buf : List Nat) (k : Nat) :
    numLines (buf.drop (cum buf k)) = numLines buf - k := by
  unfold numLines
  rw [splitLines_drop_cum]
  simp

theorem nextLineSlice_drop_cum {buf : List Nat} {k : Nat} (h : k < numLines buf) :
    nextLineSlice (buf.drop (cum buf k)) = lineAt buf k := by
  have hne : buf.drop (cum buf k) ≠ [] := by
    intro hc
    have h1 : splitLines (buf.drop (cum buf k)) = [] := by rw [hc]; rfl
    rw [splitLines_drop_cum] at h1
    have : (splitLines buf).length ≤ k := by
      have := List.drop_eq_nil_iff.mp h1
      exact this
    unfold numLines at h
    omega
  cases hd : buf.drop (cum buf k) with
  | nil => exact absurd hd hne
  | cons b u =>
    have h1 : splitLines (buf.drop (cum buf k)) = (splitLines buf).drop k :=
      splitLines_drop_cum buf k
    rw [hd, splitLines_cons] at h1
    have h2 : ((splitLines buf).drop k)[0]? = some (nextLineSlice (b :: u)) := by
      rw [← h1]; simp
    rw [List.getElem?_drop, Nat.add_zero] at h2
    rw [List.getElem?_eq_getElem h] at h2
    unfold lineAt
    rw [List.getD_eq_getElem _ _ h]
    exact (Option.some_injective _ h2).symm

theorem length_drop_cum (buf : List Nat) (k : Nat) :
    (buf.drop (cum buf k)).length = buf.length - cum buf k := by
  simp

/-- Least `j` with `o ≤ cum buf j` (the number of lines the cache builds when
advancing to byte offset `o`); search loop from `j = 0`. -/
def leastKGo (buf : List Nat) (o : Nat) : Nat → Nat → Nat
  | 0, j => j
  | fuel + 1, j => if o ≤ cum buf j then j else leastKGo buf o fuel (j + 1)

def leastK (buf : List Nat) (o : Nat) : Nat :=
  leastKGo buf o (numLines buf + 1) 0

theorem leastKGo_spec (buf : List Nat) (o : Nat) :
    ∀ (fuel j : Nat), (∀ i, i < j → cum buf i < o) →
      (∃ m, j ≤ m ∧ m < j + fuel + 1 ∧ o ≤ cum buf m) →
      o ≤ cum buf (leastKGo buf o fuel j) ∧
        (∀ i, i < leastKGo buf o fuel j → cum buf i < o) := by
  intro fuel
  induction fuel with
  | zero =>
    intro j hlow ⟨m, hm1, hm2, hm3⟩
    have : m = j := by omega
    subst this
    unfold leastKGo
    exact ⟨hm3, hlow⟩
  | succ fuel ih =>
    intro j hlow ⟨m, hm1, hm2, hm3⟩
    unfold leastKGo
    by_cases hc : o ≤ cum buf j
    · rw [if_pos hc]
      exact ⟨hc, hlow⟩
    · rw [if_neg hc]
      apply ih
      · intro i hi
        rcases Nat.lt_or_ge i j with h | h
        · exact hlow i h
        · have : i = j := by omega
          subst this
          omega
      · refine ⟨m, ?_, by omega, hm3⟩
        rcases Nat.lt_or_ge m (j + 1) with h | h
        · have : m = j := by omega
          subst this
          omega
        · exact h

theorem leastK_spec {buf : List Nat} {o : Nat} (h : o ≤ buf.length) :
    o ≤ cum buf (leastK buf o) ∧ (∀ i, i < leastK buf o → cum buf i < o) := by
  apply leastKGo_spec
  · intro i hi; omega
  · exact ⟨numLines buf, by omega, by omega, by rw [cum_numLines]; exact h⟩

theorem leastK_unique {buf : List Nat} {o j : Nat} (h : o ≤ buf.length)
    (h1 : o ≤ cum buf j) (h2 : ∀ i, i < j → cum buf i < o) : leastK buf o = j := by
  obtain ⟨g1, g2⟩ := leastK_spec h
  rcases Nat.lt_trichotomy (leastK buf o) j with hlt | heq | hgt
  · have := h2 _ hlt; omega
  · exact heq
  · have := g2 _ hgt; omega

theorem leastK_le_numLines {buf : List Nat} {o : Nat} (h : o ≤ buf.length) :
    leastK buf o ≤ numLines buf := by
  obtain ⟨g1, g2⟩ := leastK_spec h
  by_contra hc
  have := g2 (numLines buf) (by omega)
  rw [cum_numLines] at this
  omega

theorem leastK_gt_iff {buf : List Nat} {o j : Nat} (h : o ≤ buf.length) :
    j < leastK buf o ↔ cum buf j < o := by
  obtain ⟨g1, g2⟩ := leastK_spec h
  constructor
  · exact g2 j
  · intro hj
    by_contra hc
    have : leastK buf o ≤ j := by omega
    have := cum_mono buf this
    omega

/-- Largest index `i < k` with `cum buf i ≤ o`, defaulting to `0`: the value of
the reverse scan in `Lines::get_lineno` (search.rs:169-174) over a cache of
`k` built lines. -/
def lastLE (buf : List Nat) (o : Nat) : Nat → Nat
  | 0 => 0
  | k + 1 => if cum buf k ≤ o then k else lastLE buf o k

/-- Line index containing byte offset `o` (with `o = buf.length` mapped to the
last line): the reverse scan over the fully built cache. -/
def trueLine (buf : List Nat) (o : Nat) : Nat :=
  lastLE buf o (numLines buf)

theorem lastLE_lt {buf : List Nat} {o k : Nat} (h : 0 < k) : lastLE buf o k < k := by
  induction k with
  | zero => omega
  | succ k ih =>
    unfold lastLE
    by_cases hc : cum buf k ≤ o
    · simp [hc]
    · simp only [hc, if_false]
      cases k with
      | zero => unfold lastLE; omega
      | succ k' => have := ih (by omega); omega

theorem lastLE_cum_le (buf : List Nat) (o k : Nat) : cum buf (lastLE buf o k) ≤ o := by
  induction k with
  | zero => unfold lastLE; rw [cum_zero]; omega
  | succ k ih =>
    unfold lastLE
    by_cases hc : cum buf k ≤ o
    · simp [hc]
    · simpa [hc] using ih

theorem lastLE_above {buf : List Nat} {o k : Nat} :
    ∀ i, lastLE buf o k < i → i < k → o < cum buf i := by
  induction k with
  | zero => intro i h1 h2; omega
  | succ k ih =>
    intro i h1 h2
    unfold lastLE at h1
    by_cases hc : cum buf k ≤ o
    · simp only [hc, if_true] at h1; omega
    · simp only [hc, if_false] at h1
      rcases Nat.lt_or_ge i k with h | h
      · exact ih i h1 h
      · have : i = k := by omega
        subst this
        omega

theorem lastLE_unique {buf : List Nat} {o k j : Nat} (hj : j < k)
    (h1 : cum buf j ≤ o) (h2 : ∀ i, j < i → i < k → o < cum buf i) :
    lastLE buf o k = j := by
  induction k with
  | zero => omega
  | succ k ih =>
    unfold lastLE
    rcases Nat.lt_or_ge j k with h | h
    · have : ¬ (cum buf k ≤ o) := by
        have := h2 k (by omega) (by omega)
        omega
      simp only [this, if_false]
      exact ih h (fun i hi1 hi2 => h2 i hi1 (by omega))
    · have : j = k := by omega
      subst this
      simp [h1]

theorem lastLE_min {buf : List Nat} {o k : Nat} (hk : 0 < k)
    (hkN : k ≤ numLines buf) :
    lastLE buf o k = min (trueLine buf o) (k - 1) := by
  rcases Nat.lt_or_ge (trueLine buf o) k with h | h
  · rw [Nat.min_eq_left (by omega)]
    apply lastLE_unique h (lastLE_cum_le buf o (numLines buf))
    intro i hi1 hi2
    exact lastLE_above i hi1 (by omega)
  · rw [Nat.min_eq_right (by omega)]
    apply lastLE_unique (by omega)
    · have h1 : k - 1 ≤ trueLine buf o := by omega
      calc cum buf (k - 1) ≤ cum buf (trueLine buf o) := cum_mono buf h1
        _ ≤ o := lastLE_cum_le buf o (numLines buf)
    · intro i hi1 hi2; omega

theorem trueLine_lt_numLines {buf : List Nat} (h : 0 < numLines buf) (o : Nat) :
    trueLine buf o < numLines buf := lastLE_lt h

theorem trueLine_cum_le (buf : List Nat) (o : Nat) : cum buf (trueLine buf o) ≤ o :=
  lastLE_cum_le buf o (numLines buf)

theorem trueLine_above {buf : List Nat} {o : Nat} :
    ∀ i, trueLine buf o < i → i < numLines buf → o < cum buf i :=
  fun i h1 h2 => lastLE_above i h1 h2

theorem trueLine_unique {buf : List Nat} {o j : Nat} (hj : j < numLines buf)
    (h1 : cum buf j ≤ o) (h2 : ∀ i, j < i → i < numLines buf → o < cum buf i) :
    trueLine buf o = j := lastLE_unique hj h1 h2

theorem trueLine_cum {buf : List Nat} {n : Nat} (h : n < numLines buf) :
    trueLine buf (cum buf n) = n := by
  apply trueLine_unique h le_rfl
  intro i hi1 hi2
  exact cum_strict_mono hi1 h

theorem trueLine_mono (buf : List Nat) {o₁ o₂ : Nat} (h : o₁ ≤ o₂) :
    trueLine buf o₁ ≤ trueLine buf o₂ := by
  rcases Nat.eq_zero_or_pos (numLines buf) with h0 | h0
  · unfold trueLine
    rw [h0]
    unfold lastLE
    omega
  · by_contra hc
    have h1 : trueLine buf o₂ < trueLine buf o₁ := by omega
    have h2 := trueLine_above (o := o₂) (trueLine buf o₁) h1 (trueLine_lt_numLines h0 o₁)
    have h3 := trueLine_cum_le buf o₁
    omega

theorem trueLine_lt_cum_succ {buf : List Nat} {o : Nat} (h : o < buf.length) :
    o < cum buf (trueLine buf o + 1) := by
  have h0 : 0 < numLines buf := by
    apply numLines_pos
    intro hc
    subst hc
    simp at h
  rcases Nat.lt_or_ge (trueLine buf o + 1) (numLines buf) with h1 | h1
  · exact trueLine_above _ (by omega) h1
  · have := cum_of_ge h1
    omega

theorem trueLine_length (buf : List Nat) :
    trueLine buf buf.length = numLines buf - 1 := by
  rcases Nat.eq_zero_or_pos (numLines buf) with h0 | h0
  · unfold trueLine
    rw [h0]
    rfl
  · apply trueLine_unique (by omega)
    · have h1 : numLines buf - 1 ≤ numLines buf := by omega
      have := cum_mono buf h1
      rw [cum_numLines] at this
      exact this
    · intro i hi1 hi2; omega

theorem leastK_gt_trueLine {buf : List Nat} {s e : Nat} (he : e ≤ buf.length)
    (hse : s < e) (hs : cum buf (trueLine buf s) ≤ s) :
    trueLine buf s < leastK buf e := by
  rw [leastK_gt_iff he]
  omega

theorem lastLE_min_all {buf : List Nat} {o k : Nat} (hkN : k ≤ numLines buf) :
    lastLE buf o k = min (trueLine buf o) (k - 1) := by
  cases k with
  | zero => unfold lastLE; omega
  | succ k => exact lastLE_min (by omega) hkN

/-! ### The `Lines` cache (search.rs:129-194)

The stateful, lazily built line index.  `offset` is the frontier of the
scan; `lines` holds `(start_offset, slice)` pairs for the lines built so far.
Loops are embedded with a fuel parameter chosen so that exhaustion coincides
with states the Rust loop has already left (or in which it diverges, which is
unreachable from the `search` entry points proved below). -/

structure Lines where
  buf : List Nat
  offset : Nat
  lines : List (Nat × List Nat)

/-- Loop body of `Lines::advance_to_line` (search.rs:143-156): build one line
at a time until at least `lineno + 1` lines exist or EOF is hit.  At fuel 0
the loop condition is necessarily already false for the initial fuel
`lineno + 1` used by `advanceToLine`. -/
def advLineGo (lineno : Nat) : Nat → Lines → Bool × Lines
  | 0, ls => (decide (lineno + 1 ≤ ls.lines.length), ls)
  | fuel + 1, ls =>
    if ls.lines.length < lineno + 1 then
      if ls.buf.length = ls.offset then (false, ls)
      else
        let line := nextLineSlice (ls.buf.drop ls.offset)
        advLineGo lineno fuel
          { ls with lines := ls.lines ++ [(ls.offset, line)],
                    offset := ls.offset + line.length }
    else (true, ls)

def advanceToLine (ls : Lines) (lineno : Nat) : Bool × Lines :=
  advLineGo lineno (lineno + 1) ls

/-- Loop of `Lines::advance_to_offset` (search.rs:159-164).  When the target
offset is at most `buf.length` the fuel `target + 1` is never exhausted; for
larger targets the Rust loop diverges (never called from `search`). -/
def advOffGo (target : Nat) : Nat → Lines → Lines
  | 0, ls => ls
  | fuel + 1, ls =>
    if ls.offset < target then
      advOffGo target fuel (advanceToLine ls ls.lines.length).2
    else ls

def advanceToOffset (ls : Lines) (target : Nat) : Lines :=
  advOffGo target (target + 1) ls

/-- The `enumerate().rev()` scan of `Lines::get_lineno` (search.rs:169-174),
expressed on the reversed entry list: the index of an entry equals the length
of the remaining (earlier) entries. -/
def revScanGo (offset : Nat) : List (Nat × List Nat) → Nat
  | [] => 0
  | (o, _) :: rest => if o ≤ offset then rest.length else revScanGo offset rest

def getLineno (ls : Lines) (offset : Nat) : Nat × Lines :=
  let ls1 := advanceToOffset ls offset
  (revScanGo offset ls1.lines.reverse, ls1)

def getOffset (ls : Lines) (lineno : Nat) : Nat × Lines :=
  match advanceToLine ls lineno with
  | (true, ls1) => ((ls1.lines.getD lineno (0, [])).1, ls1)
  | (false, ls1) => (ls1.buf.length, ls1)

def getLine (ls : Lines) (lineno : Nat) : Option (List Nat) × Lines :=
  match advanceToLine ls lineno with
  | (true, ls1) => (some (ls1.lines.getD lineno (0, [])).2, ls1)
  | (false, ls1) => (none, ls1)

/-- Offset of the start of line `n`, with `buf.length` past EOF: the value
`Lines::get_offset` returns. -/
def offAt (buf : List Nat) (n : Nat) : Nat :=
  if n < numLines buf then cum buf n else buf.length

/-- The canonical cache contents after `k` lines have been built. -/
def cacheEntries (buf : List Nat) (k : Nat) : List (Nat × List Nat) :=
  (List.range k).map (fun i => (cum buf i, lineAt buf i))

/-- The canonical cache state after `k` lines have been built. -/
def mkCache (buf : List Nat) (k : Nat) : Lines :=
  ⟨buf, cum buf k, cacheEntries buf k⟩

@[simp] theorem mkCache_buf (buf : List Nat) (k : Nat) : (mkCache buf k).buf = buf := rfl

@[simp] theorem mkCache_offset (buf : List Nat) (k : Nat) :
    (mkCache buf k).offset = cum buf k := rfl

@[simp] theorem mkCache_lines (buf : List Nat) (k : Nat) :
    (mkCache buf k).lines = cacheEntries buf k := rfl

@[simp] theorem cacheEntries_length (buf : List Nat) (k : Nat) :
    (cacheEntries buf k).length = k := by
  unfold cacheEntries
  simp

theorem cacheEntries_succ (buf : List Nat) (k : Nat) :
    cacheEntries buf (k + 1) = cacheEntries buf k ++ [(cum buf k, lineAt buf k)] := by
  unfold cacheEntries
  rw [List.range_succ, List.map_append]
  simp

theorem cacheEntries_getD {buf : List Nat} {k n : Nat} (h : n < k) :
    (cacheEntries buf k).getD n (0, []) = (cum buf n, lineAt buf n) := by
  unfold cacheEntries
  rw [List.getD_eq_getElem _ _ (by simpa using h)]
  simp

theorem cum_eq_length_iff {buf : List Nat} {k : Nat} (hk : k ≤ numLines buf) :
    cum buf k = buf.length ↔ k = numLines buf := by
  constructor
  · intro h
    by_contra hc
    have h2 : k < numLines buf := by omega
    have := cum_strict_mono h2 h2
    rw [cum_numLines] at this
    omega
  · intro h
    subst h
    exact cum_numLines buf

theorem advLineGo_spec {buf : List Nat} (n : Nat) :
    ∀ (fuel k : Nat), k ≤ numLines buf → n + 1 - k ≤ fuel →
      advLineGo n fuel (mkCache buf k) =
        (decide (n < numLines buf), mkCache buf (max k (min (n + 1) (numLines buf)))) := by
  intro fuel
  induction fuel with
  | zero =>
    intro k hk hfuel
    have hkn : n + 1 ≤ k := by omega
    unfold advLineGo
    have h1 : (mkCache buf k).lines.length = k := cacheEntries_length buf k
    rw [h1]
    have h2 : max k (min (n + 1) (numLines buf)) = k := by omega
    rw [h2]
    congr 1
    simp only [decide_eq_decide]
    omega
  | succ fuel ih =>
    intro k hk hfuel
    unfold advLineGo
    simp only [mkCache_buf, mkCache_offset, mkCache_lines, cacheEntries_length]
    by_cases h1 : k < n + 1
    · rw [if_pos h1]
      by_cases h2 : buf.length = cum buf k
      · have hkN : k = numLines buf := (cum_eq_length_iff hk).mp h2.symm
        rw [if_pos h2]
        have h3 : max k (min (n + 1) (numLines buf)) = k := by omega
        rw [h3]
        congr 1
        exact (decide_eq_false (by omega)).symm
      · rw [if_neg h2]
        have hkN : k < numLines buf := by
          rcases Nat.lt_or_ge k (numLines buf) with h | h
          · exact h
          · have : k = numLines buf := by omega
            subst this
            exact absurd (cum_numLines buf).symm h2
        have hline : nextLineSlice (buf.drop (cum buf k)) = lineAt buf k :=
          nextLineSlice_drop_cum hkN
        show advLineGo n fuel
            ⟨buf, cum buf k + (nextLineSlice (buf.drop (cum buf k))).length,
              cacheEntries buf k ++ [(cum buf k, nextLineSlice (buf.drop (cum buf k)))]⟩ = _
        rw [hline, ← cum_succ, ← cacheEntries_succ]
        have hmk : (⟨buf, cum buf (k + 1), cacheEntries buf (k + 1)⟩ : Lines)
            = mkCache buf (k + 1) := rfl
        rw [hmk, ih (k + 1) (by omega) (by omega)]
        congr 2
        omega
    · rw [if_neg h1]
      have h3 : max k (min (n + 1) (numLines buf)) = k := by omega
      rw [h3]
      congr 1
      exact (decide_eq_true (by omega)).symm

theorem advanceToLine_spec {buf : List Nat} {k : Nat} (n : Nat) (hk : k ≤ numLines buf) :
    advanceToLine (mkCache buf k) n =
      (decide (n < numLines buf), mkCache buf (max k (min (n + 1) (numLines buf)))) :=
  advLineGo_spec n (n + 1) k hk (by omega)

theorem advOffGo_spec {buf : List Nat} {o : Nat} (ho : o ≤ buf.length) :
    ∀ (fuel k : Nat), k ≤ numLines buf → o - cum buf k ≤ fuel →
      advOffGo o fuel (mkCache buf k) = mkCache buf (max k (leastK buf o)) := by
  intro fuel
  induction fuel with
  | zero =>
    intro k hk hfuel
    have hco : o ≤ cum buf k := by omega
    have h2 : max k (leastK buf o) = k := by
      have : leastK buf o ≤ k := by
        by_contra hc
        have := (leastK_gt_iff ho).mp (by omega : k < leastK buf o)
        omega
      omega
    rw [h2]
    rfl
  | succ fuel ih =>
    intro k hk hfuel
    unfold advOffGo
    simp only [mkCache_offset, mkCache_lines, cacheEntries_length]
    by_cases h1 : cum buf k < o
    · rw [if_pos h1]
      have hkN : k < numLines buf := by
        by_contra hc
        have : k = numLines buf := by omega
        subst this
        rw [cum_numLines] at h1
        omega
      rw [advanceToLine_spec k hk]
      dsimp only
      have h2 : max k (min (k + 1) (numLines buf)) = k + 1 := by omega
      rw [h2]
      have h3 : cum buf k + 1 ≤ cum buf (k + 1) := cum_lt_succ hkN
      rw [ih (k + 1) (by omega) (by omega)]
      have h4 : k < leastK buf o := (leastK_gt_iff ho).mpr h1
      congr 1
      omega
    · rw [if_neg h1]
      have h2 : max k (leastK buf o) = k := by
        have : leastK buf o ≤ k := by
          by_contra hc
          have := (leastK_gt_iff ho).mp (by omega : k < leastK buf o)
          omega
        omega
      rw [h2]

theorem advanceToOffset_spec {buf : List Nat} {k o : Nat} (ho : o ≤ buf.length)
    (hk : k ≤ numLines buf) :
    advanceToOffset (mkCache buf k) o = mkCache buf (max k (leastK buf o)) :=
  advOffGo_spec ho (o + 1) k hk (by omega)

theorem revScanGo_cacheEntries (buf : List Nat) (o : Nat) :
    ∀ k, revScanGo o (cacheEntries buf k).reverse = lastLE buf o k := by
  intro k
  induction k with
  | zero => rfl
  | succ k ih =>
    rw [cacheEntries_succ, List.reverse_append]
    unfold revScanGo lastLE
    simp only [List.reverse_cons, List.reverse_nil, List.nil_append, List.cons_append,
      List.length_reverse, cacheEntries_length]
    by_cases h : cum buf k ≤ o
    · rw [if_pos h, if_pos h]
    · rw [if_neg h, if_neg h]
      exact ih

theorem getLineno_spec {buf : List Nat} {k o : Nat} (ho : o ≤ buf.length)
    (hk : k ≤ numLines buf) :
    getLineno (mkCache buf k) o =
      (min (trueLine buf o) (max k (leastK buf o) - 1),
        mkCache buf (max k (leastK buf o))) := by
  unfold getLineno
  rw [advanceToOffset_spec ho hk]
  dsimp only [mkCache_lines]
  rw [revScanGo_cacheEntries, lastLE_min_all]
  have := leastK_le_numLines ho
  omega

theorem getOffset_spec {buf : List Nat} {k : Nat} (n : Nat) (hk : k ≤ numLines buf) :
    getOffset (mkCache buf k) n =
      (offAt buf n, mkCache buf (max k (min (n + 1) (numLines buf)))) := by
  unfold getOffset
  rw [advanceToLine_spec n hk]
  by_cases h : n < numLines buf
  · rw [decide_eq_true h]
    dsimp only [mkCache_lines]
    have h2 : n < max k (min (n + 1) (numLines buf)) := by omega
    rw [cacheEntries_getD h2]
    unfold offAt
    rw [if_pos h]
  · rw [decide_eq_false h]
    dsimp only [mkCache_buf]
    unfold offAt
    rw [if_neg h]

theorem getLine_spec {buf : List Nat} {k : Nat} (n : Nat) (hk : k ≤ numLines buf) :
    getLine (mkCache buf k) n =
      (if n < numLines buf then some (lineAt buf n) else none,
        mkCache buf (max k (min (n + 1) (numLines buf)))) := by
  unfold getLine
  rw [advanceToLine_spec n hk]
  by_cases h : n < numLines buf
  · rw [decide_eq_true h, if_pos h]
    dsimp only [mkCache_lines]
    have h2 : n < max k (min (n + 1) (numLines buf)) := by omega
    rw [cacheEntries_getD h2]
  · rw [decide_eq_false h, if_neg h]

/-! ### Search data model (search.rs:16-65, options.rs:56-91) -/

/-- Case-sensitivity options (options.rs:56-60). -/
inductive Casing
  | Default
  | Smart
  | Insensitive
deriving DecidableEq

/-- The options consumed by `create_rx` and `search` (options.rs:64-91);
fields irrelevant to the verified components are omitted. -/
structure OptsR where
  pattern : List Char
  casing : Casing
  literal : Bool
  invert : Bool
  only_files : Option Bool
  max_count : Nat
  before : Nat
  after : Nat
  do_binaries : Bool

/-- `Match` (search.rs:18-29). -/
structure MatchR where
  lineno : Nat
  line : List Nat
  spans : List (Nat × Nat)
  before : List (List Nat)
  after : List (List Nat)
deriving DecidableEq

/-- `Match::new` (search.rs:32-40). -/
def matchNew (lineno : Nat) (line : List Nat) (spans : List (Nat × Nat)) : MatchR :=
  ⟨lineno, line, spans, [], []⟩

/-- `FileResult` (search.rs:45-54). -/
structure FileResultR where
  fname : List Char
  is_binary : Bool
  has_context : Bool
  -- `matches` is a Lean keyword; the source field name is `matches`
  matches_ : List MatchR
deriving DecidableEq

/-- `FileResult::new` (search.rs:57-64). -/
def fileResultNew (fname : List Char) : FileResultR :=
  ⟨fname, false, false, []⟩

/-- `normalized_path` (search.rs:96-105). -/
def normalizedPath (p : List Char) : List Char :=
  if p.take 2 = ['.', '/'] then p.drop 2
  else if p.take 2 = ['/', '/'] then p.drop 1
  else p

/-- `is_binary` (search.rs:112-127): empty files and UTF-8 BOM files are not
binary; otherwise any null byte among the first `min 512 len` bytes means
binary. -/
def isBinaryBuf (buf : List Nat) : Bool :=
  if buf.length = 0 then false
  else if 3 ≤ buf.length ∧ buf.take 3 = [0xEF, 0xBB, 0xBF] then false
  else (buf.take (min 512 buf.length)).contains 0

/-! ### Context collection (search.rs:197-213) -/

/-- Collect `get_line` results for the given line numbers, failing (like the
`unwrap` in the before-context loop) if any line is missing. -/
def getLinesRange : Lines → List Nat → Option (List (List Nat)) × Lines
  | ls, [] => (some [], ls)
  | ls, n :: ns =>
    match getLine ls n with
    | (none, ls1) => (none, ls1)
    | (some l, ls1) =>
      match getLinesRange ls1 ns with
      | (some rest, ls2) => (some (l :: rest), ls2)
      | (none, ls2) => (none, ls2)

/-- Collect `get_line` results for the given line numbers, skipping missing
lines (the `if let Some` in the after-context loop). -/
def getLinesRangeOpt : Lines → List Nat → List (List Nat) × Lines
  | ls, [] => ([], ls)
  | ls, n :: ns =>
    match getLine ls n with
    | (none, ls1) => getLinesRangeOpt ls1 ns
    | (some l, ls1) =>
      match getLinesRangeOpt ls1 ns with
      | (rest, ls2) => (l :: rest, ls2)

/-- `create_match` (search.rs:197-213).  The `expect` on the matched line and
the `unwrap` on before-context lines are modelled by the `none` result. -/
def createMatch (ls : Lines) (opts : OptsR) (lineno : Nat) : Option MatchR × Lines :=
  match getLine ls lineno with
  | (none, ls1) => (none, ls1)
  | (some line, ls1) =>
    let bres :=
      if 0 < opts.before then
        getLinesRange ls1 (List.range' (lineno - opts.before) (lineno - (lineno - opts.before)))
      else (some [], ls1)
    match bres with
    | (none, ls2) => (none, ls2)
    | (some bl, ls2) =>
      let ares :=
        if 0 < opts.after then
          getLinesRangeOpt ls2 (List.range' (lineno + 1) opts.after)
        else ([], ls2)
      (some { lineno := lineno + 1, line := line, spans := [], before := bl,
              after := ares.1 }, ares.2)

/-! ### The search loop (search.rs:216-307) -/

/-- Result of the `new_match!` macro (search.rs:216-227): `ret` is an early
`return $result` (max_count reached or only_files set), `panicked` a panic
inside `create_match`. -/
inductive NMRes
  | ret (r : FileResultR)
  | panicked
  | cont (ls : Lines) (r : FileResultR)

/-- `new_match!` (search.rs:216-227). -/
def newMatchM (ls : Lines) (opts : OptsR) (lineno : Nat) (res : FileResultR) : NMRes :=
  if opts.max_count ≤ res.matches_.length then .ret res
  else
    match createMatch ls opts lineno with
    | (none, _) => .panicked
    | (some m, ls1) =>
      let res1 := { res with matches_ := res.matches_ ++ [m] }
      if opts.only_files.isSome then .ret res1 else .cont ls1 res1

/-- Run `new_match!` for each line number in the list (the inverted-mode
`for` loops, search.rs:281-283 and 301-303). -/
def emitRange (opts : OptsR) : List Nat → Lines → FileResultR → NMRes
  | [], ls, res => .cont ls res
  | n :: ns, ls, res =>
    match newMatchM ls opts n res with
    | .cont ls1 res1 => emitRange opts ns ls1 res1
    | other => other

/-- `matched_lineno.wrapping_add(1)`: the initial `!0` sentinel is modelled by
`none`, whose successor is `0` (search.rs:249, 281, 301). -/
def mValOpt : Option Nat → Nat
  | none => 0
  | some j => j + 1

/-- Replace the last element of a list (`last_mut`). -/
def modifyLast (f : MatchR → MatchR) : List MatchR → List MatchR
  | [] => []
  | [x] => [f x]
  | x :: xs => x :: modifyLast f xs

/-- Append a span to the last match (search.rs:293-296). -/
def pushSpanLast (res : FileResultR) (sp : Nat × Nat) : FileResultR :=
  { res with matches_ := modifyLast (fun m => { m with spans := m.spans ++ [sp] }) res.matches_ }

/-- State of the scan loop: the line cache, the scan cursor `match_offset`,
`matched_lineno` (`none` = the `!0` sentinel) and the result being built. -/
structure LoopState where
  ls : Lines
  matchOffset : Nat
  matched : Option Nat
  res : FileResultR

/-- Outcome of one iteration of the `while let` loop (search.rs:251-298). -/
inductive StepRes
  | cont (st : LoopState)
  | brk (st : LoopState)
  | ret (r : FileResultR)
  | panicked

/-- One iteration of the scan loop of `search` (search.rs:251-298). -/
def searchStep (rx : List Nat → Option (Nat × Nat)) (opts : OptsR) (buf : List Nat)
    (st : LoopState) : StepRes :=
  match rx (buf.drop st.matchOffset) with
  | none => .brk st
  | some (s0, e0) =>
    let s := s0 + st.matchOffset
    let e := e0 + st.matchOffset
    let p1 := getLineno st.ls s
    let lineno := p1.1
    let p2 := getLineno p1.2 e
    let lineno_end := p2.1
    if lineno ≠ lineno_end then
      -- match spans multiple lines: skip to the start of the next line
      let p3 := getOffset p2.2 (lineno + 1)
      .cont { st with ls := p3.2, matchOffset := p3.1 }
    else if s = e ∧ s = buf.length then
      -- zero-width match at the end of the buffer
      .brk { st with ls := p2.2 }
    else
      let upd : Lines × Nat :=
        if s = e then
          -- zero-width match elsewhere: report this line, go to the next
          let p3 := getOffset p2.2 (lineno + 1)
          (p3.2, p3.1)
        else (p2.2, e)
      if opts.invert then
        if some lineno ≠ st.matched then
          match emitRange opts (List.range' (mValOpt st.matched) (lineno - mValOpt st.matched))
              upd.1 st.res with
          | .cont ls3 res1 => .cont ⟨ls3, upd.2, some lineno, res1⟩
          | .ret r => .ret r
          | .panicked => .panicked
        else .cont ⟨upd.1, upd.2, st.matched, st.res⟩
      else
        let nm : NMRes :=
          if some lineno ≠ st.matched then newMatchM upd.1 opts lineno st.res
          else .cont upd.1 st.res
        match nm with
        | .ret r => .ret r
        | .panicked => .panicked
        | .cont ls3 res1 =>
          let matched1 := if some lineno ≠ st.matched then some lineno else st.matched
          if res1.matches_.isEmpty then .cont ⟨ls3, upd.2, matched1, res1⟩
          else
            let p4 := getOffset ls3 lineno
            .cont ⟨p4.2, upd.2, matched1, pushSpanLast res1 (s - p4.1, e - p4.1)⟩

/-- Overall outcome of `search` on a buffer; `nofuel` marks fuel exhaustion,
which is proved unreachable for well-formed regex functions. -/
inductive SearchOutcome
  | ok (r : FileResultR)
  | panicked
  | nofuel
deriving DecidableEq

/-- The invert tail (search.rs:299-304) together with the final `result`
return: emit matches for the lines after the last matched one. -/
def invertTail (opts : OptsR) (buf : List Nat) (st : LoopState) : SearchOutcome :=
  if opts.invert then
    let p := getLineno st.ls buf.length
    match emitRange opts
        (List.range' (mValOpt st.matched) ((p.1 + 1) - mValOpt st.matched)) p.2 st.res with
    | .cont _ res1 => .ok res1
    | .ret r => .ok r
    | .panicked => .panicked
  else .ok st.res

/-- The `while let` loop of `search` (search.rs:251-298), with fuel. -/
def searchLoop (rx : List Nat → Option (Nat × Nat)) (opts : OptsR) (buf : List Nat) :
    Nat → LoopState → SearchOutcome
  | 0, _ => .nofuel
  | fuel + 1, st =>
    match searchStep rx opts buf st with
    | .cont st1 => searchLoop rx opts buf fuel st1
    | .brk st1 => invertTail opts buf st1
    | .ret r => .ok r
    | .panicked => .panicked

/-- `search` (search.rs:230-307).  The scan loop advances the cursor or grows
the line cache on every iteration, so fuel `2 * buf.length + 2` is never
exhausted (proved below for well-formed regex functions). -/
def search (rx : List Nat → Option (Nat × Nat)) (opts : OptsR) (path : List Char)
    (buf : List Nat) : SearchOutcome :=
  let res0 : FileResultR :=
    { fileResultNew (normalizedPath path) with
      has_context := 0 < opts.before ∨ 0 < opts.after }
  if isBinaryBuf buf then
    let res1 := { res0 with is_binary := true }
    if opts.do_binaries then
      if (rx buf).isSome then .ok { res1 with matches_ := [matchNew 0 [] []] }
      else .ok res1
    else .ok res1
  else
    searchLoop rx opts buf (2 * buf.length + 2)
      ⟨⟨buf, 0, []⟩, 0, none, res0⟩

/-- Well-formedness of a regex `find` function: a reported match lies within
the searched slice.  Every real regex engine satisfies this. -/
def RxWF (rx : List Nat → Option (Nat × Nat)) : Prop :=
  ∀ l s e, rx l = some (s, e) → s ≤ e ∧ e ≤ l.length

theorem mkCache_zero (buf : List Nat) : (⟨buf, 0, []⟩ : Lines) = mkCache buf 0 := rfl

theorem modifyLast_length (f : MatchR → MatchR) (l : List MatchR) :
    (modifyLast f l).length = l.length := by
  induction l with
  | nil => rfl
  | cons x xs ih =>
    cases xs with
    | nil => rfl
    | cons y ys =>
      show (x :: modifyLast f (y :: ys)).length = _
      simp only [List.length_cons]
      simpa using ih

theorem modifyLast_map_lineno (f : MatchR → MatchR)
    (hf : ∀ m, (f m).lineno = m.lineno) (l : List MatchR) :
    (modifyLast f l).map MatchR.lineno = l.map MatchR.lineno := by
  induction l with
  | nil => rfl
  | cons x xs ih =>
    cases xs with
    | nil => simp [modifyLast, hf]
    | cons y ys =>
      show (x :: modifyLast f (y :: ys)).map _ = _
      simp only [List.map_cons]
      rw [show (modifyLast f (y :: ys)).map MatchR.lineno
          = ((y :: ys).map MatchR.lineno) from ih]
      simp

theorem pushSpanLast_length (res : FileResultR) (sp : Nat × Nat) :
    (pushSpanLast res sp).matches_.length = res.matches_.length :=
  modifyLast_length _ _

theorem pushSpanLast_map_lineno (res : FileResultR) (sp : Nat × Nat) :
    (pushSpanLast res sp).matches_.map MatchR.lineno
      = res.matches_.map MatchR.lineno :=
  modifyLast_map_lineno (fun m => { m with spans := m.spans ++ [sp] })
    (fun _ => rfl) res.matches_

/-! ### Claim C3: the `max_count` bound -/

theorem newMatchM_length_ret {ls : Lines} {opts : OptsR} {n : Nat} {res : FileResultR}
    {r : FileResultR} (hlen : res.matches_.length ≤ opts.max_count)
    (h : newMatchM ls opts n res = .ret r) :
    r.matches_.length ≤ opts.max_count := by
  unfold newMatchM at h
  by_cases h1 : opts.max_count ≤ res.matches_.length
  · rw [if_pos h1] at h
    cases h
    exact hlen
  · rw [if_neg h1] at h
    match hc : createMatch ls opts n with
    | (none, ls1) => rw [hc] at h; cases h
    | (some m, ls1) =>
      rw [hc] at h
      dsimp only at h
      by_cases h2 : opts.only_files.isSome
      · rw [if_pos h2] at h
        cases h
        simp only [List.length_append, List.length_cons, List.length_nil]
        omega
      · rw [if_neg h2] at h
        cases h

theorem newMatchM_length_cont {ls : Lines} {opts : OptsR} {n : Nat} {res : FileResultR}
    {ls1 : Lines} {r : FileResultR} (hlen : res.matches_.length ≤ opts.max_count)
    (h : newMatchM ls opts n res = .cont ls1 r) :
    r.matches_.length ≤ opts.max_count := by
  unfold newMatchM at h
  by_cases h1 : opts.max_count ≤ res.matches_.length
  · rw [if_pos h1] at h
    cases h
  · rw [if_neg h1] at h
    match hc : createMatch ls opts n with
    | (none, ls2) => rw [hc] at h; cases h
    | (some m, ls2) =>
      rw [hc] at h
      dsimp only at h
      by_cases h2 : opts.only_files.isSome
      · rw [if_pos h2] at h
        cases h
      · rw [if_neg h2] at h
        cases h
        simp only [List.length_append, List.length_cons, List.length_nil]
        omega

theorem emitRange_length {opts : OptsR} :
    ∀ (ns : List Nat) (ls : Lines) (res : FileResultR),
      res.matches_.length ≤ opts.max_count →
      (∀ r, emitRange opts ns ls res = .ret r → r.matches_.length ≤ opts.max_count) ∧
      (∀ ls1 r, emitRange opts ns ls res = .cont ls1 r →
        r.matches_.length ≤ opts.max_count) := by
  intro ns
  induction ns with
  | nil =>
    intro ls res hlen
    constructor
    · intro r h
      cases h
    · intro ls1 r h
      cases h
      exact hlen
  | cons n ns ih =>
    intro ls res hlen
    constructor
    · intro r h
      unfold emitRange at h
      match hc : newMatchM ls opts n res with
      | .cont ls2 res2 =>
        rw [hc] at h
        exact (ih ls2 res2 (newMatchM_length_cont hlen hc)).1 r h
      | .ret r2 =>
        rw [hc] at h
        cases h
        exact newMatchM_length_ret hlen hc
      | .panicked => rw [hc] at h; cases h
    · intro ls1 r h
      unfold emitRange at h
      match hc : newMatchM ls opts n res with
      | .cont ls2 res2 =>
        rw [hc] at h
        exact (ih ls2 res2 (newMatchM_length_cont hlen hc)).2 ls1 r h
      | .ret r2 => rw [hc] at h; cases h
      | .panicked => rw [hc] at h; cases h

theorem searchStep_length {rx : List Nat → Option (Nat × Nat)} {opts : OptsR}
    {buf : List Nat} {st : LoopState}
    (hlen : st.res.matches_.length ≤ opts.max_count) :
    (∀ st1, searchStep rx opts buf st = .cont st1 →
      st1.res.matches_.length ≤ opts.max_count) ∧
    (∀ st1, searchStep rx opts buf st = .brk st1 →
      st1.res.matches_.length ≤ opts.max_count) ∧
    (∀ r, searchStep rx opts buf st = .ret r →
      r.matches_.length ≤ opts.max_count) := by
  unfold searchStep
  match hrx : rx (buf.drop st.matchOffset) with
  | none =>
    refine ⟨fun st1 h => (by cases h), fun st1 h => ?_, fun r h => (by cases h)⟩
    cases h
    exact hlen
  | some (s0, e0) =>
    dsimp only
    set s := s0 + st.matchOffset with hs
    set e := e0 + st.matchOffset with he
    set p1 := getLineno st.ls s with hp1
    set p2 := getLineno p1.2 e with hp2
    by_cases h1 : p1.1 ≠ p2.1
    · rw [if_pos h1]
      exact ⟨fun st1 h => (by cases h; exact hlen), fun st1 h => (by cases h),
        fun r h => (by cases h)⟩
    · rw [if_neg h1]
      by_cases h2 : s = e ∧ s = buf.length
      · rw [if_pos h2]
        exact ⟨fun st1 h => (by cases h), fun st1 h => (by cases h; exact hlen),
          fun r h => (by cases h)⟩
      · rw [if_neg h2]
        by_cases h3 : opts.invert
        · rw [if_pos h3]
          by_cases h4 : some p1.1 ≠ st.matched
          · rw [if_pos h4]
            match hc : emitRange opts
                (List.range' (mValOpt st.matched) (p1.1 - mValOpt st.matched))
                (if s = e then
                  ((getOffset p2.2 (p1.1 + 1)).2, (getOffset p2.2 (p1.1 + 1)).1)
                 else (p2.2, e)).1 st.res with
            | .cont ls3 res1 =>
              refine ⟨fun st1 h => ?_, fun st1 h => (by cases h), fun r h => (by cases h)⟩
              cases h
              exact (emitRange_length _ _ _ hlen).2 _ _ hc
            | .ret r2 =>
              refine ⟨fun st1 h => (by cases h), fun st1 h => (by cases h), fun r h => ?_⟩
              cases h
              exact (emitRange_length _ _ _ hlen).1 _ hc
            | .panicked =>
              exact ⟨fun st1 h => (by cases h), fun st1 h => (by cases h),
                fun r h => (by cases h)⟩
          · rw [if_neg h4]
            exact ⟨fun st1 h => (by cases h; exact hlen), fun st1 h => (by cases h),
              fun r h => (by cases h)⟩
        · rw [if_neg h3]
          match hnm : (if some p1.1 ≠ st.matched then
              newMatchM (if s = e then
                  ((getOffset p2.2 (p1.1 + 1)).2, (getOffset p2.2 (p1.1 + 1)).1)
                else (p2.2, e)).1 opts p1.1 st.res
            else .cont (if s = e then
                  ((getOffset p2.2 (p1.1 + 1)).2, (getOffset p2.2 (p1.1 + 1)).1)
                else (p2.2, e)).1 st.res) with
          | .ret r2 =>
            refine ⟨fun st1 h => (by cases h), fun st1 h => (by cases h), fun r h => ?_⟩
            cases h
            by_cases h4 : some p1.1 ≠ st.matched
            · rw [if_pos h4] at hnm
              exact newMatchM_length_ret hlen hnm
            · rw [if_neg h4] at hnm
              cases hnm
          | .panicked =>
            exact ⟨fun st1 h => (by cases h), fun st1 h => (by cases h),
              fun r h => (by cases h)⟩
          | .cont ls3 res1 =>
            dsimp only
            have hres1 : res1.matches_.length ≤ opts.max_count := by
              by_cases h4 : some p1.1 ≠ st.matched
              · rw [if_pos h4] at hnm
                exact newMatchM_length_cont hlen hnm
              · rw [if_neg h4] at hnm
                cases hnm
                exact hlen
            by_cases h5 : res1.matches_.isEmpty
            · rw [if_pos h5]
              exact ⟨fun st1 h => (by cases h; exact hres1), fun st1 h => (by cases h),
                fun r h => (by cases h)⟩
            · rw [if_neg h5]
              refine ⟨fun st1 h => ?_, fun st1 h => (by cases h), fun r h => (by cases h)⟩
              cases h
              simpa [pushSpanLast_length] using hres1

theorem invertTail_length {opts : OptsR} {buf : List Nat} {st : LoopState}
    {r : FileResultR} (hlen : st.res.matches_.length ≤ opts.max_count)
    (h : invertTail opts buf st = .ok r) :
    r.matches_.length ≤ opts.max_count := by
  unfold invertTail at h
  by_cases h1 : opts.invert
  · rw [if_pos h1] at h
    dsimp only at h
    match hc : emitRange opts
        (List.range' (mValOpt st.matched)
          (((getLineno st.ls buf.length).1 + 1) - mValOpt st.matched))
        (getLineno st.ls buf.length).2 st.res with
    | .cont ls1 res1 =>
      rw [hc] at h
      cases h
      exact (emitRange_length _ _ _ hlen).2 _ _ hc
    | .ret r2 =>
      rw [hc] at h
      cases h
      exact (emitRange_length _ _ _ hlen).1 _ hc
    | .panicked => rw [hc] at h; cases h
  · rw [if_neg h1] at h
    cases h
    exact hlen

theorem searchLoop_length {rx : List Nat → Option (Nat × Nat)} {opts : OptsR}
    {buf : List Nat} :
    ∀ (fuel : Nat) (st : LoopState) (r : FileResultR),
      st.res.matches_.length ≤ opts.max_count →
      searchLoop rx opts buf fuel st = .ok r →
      r.matches_.length ≤ opts.max_count := by
  intro fuel
  induction fuel with
  | zero => intro st r _ h; cases h
  | succ fuel ih =>
    intro st r hlen h
    unfold searchLoop at h
    match hc : searchStep rx opts buf st with
    | .cont st1 =>
      rw [hc] at h
      exact ih st1 r ((searchStep_length hlen).1 st1 hc) h
    | .brk st1 =>
      rw [hc] at h
      exact invertTail_length ((searchStep_length hlen).2.1 st1 hc) h
    | .ret r2 =>
      rw [hc] at h
      cases h
      exact (searchStep_length hlen).2.2 _ hc
    | .panicked => rw [hc] at h; cases h

end Ru

namespace Ru

/-! ### Concrete regex fixtures (used by witnesses and counterexamples) -/

/-- The `find` function of the single-byte literal regex matching byte `b`
(e.g. `/a/`): leftmost occurrence, one byte wide. -/
def rxByte (b : Nat) (l : List Nat) : Option (Nat × Nat) :=
  (l.findIdx? (fun x => decide (x = b))).map (fun i => (i, i + 1))

theorem rxByte_wf (b : Nat) : RxWF (rxByte b) := by
  intro l s e h
  unfold rxByte at h
  match hf : l.findIdx? (fun x => decide (x = b)) with
  | none => rw [hf] at h; cases h
  | some i =>
    rw [hf] at h
    cases h
    have := List.findIdx?_eq_some_iff_findIdx_eq.mp hf
    constructor
    · omega
    · omega

/-! ### Claim C3 -/

/-- Options for the C3 counterexample: `--search-binary -m 0`. -/
def c3opts : OptsR :=
  { pattern := [], casing := .Smart, literal := false, invert := false,
    only_files := none, max_count := 0, before := 0, after := 0,
    do_binaries := true }

/-- C3 counterexample: on the binary buffer `[0]` with `max_count = 0` and
`--search-binary`, `search` pushes its synthetic match without consulting
`max_count`, so the returned `FileResult` has `1 > 0 = max_count` matches.
This refutes the claim that `len(matches) ≤ max_count` holds for every
buffer whenever `max_count` is finite. -/
theorem C3_counterexample :
    ∃ r, search (rxByte 0) c3opts [] [0] = .ok r ∧
      ¬ (r.matches_.length ≤ c3opts.max_count) := by
  refine ⟨⟨[], true, false, [⟨0, [], [], [], []⟩]⟩, ?_, by decide⟩
  rfl

/-- C3 (amended): for every regex, option bundle and buffer (binary or text),
if `max_count ≥ 1` then the `FileResult` returned by `search` holds at most
`max_count` matches; moreover `new_match!` returns the current result
immediately, without pushing, whenever the limit has been reached.  (The
original claim fails only for `max_count = 0` on a binary buffer, where the
binary path pushes its single synthetic match unconditionally.) -/
theorem C3_max_count_bound (rx : List Nat → Option (Nat × Nat)) (opts : OptsR)
    (path : List Char) (buf : List Nat) (hmc : 1 ≤ opts.max_count) :
    (∀ r, search rx opts path buf = .ok r → r.matches_.length ≤ opts.max_count) ∧
    (∀ ls n res, opts.max_count ≤ res.matches_.length →
      newMatchM ls opts n res = .ret res) := by
  constructor
  · intro r h
    unfold search at h
    by_cases hbin : isBinaryBuf buf
    · rw [if_pos hbin] at h
      dsimp only at h
      by_cases hdb : opts.do_binaries
      · rw [if_pos hdb] at h
        by_cases hm : (rx buf).isSome
        · rw [if_pos hm] at h
          cases h
          simpa [fileResultNew] using hmc
        · rw [if_neg hm] at h
          cases h
          simp [fileResultNew]
      · rw [if_neg hdb] at h
        cases h
        simp [fileResultNew]
    · rw [if_neg hbin] at h
      exact searchLoop_length _ _ _ (by simp [fileResultNew]) h
  · intro ls n res hge
    unfold newMatchM
    rw [if_pos hge]

/-- Witness for C3: the hypotheses are satisfiable and the bound holds at a
concrete input (`/a/` on `"a\na\n"` with `max_count = 1`). -/
theorem C3_max_count_bound_witness :
    ∃ r, search (rxByte 97)
        { pattern := [], casing := .Smart, literal := false, invert := false,
          only_files := none, max_count := 1, before := 0, after := 0,
          do_binaries := false } [] [97, 10, 97, 10] = .ok r ∧
      r.matches_.length ≤ 1 := by
  obtain ⟨h1, _⟩ := C3_max_count_bound (rxByte 97)
    { pattern := [], casing := .Smart, literal := false, invert := false,
      only_files := none, max_count := 1, before := 0, after := 0,
      do_binaries := false } [] [97, 10, 97, 10] (by decide)
  refine ⟨⟨[], false, false, [⟨1, [97, 10], [(0, 1)], [], []⟩]⟩, rfl, ?_⟩
  exact h1 _ rfl

/-! ### Claim C7 -/

/-- C7: a buffer classified as binary yields `is_binary = true` and either no
matches (`do_binaries` unset, or the regex does not match the whole buffer) or
exactly one synthetic match with `lineno = 0`, empty `line` and empty `spans`
(and empty context). -/
theorem C7_binary_result (rx : List Nat → Option (Nat × Nat)) (opts : OptsR)
    (path : List Char) (buf : List Nat) (hbin : isBinaryBuf buf = true) :
    ∃ r, search rx opts path buf = .ok r ∧ r.is_binary = true ∧
      ((opts.do_binaries = true ∧ (rx buf).isSome = true ∧
          r.matches_ = [⟨0, [], [], [], []⟩]) ∨
        ((opts.do_binaries = false ∨ rx buf = none) ∧ r.matches_ = [])) := by
  unfold search
  rw [if_pos hbin]
  dsimp only
  by_cases hdb : opts.do_binaries
  · rw [if_pos hdb]
    by_cases hm : (rx buf).isSome
    · rw [if_pos hm]
      exact ⟨_, rfl, rfl, Or.inl ⟨hdb, hm, rfl⟩⟩
    · rw [if_neg hm]
      refine ⟨_, rfl, rfl, Or.inr ⟨Or.inr ?_, rfl⟩⟩
      cases hrx : rx buf with
      | none => rfl
      | some v => rw [hrx] at hm; simp at hm
  · rw [if_neg hdb]
    exact ⟨_, rfl, rfl, Or.inr ⟨Or.inl (by simpa using hdb), rfl⟩⟩

/-- Witness for C7 at the binary buffer `[0]` (S3 of the spec). -/
theorem C7_binary_result_witness :
    ∃ r, search (rxByte 0) c3opts [] [0] = .ok r ∧ r.is_binary = true ∧
      ((c3opts.do_binaries = true ∧ (rxByte 0 [0]).isSome = true ∧
          r.matches_ = [⟨0, [], [], [], []⟩]) ∨
        ((c3opts.do_binaries = false ∨ rxByte 0 [0] = none) ∧ r.matches_ = [])) :=
  C7_binary_result (rxByte 0) c3opts [] [0] (by decide)

/-! ### Claim C9 -/

/-- C9: on the empty buffer, with `invert` unset, `search` returns a
`FileResult` with `is_binary = false` and no matches, for every well-formed
regex — in particular for regexes matching the empty string, whose zero-width
match at offset 0 hits the `start == buf.len()` break. -/
theorem C9_empty_buffer (rx : List Nat → Option (Nat × Nat)) (opts : OptsR)
    (path : List Char) (hwf : RxWF rx) (hinv : opts.invert = false) :
    ∃ r, search rx opts path [] = .ok r ∧ r.is_binary = false ∧ r.matches_ = [] := by
  unfold search
  rw [if_neg (by decide : ¬ (isBinaryBuf [] = true))]
  dsimp only
  unfold searchLoop searchStep
  cases hrx : rx (([] : List Nat).drop 0) with
  | none =>
    dsimp only
    unfold invertTail
    rw [hinv]
    exact ⟨_, rfl, rfl, rfl⟩
  | some v =>
    obtain ⟨s0, e0⟩ := v
    have hwfv := hwf _ _ _ hrx
    have hs0 : s0 = 0 := by simp at hwfv; omega
    have he0 : e0 = 0 := by simp at hwfv; omega
    subst hs0; subst he0
    dsimp only
    rw [if_neg (by decide), if_pos (by decide)]
    unfold invertTail
    rw [hinv]
    exact ⟨_, rfl, rfl, rfl⟩

/-- Witness for C9: a concrete regex that matches the empty string
(`fun _ => some (0, 0)`, the find function of `/a*/` restricted to its
zero-width behaviour is well-formed) on the empty buffer. -/
theorem C9_empty_buffer_witness :
    ∃ r, search (fun _ => some (0, 0)) c3opts [] [] = .ok r ∧
      r.is_binary = false ∧ r.matches_ = [] :=
  C9_empty_buffer (fun _ => some (0, 0)) c3opts []
    (fun l s e h => by cases h; simp) rfl

/-! ### The ignore matcher (ignore.rs)

Strings are modelled as `List Char`, paths as their component lists
(`List (List Char)`), and a compiled glob `Pattern` abstractly by its
`matches_path_with` function on the relative path (the `MatchOptions` are the
fixed constant `OPTS` of ignore.rs:127-131). -/

/-- A compiled glob pattern, as its matching function on component paths. -/
def Pat : Type := List (List Char) → Bool

/-- `Ignores` (ignore.rs:17-29).  The `BTreeSet`s are modelled as lists
queried through `contains`. -/
structure Ignores where
  root : List (List Char)
  filenames : List (List Char)
  extensions : List (List Char)
  patterns : List Pat
  negated_patterns : List Pat

def startsWithChar (c : Char) : List Char → Bool
  | [] => false
  | x :: _ => decide (x = c)

/-- `str::trim`. -/
def trimChars (l : List Char) : List Char :=
  (((l.dropWhile Char.isWhitespace).reverse).dropWhile Char.isWhitespace).reverse

/-- `is_literal_filename` (ignore.rs:31-33). -/
def isLiteralFilename (s : List Char) : Bool :=
  s.all (fun v => ! (v = '*' ∨ v = '?' ∨ v = '[' ∨ v = ']' ∨ v = '/'))

/-- `is_literal_extension` (ignore.rs:35-37). -/
def isLiteralExtension (s : List Char) : Bool :=
  s.all (fun v => ! (v = '*' ∨ v = '?' ∨ v = '[' ∨ v = ']' ∨ v = '/' ∨ v = '.'))

/-- `add_pat` (ignore.rs:43-55): lines not anchored with a leading `/` get a
`**/` prefix before glob compilation; malformed globs (`compile` returns
`none`) are dropped. -/
def addPat (compile : List Char → Option Pat) (line : List Char) (vec : List Pat) :
    List Pat :=
  match compile (if ! startsWithChar '/' line then '*' :: '*' :: '/' :: line else line) with
  | some pat => vec ++ [pat]
  | none => vec

/-- Per-line body of `read_git_patterns_from` (ignore.rs:58-78). -/
def processLine (compile : List Char → Option Pat) (ign : Ignores)
    (rawLine : List Char) : Ignores :=
  let line := trimChars rawLine
  if line.isEmpty || startsWithChar '#' line then ign
  else if startsWithChar '!' line then
    { ign with negated_patterns := addPat compile (line.drop 1) ign.negated_patterns }
  else if isLiteralFilename line then
    { ign with filenames := ign.filenames ++ [line] }
  else if line.take 2 = ['*', '.'] ∧ isLiteralExtension (line.drop 2) then
    { ign with extensions := ign.extensions ++ [line.drop 2] }
  else { ign with patterns := addPat compile line ign.patterns }

/-- `Path::file_name`, on component paths. -/
def pathFileName (p : List (List Char)) : Option (List Char) :=
  p.getLast?

/-- `Path::extension` of a single file name: the part after the last dot,
none if there is no dot or the only dot is leading. -/
def extOfName (s : List Char) : Option (List Char) :=
  match s.reverse.findIdx? (fun c => decide (c = '.')) with
  | none => none
  | some rI =>
    let i := s.length - 1 - rI
    if i = 0 then none else some (s.drop (i + 1))

/-- `Path::extension`, on component paths. -/
def pathExtension (p : List (List Char)) : Option (List Char) :=
  (pathFileName p).bind extOfName

/-- `iter_after` / `relative_path_from` (ignore.rs:103-123): strip `base` as
a component prefix of `path`, `none` if it is not a prefix. -/
def iterAfter : List (List Char) → List (List Char) → Option (List (List Char))
  | l, [] => some l
  | [], _ :: _ => none
  | x :: xs, y :: ys => if x = y then iterAfter xs ys else none

/-- `match_patterns` (ignore.rs:126-165).  `none` models the panic of the
`relative_path_from(..).unwrap()` for a path outside a set's root. -/
def matchPatterns (path : List (List Char)) : List Ignores → Option Bool
  | [] => some false
  | ign :: rest =>
    let name := pathFileName path
    let ext := pathExtension path
    let step1 : Option Bool :=
      if name.any (fun n => ign.filenames.contains n) then some true
      else if ext.any (fun x => ign.extensions.contains x) then some true
      else if ign.patterns.isEmpty then some false
      else
        match iterAfter path ign.root with
        | none => none
        | some rp => some (ign.patterns.any (fun p => p rp))
    match step1 with
    | none => none
    | some ig =>
      if ig ∧ ! ign.negated_patterns.isEmpty then
        match iterAfter path ign.root with
        | none => none
        | some rp =>
          if ign.negated_patterns.any (fun p => p rp) then matchPatterns path rest
          else some true
      else if ig then some true
      else matchPatterns path rest

/-- One `IgnoreSet` decision, as claim C5 words it: the path is marked if the
basename is a literal filename, or the extension a literal extension, or any
positive glob matches the relative path; a negated-glob match then clears
the mark. -/
def setMarks (path : List (List Char)) (ign : Ignores) : Bool :=
  let rp := (iterAfter path ign.root).getD []
  ((pathFileName path).any (fun n => ign.filenames.contains n) ||
    (pathExtension path).any (fun x => ign.extensions.contains x) ||
    ign.patterns.any (fun p => p rp)) &&
  ! (ign.negated_patterns.any (fun p => p rp))

/-! ### The pattern compiler (search.rs:71-93) and C8 -/

/-- The structured compile error the spec calls `PatternError`: a message and
a byte offset (cf. `CompilationError` in pcre.rs:266-270). -/
structure CompileError where
  msg : List Char
  offset : Nat
deriving DecidableEq

/-- Possible behaviours of `create_rx` on a failing pattern.  The
`patternError` constructor expresses the behaviour claimed by the spec; the
code as written never produces it. -/
inductive CreateRxResult (R : Type) where
  | ok (rx : R)
  | patternError (e : CompileError)
  | panicked
deriving DecidableEq

/-- The characters escaped in literal mode (search.rs:75). -/
def escapeChars : List Char :=
  ['.', '?', '*', '+', '|', '^', '$', '(', ')', '\x7b', '\x7d', '[', ']', '\\']

/-- The pattern string handed to `Regex::new` by `create_rx`
(search.rs:71-92): literal escaping, then the `(?i)` prefix for insensitive
or lowercase-smart casing. -/
def buildPattern (opts : OptsR) : List Char :=
  let pattern := opts.pattern
  let pattern :=
    if opts.literal then
      pattern.flatMap (fun c => if escapeChars.contains c then ['\\', c] else [c])
    else pattern
  match opts.casing with
  | .Insensitive => '(' :: '?' :: 'i' :: ')' :: pattern
  | .Smart =>
    if ! pattern.any (fun c => c.isUpper) then '(' :: '?' :: 'i' :: ')' :: pattern
    else pattern
  | .Default => pattern

/-- `create_rx` (search.rs:71-93): the final `Regex::new(&pattern).unwrap()`
panics on a compile error; the error value is discarded. -/
def createRx {R : Type} (compile : List Char → Except CompileError R)
    (opts : OptsR) : CreateRxResult R :=
  match compile (buildPattern opts) with
  | .ok rx => .ok rx
  | .error _ => .panicked

/-- Whether `walk` (main.rs:41-106) reaches its directory traversal: the
regex is compiled (main.rs:45) before the `WalkDir` iterator is built
(main.rs:47-49), so a compile panic prevents the walk from starting. -/
inductive WalkStart (R : Type) where
  | notStarted
  | started (rx : R)
deriving DecidableEq

def walkPrelude {R : Type} (compile : List Char → Except CompileError R)
    (opts : OptsR) : WalkStart R :=
  match createRx compile opts with
  | .ok rx => .started rx
  | .patternError _ => .notStarted
  | .panicked => .notStarted

/-! ### Claim C5 -/

/-- C5: `match_patterns` processes the ignore stack from outermost to
innermost; within one set the path is marked ignored iff the basename is in
`literal_names`, or the extension is in `literal_extensions`, or some
positive glob matches the path relative to that set's root, and a match of
that set's negated patterns clears the mark; the first set that leaves the
path marked makes the function return `true` without consulting deeper sets,
and otherwise it returns `false`.  This is captured by equality with the
disjunction `stack.any (setMarks path)`.  The hypothesis asks each set's
root to be a component prefix of the path (as the walker guarantees);
otherwise the `relative_path_from(..).unwrap()` can panic. -/
theorem C5_ignore_stack (path : List (List Char)) :
    ∀ (stack : List Ignores), (∀ ign ∈ stack, (iterAfter path ign.root).isSome) →
      matchPatterns path stack = some (stack.any (fun ign => setMarks path ign)) := by
  intro stack
  induction stack with
  | nil => intro _; rfl
  | cons ign rest ih =>
    intro hpre
    have hsome : (iterAfter path ign.root).isSome :=
      hpre ign (List.mem_cons_self ign rest)
    obtain ⟨rp, hrp⟩ := Option.isSome_iff_exists.mp hsome
    have hrest : ∀ i ∈ rest, (iterAfter path i.root).isSome :=
      fun i hi => hpre i (List.mem_cons_of_mem ign hi)
    have hih := ih hrest
    have hgetD : (iterAfter path ign.root).getD [] = rp := by rw [hrp]; rfl
    have hmark : setMarks path ign =
        (((pathFileName path).any (fun n => ign.filenames.contains n) ||
          (pathExtension path).any (fun x => ign.extensions.contains x) ||
          ign.patterns.any (fun p => p rp)) &&
        ! (ign.negated_patterns.any (fun p => p rp))) := by
      unfold setMarks
      rw [hgetD]
    unfold matchPatterns
    dsimp only
    rw [hrp]
    rw [List.any_cons, hmark]
    cases h1 : (pathFileName path).any (fun n => ign.filenames.contains n) <;>
      cases h2 : (pathExtension path).any (fun x => ign.extensions.contains x) <;>
      cases hpe : ign.patterns.isEmpty <;>
      cases h3 : ign.patterns.any (fun p => p rp) <;>
      cases h5 : ign.negated_patterns.any (fun p => p rp) <;>
      cases hne : ign.negated_patterns.isEmpty <;>
      first
        | (rw [List.isEmpty_iff.mp hne] at h5
           simp only [List.any_nil] at h5
           exact Bool.noConfusion h5)
        | (rw [List.isEmpty_iff.mp hpe] at h3
           simp only [List.any_nil] at h3
           exact Bool.noConfusion h3)
        | (try rw [List.isEmpty_iff.mp hpe]
           simp [hih, h1, h2, h3, h5, hne, hpe])

/-- Witness for C5: a two-set stack where the outer set ignores nothing, the
inner set marks `src/x.log` via its extension list, and a negated pattern
does not rescue it: `matchPatterns` returns `some true` = the disjunction. -/
theorem C5_ignore_stack_witness :
    matchPatterns [['s', 'r', 'c'], ['x', '.', 'l', 'o', 'g']]
        [⟨[], [], [], [], []⟩,
         ⟨[['s', 'r', 'c']], [], [['l', 'o', 'g']], [], [fun _ => false]⟩] =
      some ([(⟨[], [], [], [], []⟩ : Ignores),
         ⟨[['s', 'r', 'c']], [], [['l', 'o', 'g']], [], [fun _ => false]⟩].any
        (fun ign => setMarks [['s', 'r', 'c'], ['x', '.', 'l', 'o', 'g']] ign)) := by
  apply C5_ignore_stack
  intro ign hmem
  rcases List.mem_cons.mp hmem with h | h
  · subst h; rfl
  · rcases List.mem_cons.mp h with h2 | h2
    · subst h2; rfl
    · cases h2

/-! ### Claim C10 -/

/-- C10: a gitignore line whose trimmed form starts with `!` has the rest
parsed as a glob with the same anchoring as positive patterns: without a
leading `/` the `**/` prefix is prepended before compilation, and the
compiled pattern is appended to `negated_patterns`; nothing else in the set
changes. -/
theorem C10_negated_anchoring (compile : List Char → Option Pat) (ign : Ignores)
    (l rest : List Char) (h1 : trimChars l = '!' :: rest)
    (h2 : startsWithChar '/' rest = false) :
    processLine compile ign l =
      { ign with negated_patterns :=
          match compile ('*' :: '*' :: '/' :: rest) with
          | some p => ign.negated_patterns ++ [p]
          | none => ign.negated_patterns } := by
  unfold processLine
  dsimp only
  rw [h1]
  rw [if_neg (by simp [startsWithChar])]
  rw [if_pos (by simp [startsWithChar])]
  unfold addPat
  rw [show ('!' :: rest).drop 1 = rest from rfl, h2]
  rfl

/-- Witness for C10 on the line `!foo` with an always-succeeding compiler. -/
theorem C10_negated_anchoring_witness :
    processLine (fun _ => some (fun _ => false)) ⟨[], [], [], [], []⟩
        ['!', 'f', 'o', 'o'] =
      { (⟨[], [], [], [], []⟩ : Ignores) with negated_patterns :=
          match ((fun _ => some (fun _ => false) : List Char → Option Pat)
              ('*' :: '*' :: '/' :: ['f', 'o', 'o'])) with
          | some p => [] ++ [p]
          | none => [] } :=
  C10_negated_anchoring (fun _ => some (fun _ => false)) ⟨[], [], [], [], []⟩
    ['!', 'f', 'o', 'o'] ['f', 'o', 'o'] (by decide) (by decide)

/-! ### Claim C8 -/

/-- C8 counterexample: with a compiler failing with message `bad` at offset
3, `create_rx` panics on the `unwrap` (search.rs:92) instead of producing
the structured `PatternError` the claim describes. -/
theorem C8_counterexample :
    createRx (fun _ => (Except.error ⟨['b', 'a', 'd'], 3⟩ : Except CompileError Unit))
        c3opts = .panicked ∧
    ∀ e : CompileError,
      createRx (fun _ => (Except.error ⟨['b', 'a', 'd'], 3⟩ : Except CompileError Unit))
        c3opts ≠ .patternError e := by
  constructor
  · rfl
  · intro e h
    cases h

/-- C8 (amended): on a pattern the engine rejects, `create_rx` panics via
`unwrap` — no structured error value is surfaced — and the directory walk is
not started (the panic happens in `walk` before the `WalkDir` iterator is
built). -/
theorem C8_compile_failure {R : Type} (compile : List Char → Except CompileError R)
    (opts : OptsR) (e : CompileError) (h : compile (buildPattern opts) = .error e) :
    createRx compile opts = .panicked ∧ walkPrelude compile opts = .notStarted := by
  constructor
  · unfold createRx
    rw [h]
  · unfold walkPrelude createRx
    rw [h]

/-- Witness for C8 with a concrete failing compiler. -/
theorem C8_compile_failure_witness :
    createRx (fun _ => (Except.error ⟨['x'], 0⟩ : Except CompileError Unit)) c3opts
        = .panicked ∧
      walkPrelude (fun _ => (Except.error ⟨['x'], 0⟩ : Except CompileError Unit)) c3opts
        = .notStarted :=
  C8_compile_failure (fun _ => Except.error ⟨['x'], 0⟩) c3opts ⟨['x'], 0⟩ rfl

/-! ### Characterisation of `create_match` (search.rs:197-213) -/

theorem getLinesRange_noop {buf : List Nat} {k : Nat} (hk : k ≤ numLines buf) :
    ∀ ns : List Nat, (∀ n ∈ ns, n < numLines buf) →
      (∀ n ∈ ns, min (n + 1) (numLines buf) ≤ k) →
      getLinesRange (mkCache buf k) ns =
        (some (ns.map (lineAt buf)), mkCache buf k) := by
  intro ns
  induction ns with
  | nil => intro _ _; rfl
  | cons n ns ih =>
    intro hlt hmin
    have h1 : n < numLines buf := hlt n (List.mem_cons_self n ns)
    have h2 : min (n + 1) (numLines buf) ≤ k := hmin n (List.mem_cons_self n ns)
    unfold getLinesRange
    rw [getLine_spec n hk, if_pos h1]
    have hmax : max k (min (n + 1) (numLines buf)) = k := by omega
    rw [hmax]
    dsimp only
    rw [ih (fun m hm => hlt m (List.mem_cons_of_mem n hm))
        (fun m hm => hmin m (List.mem_cons_of_mem n hm))]
    simp

theorem getLinesRangeOpt_spec {buf : List Nat} :
    ∀ (ns : List Nat) (k : Nat), k ≤ numLines buf →
      ∃ k', k ≤ k' ∧ k' ≤ numLines buf ∧
        getLinesRangeOpt (mkCache buf k) ns =
          ((ns.filter (fun n => decide (n < numLines buf))).map (lineAt buf),
            mkCache buf k') := by
  intro ns
  induction ns with
  | nil =>
    intro k hk
    exact ⟨k, le_rfl, hk, rfl⟩
  | cons n ns ih =>
    intro k hk
    unfold getLinesRangeOpt
    rw [getLine_spec n hk]
    by_cases h1 : n < numLines buf
    · rw [if_pos h1]
      have hk1 : max k (min (n + 1) (numLines buf)) ≤ numLines buf := by omega
      obtain ⟨k', hk'1, hk'2, hrec⟩ := ih (max k (min (n + 1) (numLines buf))) hk1
      refine ⟨k', by omega, hk'2, ?_⟩
      dsimp only
      rw [hrec]
      simp [h1]
    · rw [if_neg h1]
      have hk1 : max k (min (n + 1) (numLines buf)) ≤ numLines buf := by omega
      obtain ⟨k', hk'1, hk'2, hrec⟩ := ih (max k (min (n + 1) (numLines buf))) hk1
      refine ⟨k', by omega, hk'2, ?_⟩
      dsimp only
      rw [hrec]
      simp [h1]

theorem createMatch_some {buf : List Nat} {k l : Nat} (opts : OptsR)
    (hk : k ≤ numLines buf) (hl : l < numLines buf) :
    ∃ k', max k (min (l + 1) (numLines buf)) ≤ k' ∧ k' ≤ numLines buf ∧
      createMatch (mkCache buf k) opts l =
        (some { lineno := l + 1, line := lineAt buf l, spans := [],
                before := (List.range' (l - opts.before) (l - (l - opts.before))).map
                  (lineAt buf),
                after := ((List.range' (l + 1) opts.after).filter
                  (fun n => decide (n < numLines buf))).map (lineAt buf) },
          mkCache buf k') := by
  have hk1 : max k (min (l + 1) (numLines buf)) ≤ numLines buf := by omega
  unfold createMatch
  rw [getLine_spec l hk, if_pos hl]
  dsimp only
  have hbefore :
      (if 0 < opts.before then
        getLinesRange (mkCache buf (max k (min (l + 1) (numLines buf))))
          (List.range' (l - opts.before) (l - (l - opts.before)))
      else (some [], mkCache buf (max k (min (l + 1) (numLines buf))))) =
      (some ((List.range' (l - opts.before) (l - (l - opts.before))).map (lineAt buf)),
        mkCache buf (max k (min (l + 1) (numLines buf)))) := by
    by_cases hb : 0 < opts.before
    · rw [if_pos hb]
      apply getLinesRange_noop hk1
      · intro n hn
        have := List.mem_range'_1.mp hn
        omega
      · intro n hn
        have := List.mem_range'_1.mp hn
        omega
    · rw [if_neg hb]
      have hz : opts.before = 0 := by omega
      rw [hz]
      simp
  rw [hbefore]
  dsimp only
  by_cases ha : 0 < opts.after
  · rw [if_pos ha]
    obtain ⟨k', hk'1, hk'2, hrec⟩ :=
      getLinesRangeOpt_spec (List.range' (l + 1) opts.after)
        (max k (min (l + 1) (numLines buf))) hk1
    rw [hrec]
    exact ⟨k', hk'1, hk'2, rfl⟩
  · rw [if_neg ha]
    have hz : opts.after = 0 := by omega
    refine ⟨max k (min (l + 1) (numLines buf)), le_rfl, hk1, ?_⟩
    rw [hz]
    simp

theorem createMatch_none {buf : List Nat} {k l : Nat} (opts : OptsR)
    (hk : k ≤ numLines buf) (hl : numLines buf ≤ l) :
    createMatch (mkCache buf k) opts l = (none, mkCache buf (numLines buf)) := by
  unfold createMatch
  rw [getLine_spec l hk, if_neg (by omega)]
  dsimp only
  have : max k (min (l + 1) (numLines buf)) = numLines buf := by omega
  rw [this]

/-! ### Claim C6 -/

/-- C6: a `Match` created by `create_match` for (0-based) line `l` with
configured context sizes `B = opts.before`, `A = opts.after` carries exactly
the lines with indices in `[l - B, l)` as `before` (in order) and exactly the
lines with indices in `(l, l + A]`, truncated at EOF, as `after`; the lengths
are bounded by `B` and `A`, and `before` (resp. `after`) is empty when
`B = 0` (resp. `A = 0`). -/
theorem C6_context_bounds (buf : List Nat) (opts : OptsR) (k l : Nat)
    (hk : k ≤ numLines buf) (hl : l < numLines buf) :
    ∃ m ls', createMatch (mkCache buf k) opts l = (some m, ls') ∧
      m.lineno = l + 1 ∧ m.line = lineAt buf l ∧
      m.before = (List.range' (l - opts.before) (l - (l - opts.before))).map
        (lineAt buf) ∧
      m.after = ((List.range' (l + 1) opts.after).filter
        (fun n => decide (n < numLines buf))).map (lineAt buf) ∧
      m.before.length ≤ opts.before ∧ m.after.length ≤ opts.after ∧
      (opts.before = 0 → m.before = []) ∧ (opts.after = 0 → m.after = []) := by
  obtain ⟨k', _, _, hcm⟩ := createMatch_some opts hk hl
  refine ⟨_, _, hcm, rfl, rfl, rfl, rfl, ?_, ?_, ?_, ?_⟩
  · simp only [List.length_map, List.length_range']
    omega
  · simp only [List.length_map]
    calc (List.filter (fun n => decide (n < numLines buf))
          (List.range' (l + 1) opts.after)).length
        ≤ (List.range' (l + 1) opts.after).length := List.length_filter_le _ _
      _ = opts.after := by simp
  · intro h
    simp [h]
  · intro h
    simp [h]

/-- Witness for C6: the spec's S5 scenario (`"1\n2\n3\n4\n5\n"`, match on
line 3, `-B 1 -A 1`). -/
theorem C6_context_bounds_witness :
    ∃ m ls', createMatch (mkCache [49, 10, 50, 10, 51, 10, 52, 10, 53, 10] 0)
        { pattern := [], casing := .Smart, literal := false, invert := false,
          only_files := none, max_count := 1000, before := 1, after := 1,
          do_binaries := false } 2 = (some m, ls') ∧
      m.lineno = 3 ∧ m.line = lineAt [49, 10, 50, 10, 51, 10, 52, 10, 53, 10] 2 ∧
      m.before = (List.range' 1 1).map (lineAt [49, 10, 50, 10, 51, 10, 52, 10, 53, 10]) ∧
      m.after = ((List.range' 3 1).filter
        (fun n => decide (n < numLines [49, 10, 50, 10, 51, 10, 52, 10, 53, 10]))).map
        (lineAt [49, 10, 50, 10, 51, 10, 52, 10, 53, 10]) ∧
      m.before.length ≤ 1 ∧ m.after.length ≤ 1 ∧
      ((1 : Nat) = 0 → m.before = []) ∧ ((1 : Nat) = 0 → m.after = []) :=
  C6_context_bounds [49, 10, 50, 10, 51, 10, 52, 10, 53, 10]
    { pattern := [], casing := .Smart, literal := false, invert := false,
      only_files := none, max_count := 1000, before := 1, after := 1,
      do_binaries := false } 0 2 (by decide) (by decide)


/-! ### The scan step on canonical cache states

`searchStepP` is `searchStep` with the two `get_lineno` calls and the
`get_offset (lineno + 1)` calls resolved into their closed forms on a
canonical cache (`getLineno_spec`, `getOffset_spec`); `searchStep_eq_pure`
proves the two agree.  All further reasoning about the loop happens on this
form. -/

def searchStepP (rx : List Nat → Option (Nat × Nat)) (opts : OptsR) (buf : List Nat)
    (k mo : Nat) (m : Option Nat) (res : FileResultR) : StepRes :=
  match rx (buf.drop mo) with
  | none => .brk ⟨mkCache buf k, mo, m, res⟩
  | some (s0, e0) =>
    let s := s0 + mo
    let e := e0 + mo
    let k1 := max k (leastK buf s)
    let l1 := min (trueLine buf s) (k1 - 1)
    let k2 := max k1 (leastK buf e)
    let l2 := min (trueLine buf e) (k2 - 1)
    if l1 ≠ l2 then
      .cont ⟨mkCache buf (max k2 (min (l1 + 1 + 1) (numLines buf))), offAt buf (l1 + 1),
        m, res⟩
    else if s = e ∧ s = buf.length then .brk ⟨mkCache buf k2, mo, m, res⟩
    else
      let kmo : Nat × Nat :=
        if s = e then (max k2 (min (l1 + 1 + 1) (numLines buf)), offAt buf (l1 + 1))
        else (k2, e)
      if opts.invert then
        if some l1 ≠ m then
          match emitRange opts (List.range' (mValOpt m) (l1 - mValOpt m))
              (mkCache buf kmo.1) res with
          | .cont ls3 res1 => .cont ⟨ls3, kmo.2, some l1, res1⟩
          | .ret r => .ret r
          | .panicked => .panicked
        else .cont ⟨mkCache buf kmo.1, kmo.2, m, res⟩
      else
        let nm : NMRes :=
          if some l1 ≠ m then newMatchM (mkCache buf kmo.1) opts l1 res
          else .cont (mkCache buf kmo.1) res
        match nm with
        | .ret r => .ret r
        | .panicked => .panicked
        | .cont ls3 res1 =>
          let matched1 := if some l1 ≠ m then some l1 else m
          if res1.matches_.isEmpty then .cont ⟨ls3, kmo.2, matched1, res1⟩
          else
            let p4 := getOffset ls3 l1
            .cont ⟨p4.2, kmo.2, matched1, pushSpanLast res1 (s - p4.1, e - p4.1)⟩

theorem searchStep_eq_pure {rx : List Nat → Option (Nat × Nat)} {opts : OptsR}
    {buf : List Nat} {k mo : Nat} {m : Option Nat} {res : FileResultR}
    (hwf : RxWF rx) (hk : k ≤ numLines buf) (hmo : mo ≤ buf.length) :
    searchStep rx opts buf ⟨mkCache buf k, mo, m, res⟩ =
      searchStepP rx opts buf k mo m res := by
  unfold searchStep searchStepP
  cases hrx : rx (buf.drop mo) with
  | none => rfl
  | some v =>
    obtain ⟨s0, e0⟩ := v
    obtain ⟨hse, hel⟩ := hwf _ _ _ hrx
    rw [List.length_drop] at hel
    have hs : s0 + mo ≤ buf.length := by omega
    have he : e0 + mo ≤ buf.length := by omega
    dsimp only
    rw [getLineno_spec hs hk]
    have hk1 : max k (leastK buf (s0 + mo)) ≤ numLines buf := by
      have := leastK_le_numLines hs
      omega
    rw [getLineno_spec he hk1]
    have hk2 : max (max k (leastK buf (s0 + mo))) (leastK buf (e0 + mo))
        ≤ numLines buf := by
      have := leastK_le_numLines he
      omega
    by_cases h1 : min (trueLine buf (s0 + mo)) (max k (leastK buf (s0 + mo)) - 1)
        ≠ min (trueLine buf (e0 + mo))
          (max (max k (leastK buf (s0 + mo))) (leastK buf (e0 + mo)) - 1)
    · rw [if_pos h1, if_pos h1, getOffset_spec _ hk2]
    · rw [if_neg h1, if_neg h1]
      by_cases h2 : s0 + mo = e0 + mo ∧ s0 + mo = buf.length
      · rw [if_pos h2, if_pos h2]
      · rw [if_neg h2, if_neg h2]
        by_cases h3 : s0 + mo = e0 + mo
        · rw [if_pos h3, if_pos h3, getOffset_spec _ hk2]
        · rw [if_neg h3, if_neg h3]


/-! ### Emission characterisation -/

/-- The `Match` record `create_match` builds for line `l` (closed form). -/
def cmLine (buf : List Nat) (opts : OptsR) (l : Nat) : MatchR :=
  { lineno := l + 1, line := lineAt buf l, spans := [],
    before := (List.range' (l - opts.before) (l - (l - opts.before))).map (lineAt buf),
    after := ((List.range' (l + 1) opts.after).filter
      (fun n => decide (n < numLines buf))).map (lineAt buf) }

/-- `FileResult` with one appended match. -/
def resPush (res : FileResultR) (m : MatchR) : FileResultR :=
  { res with matches_ := res.matches_ ++ [m] }

theorem createMatch_cmLine {buf : List Nat} {k l : Nat} (opts : OptsR)
    (hk : k ≤ numLines buf) (hl : l < numLines buf) :
    ∃ k', max k (min (l + 1) (numLines buf)) ≤ k' ∧ k' ≤ numLines buf ∧
      createMatch (mkCache buf k) opts l = (some (cmLine buf opts l), mkCache buf k') :=
  createMatch_some opts hk hl

theorem newMatchM_full {buf : List Nat} {k l : Nat} {opts : OptsR} {res : FileResultR}
    (hge : opts.max_count ≤ res.matches_.length) :
    newMatchM (mkCache buf k) opts l res = .ret res := by
  unfold newMatchM
  rw [if_pos hge]

theorem newMatchM_panic {buf : List Nat} {k l : Nat} {opts : OptsR} {res : FileResultR}
    (hk : k ≤ numLines buf) (hl : numLines buf ≤ l)
    (hlt : res.matches_.length < opts.max_count) :
    newMatchM (mkCache buf k) opts l res = .panicked := by
  unfold newMatchM
  rw [if_neg (by omega), createMatch_none opts hk hl]

theorem newMatchM_push {buf : List Nat} {k l : Nat} {opts : OptsR} {res : FileResultR}
    (hk : k ≤ numLines buf) (hl : l < numLines buf)
    (hlt : res.matches_.length < opts.max_count) :
    (opts.only_files.isSome ∧
      newMatchM (mkCache buf k) opts l res = .ret (resPush res (cmLine buf opts l))) ∨
    (opts.only_files = none ∧
      ∃ k', max k (min (l + 1) (numLines buf)) ≤ k' ∧ k' ≤ numLines buf ∧
        newMatchM (mkCache buf k) opts l res =
          .cont (mkCache buf k') (resPush res (cmLine buf opts l))) := by
  obtain ⟨k', hk'1, hk'2, hcm⟩ := createMatch_cmLine opts hk hl
  unfold newMatchM
  rw [if_neg (by omega), hcm]
  dsimp only
  by_cases hof : opts.only_files.isSome
  · left
    rw [if_pos hof]
    exact ⟨hof, rfl⟩
  · right
    rw [if_neg hof]
    refine ⟨?_, k', hk'1, hk'2, rfl⟩
    cases h : opts.only_files with
    | none => rfl
    | some b => rw [h] at hof; simp at hof

/-- `emitRange` on an in-bounds line list with sufficient `max_count` head
room and `only_files` unset appends exactly one match per line. -/
theorem emitRange_spec {buf : List Nat} {opts : OptsR} (hof : opts.only_files = none) :
    ∀ (ns : List Nat) (k : Nat) (res : FileResultR), k ≤ numLines buf →
      (∀ n ∈ ns, n < numLines buf) →
      res.matches_.length + ns.length ≤ opts.max_count →
      ∃ k', k ≤ k' ∧ k' ≤ numLines buf ∧
        emitRange opts ns (mkCache buf k) res =
          .cont (mkCache buf k')
            { res with matches_ := res.matches_ ++ ns.map (cmLine buf opts) } := by
  intro ns
  induction ns with
  | nil =>
    intro k res hk _ _
    refine ⟨k, le_rfl, hk, ?_⟩
    show NMRes.cont (mkCache buf k) res = _
    congr 1
    · cases res with
      | mk a b c d => simp
  | cons n ns ih =>
    intro k res hk hlt hcnt
    have hn : n < numLines buf := hlt n (List.mem_cons_self n ns)
    have hlen : res.matches_.length < opts.max_count := by
      simp only [List.length_cons] at hcnt
      omega
    rcases @newMatchM_push buf k n opts res hk hn hlen with ⟨hsome, _⟩ | ⟨_, k1, hk11, hk12, hnm⟩
    · rw [hof] at hsome
      simp at hsome
    · unfold emitRange
      rw [hnm]
      dsimp only
      have hcnt1 : (resPush res (cmLine buf opts n)).matches_.length + ns.length
          ≤ opts.max_count := by
        simp only [resPush, List.length_append, List.length_cons, List.length_nil]
        simp only [List.length_cons] at hcnt
        omega
      obtain ⟨k', hk'1, hk'2, hrec⟩ := ih k1 (resPush res (cmLine buf opts n)) hk12
        (fun x hx => hlt x (List.mem_cons_of_mem n hx)) hcnt1
      refine ⟨k', by omega, hk'2, ?_⟩
      rw [hrec]
      congr 1
      simp [resPush]

/-- `emitRange` outcomes in general (possibly cut short by `max_count` or
`only_files`): the result extends `res` by matches for a prefix of the line
list, and a `cont` state is a canonical cache. -/
theorem emitRange_val {buf : List Nat} {opts : OptsR} :
    ∀ (ns : List Nat) (k : Nat) (res : FileResultR), k ≤ numLines buf →
      (∀ n ∈ ns, n < numLines buf) →
      (∀ ls1 r, emitRange opts ns (mkCache buf k) res = .cont ls1 r →
        ∃ t k', t ≤ ns.length ∧ k ≤ k' ∧ k' ≤ numLines buf ∧ ls1 = mkCache buf k' ∧
          r.matches_ = res.matches_ ++ (ns.take t).map (cmLine buf opts)) ∧
      (∀ r, emitRange opts ns (mkCache buf k) res = .ret r →
        ∃ t, t ≤ ns.length ∧
          r.matches_ = res.matches_ ++ (ns.take t).map (cmLine buf opts)) := by
  intro ns
  induction ns with
  | nil =>
    intro k res hk _
    constructor
    · intro ls1 r h
      cases h
      exact ⟨0, k, by omega, le_rfl, hk, rfl, by simp⟩
    · intro r h
      cases h
  | cons n ns ih =>
    intro k res hk hlt
    have hn : n < numLines buf := hlt n (List.mem_cons_self n ns)
    by_cases hlen : res.matches_.length < opts.max_count
    · rcases @newMatchM_push buf k n opts res hk hn hlen with ⟨_, hnm⟩ | ⟨_, k1, hk11, hk12, hnm⟩
      · constructor
        · intro ls1 r h
          unfold emitRange at h
          rw [hnm] at h
          cases h
        · intro r h
          unfold emitRange at h
          rw [hnm] at h
          cases h
          exact ⟨1, by simp, by simp [resPush]⟩
      · obtain ⟨ihc, ihr⟩ := ih k1 (resPush res (cmLine buf opts n)) hk12
          (fun x hx => hlt x (List.mem_cons_of_mem n hx))
        constructor
        · intro ls1 r h
          unfold emitRange at h
          rw [hnm] at h
          obtain ⟨t, k', ht, hk'1, hk'2, hls, hr⟩ := ihc ls1 r h
          refine ⟨t + 1, k', by simp; omega, by omega, hk'2, hls, ?_⟩
          rw [hr]
          simp [resPush]
        · intro r h
          unfold emitRange at h
          rw [hnm] at h
          obtain ⟨t, ht, hr⟩ := ihr r h
          refine ⟨t + 1, by simp; omega, ?_⟩
          rw [hr]
          simp [resPush]
    · have hnm := @newMatchM_full buf k n opts res (by omega)
      constructor
      · intro ls1 r h
        unfold emitRange at h
        rw [hnm] at h
        cases h
      · intro r h
        unfold emitRange at h
        rw [hnm] at h
        cases h
        exact ⟨0, by omega, by simp⟩


/-! ### Loop invariants -/

/-- Every match `search` emits in the text path describes a real source line:
1-based `lineno`, the full line bytes (newline terminator included), and
context lines that are themselves source lines. -/
def MatchP (buf : List Nat) (m : MatchR) : Prop :=
  ∃ l, l < numLines buf ∧ m.lineno = l + 1 ∧ m.line = lineAt buf l ∧
    (∀ bl ∈ m.before, ∃ j, j < numLines buf ∧ bl = lineAt buf j) ∧
    (∀ al ∈ m.after, ∃ j, j < numLines buf ∧ al = lineAt buf j)

/-- Result invariant: line numbers strictly increasing and bounded by `mval`,
and every match describes a source line. -/
def ResInv (buf : List Nat) (mval : Nat) (res : FileResultR) : Prop :=
  List.Pairwise (· < ·) (res.matches_.map MatchR.lineno) ∧
  (∀ x ∈ res.matches_.map MatchR.lineno, x ≤ mval) ∧
  (∀ mm ∈ res.matches_, MatchP buf mm)

theorem cmLine_MatchP {buf : List Nat} {l : Nat} (opts : OptsR)
    (hl : l < numLines buf) : MatchP buf (cmLine buf opts l) := by
  refine ⟨l, hl, rfl, rfl, ?_, ?_⟩
  · intro bl hbl
    unfold cmLine at hbl
    simp only [List.mem_map] at hbl
    obtain ⟨j, hj1, hj2⟩ := hbl
    have := List.mem_range'_1.mp hj1
    exact ⟨j, by omega, hj2.symm⟩
  · intro al hal
    unfold cmLine at hal
    simp only [List.mem_map, List.mem_filter] at hal
    obtain ⟨j, ⟨_, hj1⟩, hj2⟩ := hal
    exact ⟨j, by simpa using hj1, hj2.symm⟩

theorem ResInv_mono {buf : List Nat} {mval mval' : Nat} {res : FileResultR}
    (h : mval ≤ mval') (hres : ResInv buf mval res) : ResInv buf mval' res :=
  ⟨hres.1, fun x hx => le_trans (hres.2.1 x hx) h, hres.2.2⟩

theorem ResInv_empty_of_zero {buf : List Nat} {mval : Nat} {res : FileResultR}
    (hN : numLines buf = 0) (hres : ResInv buf mval res) : res.matches_ = [] := by
  cases hm : res.matches_ with
  | nil => rfl
  | cons x xs =>
    obtain ⟨l, hl, _⟩ := hres.2.2 x (by rw [hm]; exact List.mem_cons_self x xs)
    omega

theorem ResInv_append {buf : List Nat} {opts : OptsR} {mval mval' : Nat}
    {res : FileResultR} (ns : List Nat) (hres : ResInv buf mval res)
    (hsort : List.Pairwise (· < ·) ns) (hlow : ∀ n ∈ ns, mval ≤ n)
    (hhigh : ∀ n ∈ ns, n < numLines buf ∧ n + 1 ≤ mval') (hmv : mval ≤ mval') :
    ResInv buf mval' { res with matches_ := res.matches_ ++ ns.map (cmLine buf opts) } := by
  obtain ⟨h1, h2, h3⟩ := hres
  refine ⟨?_, ?_, ?_⟩
  · simp only [List.map_append, List.map_map]
    rw [List.pairwise_append]
    refine ⟨h1, ?_, ?_⟩
    · have hlin : (ns.map (MatchR.lineno ∘ cmLine buf opts)) = ns.map (· + 1) := by
        apply List.map_congr_left
        intro n _
        rfl
      rw [hlin]
      exact List.Pairwise.map _ (fun a b hab => by omega) hsort
    · intro x hx y hy
      have hxm := h2 x hx
      simp only [List.mem_map, Function.comp] at hy
      obtain ⟨n, hn1, hn2⟩ := hy
      have := hlow n hn1
      have hl : y = n + 1 := by rw [← hn2]; rfl
      omega
  · intro x hx
    simp only [List.map_append, List.mem_append] at hx
    rcases hx with hx | hx
    · exact le_trans (h2 x hx) hmv
    · simp only [List.map_map, List.mem_map, Function.comp] at hx
      obtain ⟨n, hn1, hn2⟩ := hx
      have := (hhigh n hn1).2
      have hl : x = n + 1 := by rw [← hn2]; rfl
      omega
  · intro mm hmm
    simp only [List.mem_append] at hmm
    rcases hmm with hmm | hmm
    · exact h3 mm hmm
    · simp only [List.mem_map] at hmm
      obtain ⟨n, hn1, hn2⟩ := hmm
      rw [← hn2]
      exact cmLine_MatchP opts (hhigh n hn1).1

theorem ResInv_push {buf : List Nat} {opts : OptsR} {mval : Nat}
    {res : FileResultR} {l : Nat} (hres : ResInv buf mval res)
    (hlow : mval ≤ l) (hl : l < numLines buf) :
    ResInv buf (l + 1) (resPush res (cmLine buf opts l)) := by
  have := @ResInv_append buf opts mval (l + 1) res [l] hres
    (by simp) (by simpa using hlow) (by simp [hl]) (by omega)
  simpa [resPush] using this

theorem modifyLast_forall {P : MatchR → Prop} (f : MatchR → MatchR)
    (hf : ∀ m, P m → P (f m)) :
    ∀ l : List MatchR, (∀ x ∈ l, P x) → ∀ x ∈ modifyLast f l, P x := by
  intro l
  induction l with
  | nil => intro _ x hx; cases hx
  | cons a t ih =>
    intro hall x hx
    cases t with
    | nil =>
      simp only [modifyLast] at hx
      rcases List.mem_singleton.mp hx with h
      rw [h]
      exact hf a (hall a (by simp))
    | cons b u =>
      rw [show modifyLast f (a :: b :: u) = a :: modifyLast f (b :: u) from rfl] at hx
      rcases List.mem_cons.mp hx with h | h
      · rw [h]; exact hall a (by simp)
      · exact ih (fun y hy => hall y (List.mem_cons_of_mem a hy)) x h

theorem ResInv_spanPush {buf : List Nat} {mval : Nat} {res : FileResultR}
    (sp : Nat × Nat) (hres : ResInv buf mval res) :
    ResInv buf mval (pushSpanLast res sp) := by
  obtain ⟨h1, h2, h3⟩ := hres
  refine ⟨?_, ?_, ?_⟩
  · rw [pushSpanLast_map_lineno]
    exact h1
  · rw [pushSpanLast_map_lineno]
    exact h2
  · intro mm hmm
    have hstep : ∀ m : MatchR, MatchP buf m →
        MatchP buf { m with spans := m.spans ++ [sp] } := by
      intro m hm
      obtain ⟨l, hl, ha, hb, hc, hd⟩ := hm
      exact ⟨l, hl, ha, hb, hc, hd⟩
    exact modifyLast_forall _ hstep res.matches_ h3 mm hmm


theorem offAt_le_length (buf : List Nat) (n : Nat) : offAt buf n ≤ buf.length := by
  unfold offAt
  by_cases h : n < numLines buf
  · rw [if_pos h]
    exact cum_le_length buf n
  · rw [if_neg h]

theorem leastK_length (buf : List Nat) : leastK buf buf.length = numLines buf := by
  apply leastK_unique le_rfl
  · rw [cum_numLines]
  · intro i hi
    have := cum_strict_mono hi hi
    rw [cum_numLines] at this
    exact this

/-- The `get_lineno` result for an offset: either the true line of `s`, or —
when `s` sits exactly at a line start the cache has not yet passed — the
previous line.  In the second case all the cache parameters are pinned. -/
theorem l1_cases {buf : List Nat} {k s : Nat} (hs : s ≤ buf.length)
    (hk : k ≤ numLines buf) :
    min (trueLine buf s) (max k (leastK buf s) - 1) = trueLine buf s ∨
    (1 ≤ trueLine buf s ∧
      min (trueLine buf s) (max k (leastK buf s) - 1) = trueLine buf s - 1 ∧
      max k (leastK buf s) = trueLine buf s ∧ s = cum buf (trueLine buf s) ∧
      k ≤ trueLine buf s ∧ leastK buf s = trueLine buf s) := by
  rcases Nat.lt_or_ge (max k (leastK buf s) - 1) (trueLine buf s) with h | h
  · right
    have hjpos : 1 ≤ trueLine buf s := by omega
    have hle : leastK buf s ≤ trueLine buf s := by omega
    have h1 : s ≤ cum buf (leastK buf s) := (leastK_spec hs).1
    have h2 : cum buf (leastK buf s) ≤ cum buf (trueLine buf s) := cum_mono buf hle
    have h3 : cum buf (trueLine buf s) ≤ s := trueLine_cum_le buf s
    have hscum : s = cum buf (trueLine buf s) := by omega
    have hjN : trueLine buf s < numLines buf := by
      rcases Nat.eq_zero_or_pos (numLines buf) with h0 | h0
      · have hz : trueLine buf s = 0 := by
          unfold trueLine
          rw [h0]
          rfl
        omega
      · exact trueLine_lt_numLines h0 s
    have hleq : leastK buf s = trueLine buf s := by
      by_contra hc
      have hlt : leastK buf s < trueLine buf s := by omega
      have := cum_strict_mono hlt (show leastK buf s < numLines buf by omega)
      omega
    refine ⟨hjpos, by omega, by omega, hscum, by omega, hleq⟩
  · left
    omega

theorem lt_offAt_trueLine_succ {buf : List Nat} {s : Nat} (hs : s < buf.length) :
    s < offAt buf (trueLine buf s + 1) := by
  unfold offAt
  by_cases h : trueLine buf s + 1 < numLines buf
  · rw [if_pos h]
    exact trueLine_lt_cum_succ hs
  · rw [if_neg h]
    exact hs

theorem trueLine_le_offAt_succ {buf : List Nat} {l : Nat} (hl : l < numLines buf) :
    l ≤ trueLine buf (offAt buf (l + 1)) := by
  unfold offAt
  by_cases h : l + 1 < numLines buf
  · rw [if_pos h, trueLine_cum h]
    omega
  · rw [if_neg h, trueLine_length]
    omega

theorem ResInv_matches {buf : List Nat} {mval : Nat} {r r2 : FileResultR}
    (h : r.matches_ = r2.matches_) (hr : ResInv buf mval r2) : ResInv buf mval r := by
  unfold ResInv at hr ⊢
  rw [h]
  exact hr

/-- `invert` tail plus final return: from an invariant state on a canonical
cache, an `ok` result satisfies the final invariant with bound `numLines`. -/
theorem invertTail_master {opts : OptsR} {buf : List Nat} {k mo : Nat}
    {m : Option Nat} {res : FileResultR} (hk : k ≤ numLines buf)
    (hmv : mValOpt m ≤ numLines buf)
    (hres : ResInv buf (mValOpt m) res) :
    ∀ r, invertTail opts buf ⟨mkCache buf k, mo, m, res⟩ = .ok r →
      ResInv buf (numLines buf) r := by
  intro r h
  unfold invertTail at h
  by_cases hinv : opts.invert
  · rw [if_pos hinv] at h
    dsimp only at h
    rw [getLineno_spec le_rfl hk] at h
    rw [leastK_length, trueLine_length] at h
    have hmax : max k (numLines buf) = numLines buf := by omega
    rw [hmax] at h
    dsimp only at h
    rw [Nat.min_self] at h
    rcases Nat.eq_zero_or_pos (numLines buf) with h0 | h0
    · have hm0 : mValOpt m = 0 := by omega
      rw [h0, hm0] at h
      rw [show List.range' 0 (0 - 1 + 1 - 0) = [0] from rfl] at h
      by_cases hfull : opts.max_count ≤ res.matches_.length
      · unfold emitRange at h
        rw [newMatchM_full hfull] at h
        cases h
        exact ResInv_mono (by omega) hres
      · unfold emitRange at h
        rw [newMatchM_panic (by omega) (by omega) (by omega)] at h
        cases h
    · have hc1 : numLines buf - 1 + 1 - mValOpt m = numLines buf - mValOpt m := by
        omega
      rw [hc1] at h
      have hbound : ∀ n ∈ List.range' (mValOpt m) (numLines buf - mValOpt m),
          n < numLines buf := by
        intro n hn
        have := List.mem_range'_1.mp hn
        omega
      obtain ⟨hcont, hret⟩ := emitRange_val
        (List.range' (mValOpt m) (numLines buf - mValOpt m)) (numLines buf) res
        le_rfl hbound
      have hinvAppend : ∀ t : Nat, ∀ xs : List MatchR,
          xs = ((List.range' (mValOpt m) (numLines buf - mValOpt m)).take t).map
            (cmLine buf opts) →
          ResInv buf (numLines buf) { res with matches_ := res.matches_ ++ xs } := by
        intro t xs hxs
        subst hxs
        apply ResInv_append _ hres
        · have hp : List.Pairwise (· < ·)
              (List.range' (mValOpt m) (numLines buf - mValOpt m)) := by
            apply List.pairwise_lt_range'
            omega
          exact hp.sublist (List.take_sublist t _)
        · intro n hn
          exact (List.mem_range'_1.mp (List.mem_of_mem_take hn)).1
        · intro n hn
          have := List.mem_range'_1.mp (List.mem_of_mem_take hn)
          omega
        · exact hmv
      match hcase : emitRange opts (List.range' (mValOpt m) (numLines buf - mValOpt m))
          (mkCache buf (numLines buf)) res with
      | .cont ls1 res1 =>
        rw [hcase] at h
        cases h
        obtain ⟨t, k2, _, _, _, _, hrm⟩ := hcont ls1 _ hcase
        exact ResInv_matches (by rw [hrm]) (hinvAppend t _ rfl)
      | .ret r2 =>
        rw [hcase] at h
        cases h
        obtain ⟨t, _, hrm⟩ := hret _ hcase
        exact ResInv_matches (by rw [hrm]) (hinvAppend t _ rfl)
      | .panicked =>
        rw [hcase] at h
        cases h
  · rw [if_neg hinv] at h
    cases h
    exact ResInv_mono hmv hres


/-! ### The scan-loop invariant and the master induction -/

/-- Loop-head invariant for the text scan: the cache parameter and the cursor
are in bounds, `matched_lineno` (when set) is at most both the cursor's true
line and the last cached line, and the accumulated result is well formed. -/
def StInv (buf : List Nat) (k mo : Nat) (m : Option Nat) (res : FileResultR) : Prop :=
  k ≤ numLines buf ∧ mo ≤ buf.length ∧
  (∀ jm, m = some jm → jm ≤ min (trueLine buf mo) (k - 1) ∧ jm < numLines buf) ∧
  ResInv buf (mValOpt m) res

/-- The emission tail of one scan iteration (search.rs:267-297), shared by the
zero-width and ordinary branches, abstracted over the cache parameter `km` and
the next cursor `mo2` chosen by the caller. -/
def stepTail (opts : OptsR) (buf : List Nat) (mo : Nat) (m : Option Nat)
    (res : FileResultR) (s e l1 km mo2 : Nat) : StepRes :=
  if opts.invert then
    if some l1 ≠ m then
      match emitRange opts (List.range' (mValOpt m) (l1 - mValOpt m))
          (mkCache buf km) res with
      | .cont ls3 res1 => .cont ⟨ls3, mo2, some l1, res1⟩
      | .ret r => .ret r
      | .panicked => .panicked
    else .cont ⟨mkCache buf km, mo2, m, res⟩
  else
    let nm : NMRes :=
      if some l1 ≠ m then newMatchM (mkCache buf km) opts l1 res
      else .cont (mkCache buf km) res
    match nm with
    | .ret r => .ret r
    | .panicked => .panicked
    | .cont ls3 res1 =>
      let matched1 := if some l1 ≠ m then some l1 else m
      if res1.matches_.isEmpty then .cont ⟨ls3, mo2, matched1, res1⟩
      else
        let p4 := getOffset ls3 l1
        .cont ⟨p4.2, mo2, matched1, pushSpanLast res1 (s - p4.1, e - p4.1)⟩

/-- `searchStepP` after a successful regex probe, with the cache arithmetic
resolved (`s`, `e` are the absolute match bounds). -/
def stepCore (opts : OptsR) (buf : List Nat) (k mo : Nat) (m : Option Nat)
    (res : FileResultR) (s e : Nat) : StepRes :=
  let k1 := max k (leastK buf s)
  let l1 := min (trueLine buf s) (k1 - 1)
  let k2 := max k1 (leastK buf e)
  let l2 := min (trueLine buf e) (k2 - 1)
  if l1 ≠ l2 then
    .cont ⟨mkCache buf (max k2 (min (l1 + 1 + 1) (numLines buf))), offAt buf (l1 + 1),
      m, res⟩
  else if s = e ∧ s = buf.length then .brk ⟨mkCache buf k2, mo, m, res⟩
  else if s = e then
    stepTail opts buf mo m res s e l1 (max k2 (min (l1 + 1 + 1) (numLines buf)))
      (offAt buf (l1 + 1))
  else
    stepTail opts buf mo m res s e l1 k2 e

theorem searchStepP_eq_core {rx : List Nat → Option (Nat × Nat)} {opts : OptsR}
    {buf : List Nat} {k mo : Nat} {m : Option Nat} {res : FileResultR} {s0 e0 : Nat}
    (hrx : rx (buf.drop mo) = some (s0, e0)) :
    searchStepP rx opts buf k mo m res = stepCore opts buf k mo m res (s0 + mo) (e0 + mo) := by
  unfold searchStepP stepCore
  rw [hrx]
  dsimp only
  by_cases hml : min (trueLine buf (s0 + mo)) (max k (leastK buf (s0 + mo)) - 1) ≠
      min (trueLine buf (e0 + mo))
        (max (max k (leastK buf (s0 + mo))) (leastK buf (e0 + mo)) - 1)
  · rw [if_pos hml, if_pos hml]
  · rw [if_neg hml, if_neg hml]
    by_cases hbe : s0 + mo = e0 + mo ∧ s0 + mo = buf.length
    · rw [if_pos hbe, if_pos hbe]
    · rw [if_neg hbe, if_neg hbe]
      by_cases hz : s0 + mo = e0 + mo
      · rw [if_pos hz, if_pos hz]
        unfold stepTail
        rfl
      · rw [if_neg hz, if_neg hz]
        unfold stepTail
        rfl


/-- Case analysis of the emission tail: it either continues with a canonical
cache, a cursor `mo2` and invariants restored, returns early with a
well-formed result, or panics. -/
theorem stepTail_cases {opts : OptsR} {buf : List Nat} {k mo : Nat} {m : Option Nat}
    {res : FileResultR} {s e l1 km mo2 : Nat}
    (hres : ResInv buf (mValOpt m) res)
    (hmB : ∀ jm, m = some jm → jm ≤ l1 ∧ jm < numLines buf)
    (hl1N : l1 < numLines buf)
    (hkm1 : l1 + 1 ≤ km) (hkmN : km ≤ numLines buf) (hkmk : k ≤ km)
    (hmoLen : mo2 ≤ buf.length)
    (hprog : mo < mo2 ∨ k < km)
    (htl : l1 ≤ trueLine buf mo2) :
    (∃ k2 m2 res2, stepTail opts buf mo m res s e l1 km mo2 =
        .cont ⟨mkCache buf k2, mo2, m2, res2⟩ ∧
      StInv buf k2 mo2 m2 res2 ∧ k ≤ k2 ∧ (mo < mo2 ∨ k < k2)) ∨
    (∃ r, stepTail opts buf mo m res s e l1 km mo2 = .ret r ∧
      ResInv buf (numLines buf) r) ∨
    stepTail opts buf mo m res s e l1 km mo2 = .panicked := by
  have hmvl1 : mValOpt m ≤ l1 + 1 := by
    cases m with
    | none => exact Nat.zero_le _
    | some jm =>
      have := (hmB jm rfl).1
      show jm + 1 ≤ l1 + 1
      omega
  have hmB1 : ∀ k2, km ≤ k2 → ∀ jm, some l1 = some jm →
      jm ≤ min (trueLine buf mo2) (k2 - 1) ∧ jm < numLines buf := by
    intro k2 hk2 jm hjm
    cases hjm
    exact ⟨by omega, hl1N⟩
  unfold stepTail
  by_cases hiv : opts.invert
  · rw [if_pos hiv]
    by_cases hne : some l1 ≠ m
    · rw [if_pos hne]
      have hbound : ∀ n ∈ List.range' (mValOpt m) (l1 - mValOpt m), n < numLines buf := by
        intro n hn
        have := List.mem_range'_1.mp hn
        omega
      obtain ⟨hcont, hret⟩ := @emitRange_val buf opts
        (List.range' (mValOpt m) (l1 - mValOpt m)) km res hkmN hbound
      have hresAdd : ∀ t mv2, mValOpt m ≤ mv2 → l1 ≤ mv2 → ∀ xs : List MatchR,
          xs = ((List.range' (mValOpt m) (l1 - mValOpt m)).take t).map (cmLine buf opts) →
          ResInv buf mv2 { res with matches_ := res.matches_ ++ xs } := by
        intro t mv2 hmv2a hmv2b xs hxs
        subst hxs
        apply ResInv_append _ hres
        · have hp : List.Pairwise (· < ·)
              (List.range' (mValOpt m) (l1 - mValOpt m)) := by
            apply List.pairwise_lt_range'
            omega
          exact hp.sublist (List.take_sublist t _)
        · intro n hn
          exact (List.mem_range'_1.mp (List.mem_of_mem_take hn)).1
        · intro n hn
          have := List.mem_range'_1.mp (List.mem_of_mem_take hn)
          exact ⟨by omega, by omega⟩
        · exact hmv2a
      match hcase : emitRange opts (List.range' (mValOpt m) (l1 - mValOpt m))
          (mkCache buf km) res with
      | .cont ls3 res1 =>
        dsimp only
        left
        obtain ⟨t, k3, ht, hk31, hk32, hls, hr1⟩ := hcont ls3 res1 hcase
        subst hls
        refine ⟨k3, some l1, res1, rfl, ⟨hk32, hmoLen, hmB1 k3 (by omega), ?_⟩,
          by omega, by omega⟩
        exact ResInv_matches (by rw [hr1])
          (hresAdd t (mValOpt (some l1)) hmvl1 (Nat.le_succ l1) _ rfl)
      | .ret r2 =>
        dsimp only
        right; left
        obtain ⟨t, ht, hr1⟩ := hret r2 hcase
        refine ⟨r2, rfl, ?_⟩
        exact ResInv_matches (by rw [hr1])
          (hresAdd t (numLines buf) (by omega) (by omega) _ rfl)
      | .panicked =>
        dsimp only
        right; right
        rfl
    · rw [if_neg hne]
      push_neg at hne
      left
      refine ⟨km, m, res, rfl, ⟨hkmN, hmoLen, ?_, hres⟩, hkmk, hprog⟩
      intro jm hjm
      rw [← hne] at hjm
      exact hmB1 km le_rfl jm hjm
  · rw [if_neg hiv]
    dsimp only
    by_cases hne : some l1 ≠ m
    · rw [if_pos hne]
      have hmvle : mValOpt m ≤ l1 := by
        cases m with
        | none => exact Nat.zero_le _
        | some jm =>
          obtain ⟨h1, _⟩ := hmB jm rfl
          have hne2 : l1 ≠ jm := by
            intro hc
            exact hne (by rw [hc])
          show jm + 1 ≤ l1
          omega
      by_cases hfull : opts.max_count ≤ res.matches_.length
      · rw [newMatchM_full hfull]
        dsimp only
        right; left
        exact ⟨res, rfl, ResInv_mono (by omega) hres⟩
      · have hlen2 : res.matches_.length < opts.max_count := by omega
        rcases newMatchM_push hkmN hl1N hlen2 with ⟨hof, hnm⟩ | ⟨hof, k3, hk31, hk32, hnm⟩
        · rw [hnm]
          dsimp only
          right; left
          refine ⟨resPush res (cmLine buf opts l1), rfl, ?_⟩
          exact ResInv_mono (by omega) (ResInv_push hres hmvle hl1N)
        · rw [hnm]
          dsimp only
          rw [if_pos hne]
          have hempty : (resPush res (cmLine buf opts l1)).matches_.isEmpty = false := by
            simp [resPush]
          rw [hempty]
          rw [if_neg (by decide : ¬(false = true))]
          rw [getOffset_spec l1 hk32]
          dsimp only
          left
          refine ⟨max k3 (min (l1 + 1) (numLines buf)), some l1,
            pushSpanLast (resPush res (cmLine buf opts l1))
              (s - offAt buf l1, e - offAt buf l1),
            rfl, ⟨by omega, hmoLen, hmB1 _ (by omega), ?_⟩, by omega, by omega⟩
          exact ResInv_spanPush _ (ResInv_push hres hmvle hl1N)
    · rw [if_neg hne]
      dsimp only
      rw [if_neg hne]
      push_neg at hne
      by_cases hemp : res.matches_.isEmpty
      · rw [if_pos hemp]
        left
        refine ⟨km, m, res, rfl, ⟨hkmN, hmoLen, ?_, hres⟩, hkmk, hprog⟩
        intro jm hjm
        rw [← hne] at hjm
        exact hmB1 km le_rfl jm hjm
      · rw [if_neg hemp]
        rw [getOffset_spec l1 hkmN]
        dsimp only
        left
        refine ⟨max km (min (l1 + 1) (numLines buf)), m,
          pushSpanLast res (s - offAt buf l1, e - offAt buf l1), rfl,
          ⟨by omega, hmoLen, ?_, ?_⟩, by omega, by omega⟩
        · intro jm hjm
          rw [← hne] at hjm
          exact hmB1 _ (by omega) jm hjm
        · exact ResInv_spanPush _ hres


/-- Case analysis of a full scan iteration on a successful probe: break with
invariants intact, continue with invariants restored and the termination
measure decreased, return early with a well-formed result, or panic. -/
theorem stepCore_cases {opts : OptsR} {buf : List Nat} {k mo : Nat} {m : Option Nat}
    {res : FileResultR} {s e : Nat}
    (hms : mo ≤ s) (hse : s ≤ e) (hel : e ≤ buf.length)
    (hst : StInv buf k mo m res) :
    (∃ k2, k ≤ k2 ∧ k2 ≤ numLines buf ∧
      stepCore opts buf k mo m res s e = .brk ⟨mkCache buf k2, mo, m, res⟩) ∨
    (∃ k2 mo2 m2 res2, stepCore opts buf k mo m res s e =
        .cont ⟨mkCache buf k2, mo2, m2, res2⟩ ∧
      StInv buf k2 mo2 m2 res2 ∧ k ≤ k2 ∧ mo ≤ mo2 ∧ (mo < mo2 ∨ k < k2)) ∨
    (∃ r, stepCore opts buf k mo m res s e = .ret r ∧ ResInv buf (numLines buf) r) ∨
    stepCore opts buf k mo m res s e = .panicked := by
  obtain ⟨hk, hmo, hmB, hres⟩ := hst
  have hsl : s ≤ buf.length := le_trans hse hel
  have hks : leastK buf s ≤ numLines buf := leastK_le_numLines hsl
  have hke : leastK buf e ≤ numLines buf := leastK_le_numLines hel
  unfold stepCore
  dsimp only
  set k1 := max k (leastK buf s) with hk1d
  set l1 := min (trueLine buf s) (k1 - 1) with hl1d
  set k2 := max k1 (leastK buf e) with hk2d
  set l2 := min (trueLine buf e) (k2 - 1) with hl2d
  have hk1N : k1 ≤ numLines buf := by omega
  have hk2N : k2 ≤ numLines buf := by omega
  have hkk1 : k ≤ k1 := by omega
  have hk12 : k1 ≤ k2 := by omega
  have hl12 : s = e → l1 = l2 := by
    intro heq
    rw [hl1d, hl2d, hk2d, hk1d, heq]
    omega
  by_cases hml : l1 ≠ l2
  · rw [if_pos hml]
    right; left
    have hslt : s < e := by
      rcases Nat.eq_or_lt_of_le hse with heq | hlt
      · exact absurd (hl12 heq) hml
      · exact hlt
    have hN : 0 < numLines buf := by
      apply numLines_pos
      intro hb
      rw [hb] at hel
      simp at hel
      omega
    have htlN : trueLine buf s < numLines buf := trueLine_lt_numLines hN s
    have hcase := l1_cases hsl hk
    rw [← hk1d, ← hl1d] at hcase
    rcases hcase with hA | ⟨hj1, hA2, hA3, hA4, hA5, hA6⟩
    · have hoff : s < offAt buf (l1 + 1) := by
        rw [hA]
        exact lt_offAt_trueLine_succ (by omega)
      refine ⟨max k2 (min (l1 + 1 + 1) (numLines buf)), offAt buf (l1 + 1), m, res,
        rfl, ⟨by omega, offAt_le_length buf _, ?_, hres⟩, by omega, by omega, by omega⟩
      intro jm hjm
      obtain ⟨h1, h2⟩ := hmB jm hjm
      refine ⟨?_, h2⟩
      have hmono := trueLine_mono buf (show mo ≤ offAt buf (l1 + 1) by omega)
      omega
    · have hoffeq : offAt buf (l1 + 1) = s := by
        have hl1s : l1 + 1 = trueLine buf s := by omega
        rw [hl1s]
        unfold offAt
        rw [if_pos htlN]
        omega
      refine ⟨max k2 (min (l1 + 1 + 1) (numLines buf)), offAt buf (l1 + 1), m, res,
        rfl, ⟨by omega, by omega, ?_, hres⟩, by omega, by omega, by omega⟩
      intro jm hjm
      obtain ⟨h1, h2⟩ := hmB jm hjm
      refine ⟨?_, h2⟩
      rw [hoffeq]
      have hmono := trueLine_mono buf hms
      omega
  · rw [if_neg hml]
    push_neg at hml
    by_cases hbe : s = e ∧ s = buf.length
    · rw [if_pos hbe]
      left
      exact ⟨k2, by omega, hk2N, rfl⟩
    · rw [if_neg hbe]
      have hslen : s < buf.length := by
        rcases Nat.eq_or_lt_of_le hse with heq | hlt
        · rcases Nat.eq_or_lt_of_le hsl with heq2 | hlt2
          · exact absurd ⟨heq, heq2⟩ hbe
          · exact hlt2
        · omega
      have hN : 0 < numLines buf := by
        apply numLines_pos
        intro hb
        rw [hb] at hslen
        simp at hslen
      have htlN : trueLine buf s < numLines buf := trueLine_lt_numLines hN s
      have hl1N : l1 < numLines buf := by omega
      have hmB2 : ∀ jm, m = some jm → jm ≤ l1 ∧ jm < numLines buf := by
        intro jm hjm
        obtain ⟨h1, h2⟩ := hmB jm hjm
        refine ⟨?_, h2⟩
        have hmono := trueLine_mono buf hms
        omega
      by_cases hz : s = e
      · rw [if_pos hz]
        have hcase := l1_cases hsl hk
        rw [← hk1d, ← hl1d] at hcase
        have hkm1 : l1 + 1 ≤ max k2 (min (l1 + 1 + 1) (numLines buf)) := by omega
        have hmp : mo ≤ offAt buf (l1 + 1) ∧
            (mo < offAt buf (l1 + 1) ∨ k < max k2 (min (l1 + 1 + 1) (numLines buf))) := by
          rcases hcase with hA | ⟨hj1, hA2, hA3, hA4, hA5, hA6⟩
          · have hoff := lt_offAt_trueLine_succ hslen
            rw [← hA] at hoff
            omega
          · have hoffeq : offAt buf (l1 + 1) = s := by
              have hl1s : l1 + 1 = trueLine buf s := by omega
              rw [hl1s]
              unfold offAt
              rw [if_pos htlN]
              omega
            omega
        obtain ⟨hmoLe2, hprog2⟩ := hmp
        have htl2 : l1 ≤ trueLine buf (offAt buf (l1 + 1)) := trueLine_le_offAt_succ hl1N
        rcases stepTail_cases hres hmB2 hl1N hkm1 (by omega) (by omega)
            (offAt_le_length buf _) hprog2 htl2 with
          ⟨k3, m3, res3, heq3, hstI, hk3, hprog3⟩ | ⟨r3, heq3, hres3⟩ | heq3
        · right; left
          exact ⟨k3, _, m3, res3, heq3, hstI, hk3, hmoLe2, hprog3⟩
        · right; right; left
          exact ⟨r3, heq3, hres3⟩
        · right; right; right
          exact heq3
      · rw [if_neg hz]
        have hslt : s < e := by omega
        have hle1 : 1 ≤ leastK buf e := by
          by_contra hc
          have h0 : leastK buf e = 0 := by omega
          have h1 := (leastK_spec hel).1
          rw [h0] at h1
          have hc0 : cum buf 0 = 0 := by simp [cum]
          omega
        have hkm1 : l1 + 1 ≤ k2 := by omega
        have hprog2 : mo < e ∨ k < k2 := by omega
        have htl2 : l1 ≤ trueLine buf e := by omega
        rcases stepTail_cases hres hmB2 hl1N hkm1 hk2N (by omega) hel hprog2 htl2 with
          ⟨k3, m3, res3, heq3, hstI, hk3, hprog3⟩ | ⟨r3, heq3, hres3⟩ | heq3
        · right; left
          exact ⟨k3, _, m3, res3, heq3, hstI, hk3, by omega, hprog3⟩
        · right; right; left
          exact ⟨r3, heq3, hres3⟩
        · right; right; right
          exact heq3


theorem searchStepP_cases {rx : List Nat → Option (Nat × Nat)} {opts : OptsR}
    {buf : List Nat} {k mo : Nat} {m : Option Nat} {res : FileResultR}
    (hwf : RxWF rx) (hst : StInv buf k mo m res) :
    (∃ k2, k ≤ k2 ∧ k2 ≤ numLines buf ∧
      searchStepP rx opts buf k mo m res = .brk ⟨mkCache buf k2, mo, m, res⟩) ∨
    (∃ k2 mo2 m2 res2, searchStepP rx opts buf k mo m res =
        .cont ⟨mkCache buf k2, mo2, m2, res2⟩ ∧
      StInv buf k2 mo2 m2 res2 ∧ k ≤ k2 ∧ mo ≤ mo2 ∧ (mo < mo2 ∨ k < k2)) ∨
    (∃ r, searchStepP rx opts buf k mo m res = .ret r ∧ ResInv buf (numLines buf) r) ∨
    searchStepP rx opts buf k mo m res = .panicked := by
  have hmo : mo ≤ buf.length := hst.2.1
  cases hrx : rx (buf.drop mo) with
  | none =>
    left
    refine ⟨k, le_rfl, hst.1, ?_⟩
    unfold searchStepP
    rw [hrx]
  | some v =>
    obtain ⟨s0, e0⟩ := v
    obtain ⟨hse0, hel0⟩ := hwf _ _ _ hrx
    rw [List.length_drop] at hel0
    rw [searchStepP_eq_core hrx]
    exact stepCore_cases (by omega) (by omega) (by omega) hst

theorem invertTail_ne_nofuel (opts : OptsR) (buf : List Nat) (st : LoopState) :
    invertTail opts buf st ≠ .nofuel := by
  unfold invertTail
  by_cases hinv : opts.invert
  · rw [if_pos hinv]
    dsimp only
    cases emitRange opts
        (List.range' (mValOpt st.matched)
          ((getLineno st.ls buf.length).1 + 1 - mValOpt st.matched))
        (getLineno st.ls buf.length).2 st.res with
    | ret r => intro hc; cases hc
    | panicked => intro hc; cases hc
    | cont ls r => intro hc; cases hc
  · rw [if_neg hinv]
    intro hc
    cases hc

/-- Master induction over the scan loop: with a well-formed regex and the
loop-head invariant, the fuelled loop never exhausts its fuel (each iteration
strictly decreases the measure cursor-remainder plus cache-remainder), and an
`ok` result satisfies the final result invariant. -/
theorem searchLoop_master {rx : List Nat → Option (Nat × Nat)} {opts : OptsR}
    {buf : List Nat} (hwf : RxWF rx) :
    ∀ fuel k mo m res, StInv buf k mo m res →
      (buf.length - mo) + (numLines buf + 1 - k) < fuel →
      searchLoop rx opts buf fuel ⟨mkCache buf k, mo, m, res⟩ ≠ .nofuel ∧
      ∀ r, searchLoop rx opts buf fuel ⟨mkCache buf k, mo, m, res⟩ = .ok r →
        ResInv buf (numLines buf) r := by
  intro fuel
  induction fuel with
  | zero =>
    intro k mo m res _ hf
    exact absurd hf (Nat.not_lt_zero _)
  | succ fuel ih =>
    intro k mo m res hst hf
    have hmv : mValOpt m ≤ numLines buf := by
      cases m with
      | none => exact Nat.zero_le _
      | some jm =>
        have := (hst.2.2.1 jm rfl).2
        show jm + 1 ≤ numLines buf
        omega
    unfold searchLoop
    rw [searchStep_eq_pure hwf hst.1 hst.2.1]
    rcases @searchStepP_cases rx opts buf k mo m res hwf hst with
      ⟨k2, hk2a, hk2b, heq⟩ | ⟨k2, mo2, m2, res2, heq, hst2, hka, hmoa, hprog⟩ |
      ⟨r2, heq, hres2⟩ | heq
    · rw [heq]
      dsimp only
      exact ⟨invertTail_ne_nofuel _ _ _,
        fun r hr => invertTail_master hk2b hmv hst.2.2.2 r hr⟩
    · rw [heq]
      dsimp only
      have h1 : k2 ≤ numLines buf := hst2.1
      have h2 : mo2 ≤ buf.length := hst2.2.1
      have h3 : k ≤ numLines buf := hst.1
      have h4 : mo ≤ buf.length := hst.2.1
      exact ih k2 mo2 m2 res2 hst2 (by omega)
    · rw [heq]
      refine ⟨(by intro hc; cases hc), ?_⟩
      intro r hr
      cases hr
      exact hres2
    · rw [heq]
      exact ⟨(by intro hc; cases hc), (by intro r hr; cases hr)⟩

/-- The initial result record of `search` satisfies the empty invariant. -/
theorem res0_ResInv (buf : List Nat) (path : List Char) (b : Prop) [Decidable b] :
    ResInv buf 0 { fileResultNew (normalizedPath path) with has_context := b } := by
  refine ⟨?_, ?_, ?_⟩ <;> simp [fileResultNew]

/-- `search` never exhausts its fuel (termination of the scan loop). -/
theorem search_ne_nofuel {rx : List Nat → Option (Nat × Nat)} {opts : OptsR}
    {path : List Char} {buf : List Nat} (hwf : RxWF rx) :
    search rx opts path buf ≠ .nofuel := by
  unfold search
  dsimp only
  by_cases hbin : isBinaryBuf buf
  · rw [if_pos hbin]
    by_cases hdo : opts.do_binaries
    · rw [if_pos hdo]
      by_cases hm : (rx buf).isSome
      · rw [if_pos hm]; intro hc; cases hc
      · rw [if_neg hm]; intro hc; cases hc
    · rw [if_neg hdo]; intro hc; cases hc
  · rw [if_neg hbin]
    rw [mkCache_zero]
    have hN := numLines_le_length buf
    exact (searchLoop_master hwf (2 * buf.length + 2) 0 0 none _
      ⟨Nat.zero_le _, Nat.zero_le _, (by intro jm hjm; cases hjm), res0_ResInv buf path _⟩
      (by omega)).1

/-- On a non-binary buffer, an `ok` result of `search` satisfies the final
result invariant: strictly increasing 1-based line numbers, all at most the
line count, and every match describing a real source line. -/
theorem search_ok_ResInv {rx : List Nat → Option (Nat × Nat)} {opts : OptsR}
    {path : List Char} {buf : List Nat} (hwf : RxWF rx)
    (hbin : ¬ isBinaryBuf buf) :
    ∀ r, search rx opts path buf = .ok r → ResInv buf (numLines buf) r := by
  intro r hr
  unfold search at hr
  dsimp only at hr
  rw [if_neg hbin, mkCache_zero] at hr
  have hN := numLines_le_length buf
  exact (searchLoop_master hwf (2 * buf.length + 2) 0 0 none _
    ⟨Nat.zero_le _, Nat.zero_le _, (by intro jm hjm; cases hjm), res0_ResInv buf path _⟩
    (by omega)).2 r hr


/-! ### Claims C2 and C4 -/

theorem nextLineSlice_getLast {l : List Nat}
    (h : (nextLineSlice l).length < l.length) :
    (nextLineSlice l).getLast? = some 10 := by
  unfold nextLineSlice at h ⊢
  cases hf : l.findIdx? (fun x => decide (x = 10)) with
  | none =>
    rw [hf] at h
    dsimp only at h
    exact absurd h (by omega)
  | some idx =>
    dsimp only
    obtain ⟨h1, h2⟩ := List.findIdx?_eq_some_iff_findIdx_eq.mp hf
    subst h2
    have h3 := @List.findIdx_getElem _ (fun x => decide (x = 10)) l h1
    rw [List.getLast?_eq_getElem?]
    have hlen : (l.take (l.findIdx (fun x => decide (x = 10)) + 1)).length =
        l.findIdx (fun x => decide (x = 10)) + 1 := by
      rw [List.length_take]
      omega
    rw [hlen]
    simp only [Nat.add_sub_cancel]
    rw [List.getElem?_take, if_pos (by omega), List.getElem?_eq_getElem h1]
    simp only [decide_eq_true_eq] at h3
    rw [h3]

/-- Every stored line except the last one ends with the newline byte: the
slices pushed by `advance_to_line` include the terminating `\n`
(search.rs:150, `&buf[start..end+1]`). -/
theorem splitLines_dropLast_newline (buf : List Nat) :
    ∀ x ∈ (splitLines buf).dropLast, x.getLast? = some 10 := by
  induction buf using splitLines_induction with
  | hnil =>
    intro x hx
    rw [splitLines_nil] at hx
    cases hx
  | hcons a t ih =>
    intro x hx
    rw [splitLines_cons] at hx
    cases hr : splitLines ((a :: t).drop (nextLineSlice (a :: t)).length) with
    | nil =>
      rw [hr] at hx
      cases hx
    | cons b L =>
      rw [hr] at hx
      rw [List.dropLast_cons_of_ne_nil (by simp)] at hx
      rcases List.mem_cons.mp hx with h1 | h2
      · subst h1
        have hne : (a :: t).drop (nextLineSlice (a :: t)).length ≠ [] := by
          intro hc
          rw [splitLines_eq_nil_iff.mpr hc] at hr
          cases hr
        apply nextLineSlice_getLast
        by_contra hge
        exact hne (List.drop_eq_nil_iff.mpr (by omega))
      · rw [← hr] at h2
        exact ih x h2

theorem lineAt_getLast {buf : List Nat} {l : Nat} (h : l + 1 < numLines buf) :
    (lineAt buf l).getLast? = some 10 := by
  have hlt : l < (splitLines buf).length := by
    unfold numLines at h
    omega
  have heq : lineAt buf l = (splitLines buf)[l] := by
    unfold lineAt
    rw [List.getD_eq_getElem _ _ hlt]
  have hd : l < (splitLines buf).dropLast.length := by
    rw [List.length_dropLast]
    unfold numLines at h
    omega
  have hmem : (splitLines buf)[l] ∈ (splitLines buf).dropLast := by
    have := List.getElem_dropLast (splitLines buf) l hd
    rw [← this]
    exact List.getElem_mem hd
  rw [heq]
  exact splitLines_dropLast_newline buf _ hmem


/-- Options for the C2 and C4 fixtures: plain non-inverted search, no
context, effectively unlimited `max_count`. -/
def c2opts : OptsR :=
  { pattern := [], casing := .Smart, literal := false, invert := false,
    only_files := none, max_count := 1000, before := 0, after := 0,
    do_binaries := false }

/-- Observe the stored `line` fields of an `ok` search outcome. -/
def okLines : SearchOutcome → Option (List (List Nat))
  | .ok r => some (r.matches_.map MatchR.line)
  | _ => none

/-- The spec's reading of a stored line: the content without the terminating
newline byte. -/
def stripNewline (l : List Nat) : List Nat :=
  if l.getLast? = some 10 then l.dropLast else l

/-- C2 counterexample: searching `a\nb` (bytes `[97, 10, 98]`) for `/a/`
yields one `Match` whose `line` field is `[97, 10]` — the full first line
INCLUDING its terminating newline — not the newline-free content `[97]`
the claim describes. -/
theorem C2_counterexample :
    okLines (search (rxByte 97) c2opts [] [97, 10, 98]) = some [[97, 10]] ∧
    stripNewline [97, 10] = [97] ∧ ([97, 10] : List Nat) ≠ [97] := by
  refine ⟨rfl, rfl, by decide⟩

/-- C2 (amended): on a non-binary buffer, every `Match` emitted by `search`
stores in `line` the full content of a real source line — with its
terminating newline byte included (the final line may lack one) — and every
`before`/`after` context entry is likewise a full source line.  The last two
conjuncts pin down that the stored lines are the raw source slices: the
lines concatenate back to the buffer, and every non-final line ends with
the newline byte `10`. -/
theorem C2_line_content {rx : List Nat → Option (Nat × Nat)} {opts : OptsR}
    {path : List Char} {buf : List Nat} (hwf : RxWF rx)
    (hbin : ¬ isBinaryBuf buf) :
    (∀ r, search rx opts path buf = .ok r → ∀ mm ∈ r.matches_,
      ∃ l, l < numLines buf ∧ mm.lineno = l + 1 ∧ mm.line = lineAt buf l ∧
        (∀ bl ∈ mm.before, ∃ j, j < numLines buf ∧ bl = lineAt buf j) ∧
        (∀ al ∈ mm.after, ∃ j, j < numLines buf ∧ al = lineAt buf j)) ∧
    (splitLines buf).flatten = buf ∧
    (∀ l, l + 1 < numLines buf → (lineAt buf l).getLast? = some 10) := by
  refine ⟨?_, splitLines_flatten buf, fun l hl => lineAt_getLast hl⟩
  intro r hr mm hmm
  exact (search_ok_ResInv hwf hbin r hr).2.2 mm hmm

theorem C2_line_content_witness :
    (¬ isBinaryBuf [97, 10, 98]) ∧
    ((∀ r, search (rxByte 97) c2opts [] [97, 10, 98] = .ok r → ∀ mm ∈ r.matches_,
      ∃ l, l < numLines [97, 10, 98] ∧ mm.lineno = l + 1 ∧
        mm.line = lineAt [97, 10, 98] l ∧
        (∀ bl ∈ mm.before, ∃ j, j < numLines [97, 10, 98] ∧ bl = lineAt [97, 10, 98] j) ∧
        (∀ al ∈ mm.after, ∃ j, j < numLines [97, 10, 98] ∧ al = lineAt [97, 10, 98] j)) ∧
    (splitLines [97, 10, 98]).flatten = [97, 10, 98] ∧
    (∀ l, l + 1 < numLines [97, 10, 98] →
      (lineAt [97, 10, 98] l).getLast? = some 10)) :=
  ⟨by decide, C2_line_content (rxByte_wf 97) (by decide)⟩

/-- Options for the C4 counterexample fixture (same bundle as `c2opts`). -/
def c4opts : OptsR :=
  { pattern := [], casing := .Smart, literal := false, invert := false,
    only_files := none, max_count := 1000, before := 0, after := 0,
    do_binaries := false }

/-- The initial `FileResult` of `search` on path `[]`. -/
def c4res0 : FileResultR :=
  { fileResultNew (normalizedPath []) with
    has_context := (0 < c4opts.before ∨ 0 < c4opts.after) }

/-- The loop state reached after the first iteration of the scan loop of
`search (rxByte 10) c4opts [] [97, 10, 10, 98]`. -/
def c4st1 : LoopState :=
  ⟨⟨[97, 10, 10, 98], 2, [(0, [97, 10])]⟩, 2, some 0,
    { c4res0 with matches_ := [⟨1, [97, 10], [(1, 2)], [], []⟩] }⟩

/-- The loop state after the second iteration: the cursor has NOT advanced
(still 2), only the line cache grew. -/
def c4st2 : LoopState :=
  ⟨⟨[97, 10, 10, 98], 3, [(0, [97, 10]), (2, [10])]⟩, 2, some 0,
    { c4res0 with matches_ := [⟨1, [97, 10], [(1, 2)], [], []⟩] }⟩

/-- C4 counterexample: on buffer `a\n\nb` with the regex `/\n/`, the second
iteration of the scan loop of `search` (reached from `search`'s own initial
state) continues without breaking, yet leaves the scan cursor unchanged at
offset 2: `get_lineno` answers with the previous line index when the match
start sits on a line boundary the cache has not passed yet, so the
"advance to the next line" lands on the start of the current line.  This
refutes the claim that the cursor strictly increases on every non-breaking
iteration (termination still holds: the line cache grew from one to two
entries). -/
theorem C4_counterexample :
    searchStep (rxByte 10) c4opts [97, 10, 10, 98]
        ⟨⟨[97, 10, 10, 98], 0, []⟩, 0, none, c4res0⟩ = .cont c4st1 ∧
    searchStep (rxByte 10) c4opts [97, 10, 10, 98] c4st1 = .cont c4st2 ∧
    c4st2.matchOffset = c4st1.matchOffset := by
  refine ⟨rfl, rfl, rfl⟩

/-- C4 (amended): for every well-formed regex function and every buffer,
(1) `search` terminates (the fuelled scan loop never exhausts its fuel);
(2) an `ok` result holds at most one `Match` per line: its 1-based line
numbers are strictly increasing;
(3) a zero-width match at offset `len(B)` breaks the loop;
(4) every non-breaking iteration from an invariant state either strictly
advances the scan cursor, or keeps the cursor and strictly grows the line
cache — the cursor does NOT strictly increase on every non-breaking
iteration (see the counterexample), which is why termination needs the
lexicographic measure (remaining bytes, uncached lines). -/
theorem C4_termination {rx : List Nat → Option (Nat × Nat)} {opts : OptsR}
    {path : List Char} {buf : List Nat} (hwf : RxWF rx) :
    search rx opts path buf ≠ .nofuel ∧
    (∀ r, search rx opts path buf = .ok r →
      List.Pairwise (· < ·) (r.matches_.map MatchR.lineno)) ∧
    (∀ k mo m res s0, k ≤ numLines buf → mo ≤ buf.length →
      rx (buf.drop mo) = some (s0, s0) → s0 + mo = buf.length →
      ∃ k2, searchStep rx opts buf ⟨mkCache buf k, mo, m, res⟩ =
        .brk ⟨mkCache buf k2, mo, m, res⟩) ∧
    (∀ k mo m res, StInv buf k mo m res →
      ∀ st2, searchStep rx opts buf ⟨mkCache buf k, mo, m, res⟩ = .cont st2 →
        ∃ k2, st2.ls = mkCache buf k2 ∧ k ≤ k2 ∧ mo ≤ st2.matchOffset ∧
          (mo < st2.matchOffset ∨ k < k2)) := by
  refine ⟨search_ne_nofuel hwf, ?_, ?_, ?_⟩
  · intro r hr
    by_cases hbin : isBinaryBuf buf
    · unfold search at hr
      dsimp only at hr
      rw [if_pos hbin] at hr
      by_cases hdo : opts.do_binaries
      · rw [if_pos hdo] at hr
        by_cases hm2 : (rx buf).isSome
        · rw [if_pos hm2] at hr
          cases hr
          simp [matchNew]
        · rw [if_neg hm2] at hr
          cases hr
          simp [fileResultNew]
      · rw [if_neg hdo] at hr
        cases hr
        simp [fileResultNew]
    · exact (search_ok_ResInv hwf hbin r hr).1
  · intro k mo m res s0 hk hmo hrx hlen
    rw [searchStep_eq_pure hwf hk hmo, searchStepP_eq_core hrx]
    unfold stepCore
    dsimp only
    by_cases hml : min (trueLine buf (s0 + mo)) (max k (leastK buf (s0 + mo)) - 1) ≠
        min (trueLine buf (s0 + mo))
          (max (max k (leastK buf (s0 + mo))) (leastK buf (s0 + mo)) - 1)
    · exact absurd (by omega) hml
    · rw [if_neg hml, if_pos ⟨rfl, hlen⟩]
      exact ⟨max (max k (leastK buf (s0 + mo))) (leastK buf (s0 + mo)), rfl⟩
  · intro k mo m res hst st2 hstep
    rw [searchStep_eq_pure hwf hst.1 hst.2.1] at hstep
    rcases @searchStepP_cases rx opts buf k mo m res hwf hst with
      ⟨k2, _, _, heq⟩ | ⟨k2, mo2, m2, res2, heq, hst2, hka, hmoa, hprog⟩ |
      ⟨r2, heq, _⟩ | heq
    · rw [heq] at hstep
      cases hstep
    · rw [heq] at hstep
      cases hstep
      exact ⟨k2, rfl, hka, hmoa, hprog⟩
    · rw [heq] at hstep
      cases hstep
    · rw [heq] at hstep
      cases hstep

theorem C4_termination_witness :
    search (rxByte 10) c4opts [] [97, 10, 10, 98] ≠ .nofuel ∧
    (∀ r, search (rxByte 10) c4opts [] [97, 10, 10, 98] = .ok r →
      List.Pairwise (· < ·) (r.matches_.map MatchR.lineno)) ∧
    (∀ k mo m res s0, k ≤ numLines [97, 10, 10, 98] → mo ≤ ([97, 10, 10, 98] : List Nat).length →
      rxByte 10 (([97, 10, 10, 98] : List Nat).drop mo) = some (s0, s0) →
      s0 + mo = ([97, 10, 10, 98] : List Nat).length →
      ∃ k2, searchStep (rxByte 10) c4opts [97, 10, 10, 98]
          ⟨mkCache [97, 10, 10, 98] k, mo, m, res⟩ =
        .brk ⟨mkCache [97, 10, 10, 98] k2, mo, m, res⟩) ∧
    (∀ k mo m res, StInv [97, 10, 10, 98] k mo m res →
      ∀ st2, searchStep (rxByte 10) c4opts [97, 10, 10, 98]
          ⟨mkCache [97, 10, 10, 98] k, mo, m, res⟩ = .cont st2 →
        ∃ k2, st2.ls = mkCache [97, 10, 10, 98] k2 ∧ k ≤ k2 ∧ mo ≤ st2.matchOffset ∧
          (mo < st2.matchOffset ∨ k < k2)) :=
  C4_termination (rxByte_wf 10)


/-! ### Claim C1: the pure reference scan and the duality development -/

/-- Reference scan: the true line index of each successive leftmost match,
advancing the cursor to each match end (fuelled). -/
def pureScanF (rx : List Nat → Option (Nat × Nat)) (buf : List Nat) :
    Nat → Nat → List Nat
  | 0, _ => []
  | fuel + 1, c =>
    match rx (buf.drop c) with
    | none => []
    | some (s0, e0) => trueLine buf (s0 + c) :: pureScanF rx buf fuel (e0 + c)

/-- Reference scan with canonical fuel. -/
def pureScan (rx : List Nat → Option (Nat × Nat)) (buf : List Nat) (c : Nat) :
    List Nat :=
  pureScanF rx buf (buf.length + 1 - c) c

/-- The line indices the non-inverted loop emits: the scan lines with
consecutive runs collapsed against the running `matched_lineno`. -/
def dedup1 : Option Nat → List Nat → List Nat
  | _, [] => []
  | m, l :: ls => if some l = m then dedup1 m ls else l :: dedup1 (some l) ls

/-- The line indices the inverted loop emits: the gaps between the scan
lines, padded to `n` lines at the end. -/
def invertEmitL : Nat → List Nat → Nat → List Nat
  | mval, [], n => List.range' mval (n - mval)
  | mval, l :: ls, n => List.range' mval (l - mval) ++ invertEmitL (max mval (l + 1)) ls n

/-- Observe the 1-based line numbers of an `ok` search outcome. -/
def okLinenos : SearchOutcome → Option (List Nat)
  | .ok r => some (r.matches_.map MatchR.lineno)
  | _ => none

theorem pureScanF_stable_ind {rx : List Nat → Option (Nat × Nat)} {buf : List Nat}
    (hwf : RxWF rx)
    (hnz : ∀ o s e, rx (buf.drop o) = some (s, e) → s ≠ e) :
    ∀ n fuel fuel2 c, c ≤ buf.length →
      buf.length + 1 - c ≤ fuel → buf.length + 1 - c ≤ fuel2 →
      fuel + fuel2 ≤ n →
      pureScanF rx buf fuel c = pureScanF rx buf fuel2 c := by
  intro n
  induction n with
  | zero =>
    intro fuel fuel2 c hc h1 h2 hn
    exact absurd hn (by omega)
  | succ n ih =>
    intro fuel fuel2 c hc h1 h2 hn
    cases fuel with
    | zero => exact absurd h1 (by omega)
    | succ f =>
      cases fuel2 with
      | zero => exact absurd h2 (by omega)
      | succ f2 =>
        simp only [pureScanF]
        cases hrx : rx (buf.drop c) with
        | none => rfl
        | some v =>
          obtain ⟨s0, e0⟩ := v
          obtain ⟨hse, hel⟩ := hwf _ _ _ hrx
          rw [List.length_drop] at hel
          have hne := hnz _ _ _ hrx
          dsimp only
          exact congrArg (fun t => trueLine buf (s0 + c) :: t)
            (ih f f2 (e0 + c) (by omega) (by omega) (by omega) (by omega))

theorem pureScanF_eq {rx : List Nat → Option (Nat × Nat)} {buf : List Nat}
    (hwf : RxWF rx)
    (hnz : ∀ o s e, rx (buf.drop o) = some (s, e) → s ≠ e)
    {fuel c : Nat} (hc : c ≤ buf.length) (hf : buf.length + 1 - c ≤ fuel) :
    pureScanF rx buf fuel c = pureScan rx buf c :=
  pureScanF_stable_ind hwf hnz (fuel + (buf.length + 1 - c)) fuel
    (buf.length + 1 - c) c hc hf le_rfl le_rfl

theorem pureScan_none {rx : List Nat → Option (Nat × Nat)} {buf : List Nat} {c : Nat}
    (hc : c ≤ buf.length) (hrx : rx (buf.drop c) = none) :
    pureScan rx buf c = [] := by
  obtain ⟨f, hf⟩ : ∃ f, buf.length + 1 - c = f + 1 := ⟨buf.length - c, by omega⟩
  unfold pureScan
  rw [hf]
  simp only [pureScanF]
  rw [hrx]

theorem pureScan_some {rx : List Nat → Option (Nat × Nat)} {buf : List Nat}
    (hwf : RxWF rx)
    (hnz : ∀ o s e, rx (buf.drop o) = some (s, e) → s ≠ e)
    {c s0 e0 : Nat} (hc : c ≤ buf.length) (hrx : rx (buf.drop c) = some (s0, e0)) :
    pureScan rx buf c = trueLine buf (s0 + c) :: pureScan rx buf (e0 + c) := by
  obtain ⟨hse, hel⟩ := hwf _ _ _ hrx
  rw [List.length_drop] at hel
  have hne := hnz _ _ _ hrx
  obtain ⟨f, hf⟩ : ∃ f, buf.length + 1 - c = f + 1 := ⟨buf.length - c, by omega⟩
  unfold pureScan
  rw [hf]
  simp only [pureScanF]
  rw [hrx]
  dsimp only
  have hf2 : f = buf.length - c := by omega
  rw [hf2]
  exact congrArg (fun t => trueLine buf (s0 + c) :: t)
    (pureScanF_eq hwf hnz (by omega) (by omega))

theorem pureScan_shift {rx : List Nat → Option (Nat × Nat)} {buf : List Nat}
    (hwf : RxWF rx)
    (hnz : ∀ o s e, rx (buf.drop o) = some (s, e) → s ≠ e)
    (hsuffix : ∀ o s e, rx (buf.drop o) = some (s, e) →
      ∀ d, d ≤ s → rx (buf.drop (o + d)) = some (s - d, e - d))
    {c s0 e0 d : Nat} (hc : c ≤ buf.length)
    (hrx : rx (buf.drop c) = some (s0, e0)) (hd : d ≤ s0) :
    pureScan rx buf (c + d) = pureScan rx buf c := by
  obtain ⟨hse, hel⟩ := hwf _ _ _ hrx
  rw [List.length_drop] at hel
  have hne := hnz _ _ _ hrx
  have hrx2 := hsuffix _ _ _ hrx d hd
  rw [pureScan_some hwf hnz hc hrx, pureScan_some hwf hnz (by omega) hrx2]
  have h1 : s0 - d + (c + d) = s0 + c := by omega
  have h2 : e0 - d + (c + d) = e0 + c := by omega
  rw [h1, h2]

theorem pureScanF_facts {rx : List Nat → Option (Nat × Nat)} {buf : List Nat}
    (hwf : RxWF rx)
    (hnz : ∀ o s e, rx (buf.drop o) = some (s, e) → s ≠ e)
    (hnm : ∀ o s e, rx (buf.drop o) = some (s, e) →
      trueLine buf (s + o) = trueLine buf (e + o)) :
    ∀ fuel c, c ≤ buf.length →
      (∀ l ∈ pureScanF rx buf fuel c, trueLine buf c ≤ l ∧ l < numLines buf) ∧
      List.Pairwise (· ≤ ·) (pureScanF rx buf fuel c) := by
  intro fuel
  induction fuel with
  | zero =>
    intro c hc
    constructor
    · intro l hl
      simp only [pureScanF] at hl
      cases hl
    · simp only [pureScanF]
      exact List.Pairwise.nil
  | succ f ih =>
    intro c hc
    simp only [pureScanF]
    cases hrx : rx (buf.drop c) with
    | none =>
      constructor
      · intro l hl
        cases hl
      · exact List.Pairwise.nil
    | some v =>
      obtain ⟨s0, e0⟩ := v
      obtain ⟨hse, hel⟩ := hwf _ _ _ hrx
      rw [List.length_drop] at hel
      have hne := hnz _ _ _ hrx
      have htleq := hnm _ _ _ hrx
      have hlen0 : 0 < buf.length := by omega
      have hN : 0 < numLines buf := numLines_pos (by
        intro hb
        rw [hb] at hlen0
        simp at hlen0)
      obtain ⟨ihb, ihp⟩ := ih (e0 + c) (by omega)
      constructor
      · intro l hl
        rcases List.mem_cons.mp hl with h1 | h2
        · subst h1
          exact ⟨trueLine_mono buf (by omega), trueLine_lt_numLines hN _⟩
        · obtain ⟨hb1, hb2⟩ := ihb l h2
          refine ⟨?_, hb2⟩
          have := trueLine_mono buf (show c ≤ e0 + c by omega)
          omega
      · rw [List.pairwise_cons]
        refine ⟨?_, ihp⟩
        intro l hl
        obtain ⟨hb1, hb2⟩ := ihb l hl
        rw [htleq]
        omega


theorem searchStepP_none {rx : List Nat → Option (Nat × Nat)} {opts : OptsR}
    {buf : List Nat} {k mo : Nat} {m : Option Nat} {res : FileResultR}
    (hrx : rx (buf.drop mo) = none) :
    searchStepP rx opts buf k mo m res = .brk ⟨mkCache buf k, mo, m, res⟩ := by
  unfold searchStepP
  rw [hrx]

theorem invertTail_false {opts : OptsR} {buf : List Nat} {st : LoopState}
    (hiv : opts.invert = false) :
    invertTail opts buf st = .ok st.res := by
  unfold invertTail
  rw [hiv, if_neg (by decide : ¬(false = true))]

/-- Non-inverted emission with `only_files` unset and `max_count` head room:
one new match for line `l1`, then the first span is recorded on it. -/
theorem stepTail_NI_emit {opts : OptsR} {buf : List Nat} {c : Nat} {m : Option Nat}
    {res : FileResultR} {s e l1 km mo2 : Nat}
    (hiv : opts.invert = false) (hof : opts.only_files = none)
    (hne : some l1 ≠ m) (hkmN : km ≤ numLines buf) (hl1N : l1 < numLines buf)
    (hcnt : res.matches_.length < opts.max_count) :
    ∃ k4 res2, km ≤ k4 ∧ k4 ≤ numLines buf ∧
      stepTail opts buf c m res s e l1 km mo2 =
        .cont ⟨mkCache buf k4, mo2, some l1, res2⟩ ∧
      res2.matches_.map MatchR.lineno = res.matches_.map MatchR.lineno ++ [l1 + 1] ∧
      res2.matches_.length = res.matches_.length + 1 ∧
      (∀ mv, mv ≤ l1 → ResInv buf mv res → ResInv buf (l1 + 1) res2) := by
  unfold stepTail
  rw [hiv, if_neg (by decide : ¬(false = true))]
  dsimp only
  rw [if_pos hne]
  rcases @newMatchM_push buf km l1 opts res hkmN hl1N hcnt with
    ⟨hsome, _⟩ | ⟨_, k3, hk31, hk32, hnm⟩
  · rw [hof] at hsome
    simp at hsome
  · rw [hnm]
    dsimp only
    rw [if_pos hne]
    have hempty : (resPush res (cmLine buf opts l1)).matches_.isEmpty = false := by
      simp [resPush]
    rw [hempty, if_neg (by decide : ¬(false = true))]
    rw [getOffset_spec l1 hk32]
    dsimp only
    refine ⟨max k3 (min (l1 + 1) (numLines buf)),
      pushSpanLast (resPush res (cmLine buf opts l1)) (s - offAt buf l1, e - offAt buf l1),
      by omega, by omega, rfl, ?_, ?_, ?_⟩
    · rw [pushSpanLast_map_lineno]
      simp [resPush, cmLine]
    · rw [pushSpanLast_length]
      simp [resPush]
    · intro mv hmv hres
      exact ResInv_spanPush _ (ResInv_push hres hmv hl1N)

/-- Non-inverted iteration on a line that is already the current
`matched_lineno`: no new match, at most a span appended to the last one. -/
theorem stepTail_NI_skip {opts : OptsR} {buf : List Nat} {c : Nat} {m : Option Nat}
    {res : FileResultR} {s e l1 km mo2 : Nat}
    (hiv : opts.invert = false) (hne : ¬(some l1 ≠ m)) (hkmN : km ≤ numLines buf) :
    ∃ k4 res2, km ≤ k4 ∧ k4 ≤ numLines buf ∧
      stepTail opts buf c m res s e l1 km mo2 =
        .cont ⟨mkCache buf k4, mo2, m, res2⟩ ∧
      res2.matches_.map MatchR.lineno = res.matches_.map MatchR.lineno ∧
      res2.matches_.length = res.matches_.length ∧
      (∀ mv, ResInv buf mv res → ResInv buf mv res2) := by
  unfold stepTail
  rw [hiv, if_neg (by decide : ¬(false = true))]
  dsimp only
  rw [if_neg hne]
  dsimp only
  rw [if_neg hne]
  by_cases hemp : res.matches_.isEmpty
  · rw [if_pos hemp]
    exact ⟨km, res, le_rfl, hkmN, rfl, rfl, rfl, fun mv h => h⟩
  · rw [if_neg hemp, getOffset_spec l1 hkmN]
    dsimp only
    exact ⟨max km (min (l1 + 1) (numLines buf)),
      pushSpanLast res (s - offAt buf l1, e - offAt buf l1),
      by omega, by omega, rfl, pushSpanLast_map_lineno _ _, pushSpanLast_length _ _,
      fun mv h => ResInv_spanPush _ h⟩

/-- Inverted emission: one match for every line in `[matched+1, l1)`. -/
theorem stepTail_INV_emit {opts : OptsR} {buf : List Nat} {c : Nat} {m : Option Nat}
    {res : FileResultR} {s e l1 km mo2 : Nat}
    (hiv : opts.invert = true) (hof : opts.only_files = none)
    (hne : some l1 ≠ m) (hkmN : km ≤ numLines buf) (hl1N : l1 < numLines buf)
    (hmvle : mValOpt m ≤ l1)
    (hcnt : res.matches_.length + (l1 - mValOpt m) ≤ opts.max_count) :
    ∃ k4 res2, km ≤ k4 ∧ k4 ≤ numLines buf ∧
      stepTail opts buf c m res s e l1 km mo2 =
        .cont ⟨mkCache buf k4, mo2, some l1, res2⟩ ∧
      res2.matches_.map MatchR.lineno = res.matches_.map MatchR.lineno ++
        (List.range' (mValOpt m) (l1 - mValOpt m)).map (· + 1) ∧
      res2.matches_.length = res.matches_.length + (l1 - mValOpt m) ∧
      (ResInv buf (mValOpt m) res → ResInv buf (l1 + 1) res2) := by
  unfold stepTail
  rw [hiv, if_pos rfl]
  rw [if_pos hne]
  have hbound : ∀ n ∈ List.range' (mValOpt m) (l1 - mValOpt m), n < numLines buf := by
    intro n hn
    have := List.mem_range'_1.mp hn
    omega
  obtain ⟨k4, hk41, hk42, hem⟩ := emitRange_spec hof
    (List.range' (mValOpt m) (l1 - mValOpt m)) km res hkmN hbound (by simp; omega)
  rw [hem]
  dsimp only
  refine ⟨k4, _, hk41, hk42, rfl, ?_, ?_, ?_⟩
  · simp only [List.map_append, List.map_map]
    congr 1
  · simp
  · intro hres
    apply @ResInv_matches buf (l1 + 1) _
      { res with matches_ := res.matches_ ++
        (List.range' (mValOpt m) (l1 - mValOpt m)).map (cmLine buf opts) } rfl
    apply ResInv_append _ hres
    · apply List.pairwise_lt_range'
      omega
    · intro n hn
      exact (List.mem_range'_1.mp hn).1
    · intro n hn
      have := List.mem_range'_1.mp hn
      exact ⟨by omega, by omega⟩
    · omega

/-- Inverted iteration on the already-matched line: pure bookkeeping. -/
theorem stepTail_INV_skip {opts : OptsR} {buf : List Nat} {c : Nat} {m : Option Nat}
    {res : FileResultR} {s e l1 km mo2 : Nat}
    (hiv : opts.invert = true) (hne : ¬(some l1 ≠ m)) :
    stepTail opts buf c m res s e l1 km mo2 = .cont ⟨mkCache buf km, mo2, m, res⟩ := by
  unfold stepTail
  rw [hiv, if_pos rfl, if_neg hne]

/-- The inverted tail with `only_files` unset and `max_count` head room emits
exactly the lines `[matched+1, N)` and returns `ok`. -/
theorem invertTail_exact {opts : OptsR} {buf : List Nat} {k c : Nat} {m : Option Nat}
    {res : FileResultR}
    (hiv : opts.invert = true) (hof : opts.only_files = none)
    (hk : k ≤ numLines buf) (hN : 0 < numLines buf) (hmv : mValOpt m ≤ numLines buf)
    (hcnt : res.matches_.length + (numLines buf - mValOpt m) ≤ opts.max_count) :
    ∃ r, invertTail opts buf ⟨mkCache buf k, c, m, res⟩ = .ok r ∧
      r.matches_.map MatchR.lineno = res.matches_.map MatchR.lineno ++
        (List.range' (mValOpt m) (numLines buf - mValOpt m)).map (· + 1) := by
  unfold invertTail
  rw [hiv, if_pos rfl]
  dsimp only
  rw [getLineno_spec le_rfl hk]
  rw [leastK_length, trueLine_length]
  have hmax : max k (numLines buf) = numLines buf := by omega
  rw [hmax]
  dsimp only
  rw [Nat.min_self]
  have hc1 : numLines buf - 1 + 1 - mValOpt m = numLines buf - mValOpt m := by omega
  rw [hc1]
  have hbound : ∀ n ∈ List.range' (mValOpt m) (numLines buf - mValOpt m),
      n < numLines buf := by
    intro n hn
    have := List.mem_range'_1.mp hn
    omega
  obtain ⟨k4, hk41, hk42, hem⟩ := emitRange_spec hof
    (List.range' (mValOpt m) (numLines buf - mValOpt m)) (numLines buf) res
    le_rfl hbound (by simp; omega)
  rw [hem]
  dsimp only
  refine ⟨_, rfl, ?_⟩
  simp only [List.map_append, List.map_map]
  congr 1


/-- Under the no-zero-width/no-multi-line hypotheses one scan iteration on a
successful probe is one of exactly two things: a stall (the spurious
`get_lineno` answer triggers the multi-line branch, the cursor lands back on
the match start and only the cache grows), or the emission tail at the true
line of the match with the cursor moving to the match end. -/
theorem stepCore_dichotomy {opts : OptsR} {buf : List Nat} {k c : Nat}
    {m : Option Nat} {res : FileResultR} {s0 e0 : Nat}
    (hk : k ≤ numLines buf)
    (hslt : s0 < e0) (hel : e0 + c ≤ buf.length)
    (htl : trueLine buf (s0 + c) = trueLine buf (e0 + c)) :
    (k ≤ trueLine buf (s0 + c) ∧ s0 + c = cum buf (trueLine buf (s0 + c)) ∧
      k < leastK buf (e0 + c) ∧ leastK buf (e0 + c) ≤ numLines buf ∧
      stepCore opts buf k c m res (s0 + c) (e0 + c) =
        .cont ⟨mkCache buf (leastK buf (e0 + c)), s0 + c, m, res⟩) ∨
    (trueLine buf (s0 + c) + 1 ≤
        max (max k (leastK buf (s0 + c))) (leastK buf (e0 + c)) ∧
      max (max k (leastK buf (s0 + c))) (leastK buf (e0 + c)) ≤ numLines buf ∧
      stepCore opts buf k c m res (s0 + c) (e0 + c) =
        stepTail opts buf c m res (s0 + c) (e0 + c) (trueLine buf (s0 + c))
          (max (max k (leastK buf (s0 + c))) (leastK buf (e0 + c))) (e0 + c)) := by
  have hsl : s0 + c ≤ buf.length := by omega
  have hlen0 : 0 < buf.length := by omega
  have hN : 0 < numLines buf := numLines_pos (by
    intro hb
    rw [hb] at hlen0
    simp at hlen0)
  have htlN : trueLine buf (s0 + c) < numLines buf := trueLine_lt_numLines hN _
  have hLe : trueLine buf (s0 + c) < leastK buf (e0 + c) :=
    leastK_gt_trueLine hel (by omega) (trueLine_cum_le buf _)
  have hke : leastK buf (e0 + c) ≤ numLines buf := leastK_le_numLines hel
  have hks : leastK buf (s0 + c) ≤ numLines buf := leastK_le_numLines hsl
  have hcase := l1_cases hsl hk
  unfold stepCore
  dsimp only
  set k1 := max k (leastK buf (s0 + c)) with hk1d
  set l1 := min (trueLine buf (s0 + c)) (k1 - 1) with hl1d
  set k2 := max k1 (leastK buf (e0 + c)) with hk2d
  set l2 := min (trueLine buf (e0 + c)) (k2 - 1) with hl2d
  have hl2v : l2 = trueLine buf (s0 + c) := by
    rw [hl2d, ← htl]
    omega
  rcases hcase with hA | ⟨hj1, hA2, hA3, hA4, hA5, hA6⟩
  · right
    have hml : ¬(l1 ≠ l2) := by omega
    rw [if_neg hml]
    have hno : ¬(s0 + c = e0 + c ∧ s0 + c = buf.length) := by omega
    rw [if_neg hno]
    rw [if_neg (by omega : ¬(s0 + c = e0 + c))]
    refine ⟨by omega, by omega, ?_⟩
    rw [hA]
  · left
    have hml : l1 ≠ l2 := by omega
    rw [if_pos hml]
    refine ⟨by omega, hA4, by omega, hke, ?_⟩
    have hkpv : max k2 (min (l1 + 1 + 1) (numLines buf)) = leastK buf (e0 + c) := by
      omega
    have hoffv : offAt buf (l1 + 1) = s0 + c := by
      have h1 : l1 + 1 = trueLine buf (s0 + c) := by omega
      rw [h1]
      unfold offAt
      rw [if_pos htlN]
      omega
    rw [hkpv, hoffv]


/-- Master characterisation of the non-inverted scan loop under the C1
hypotheses: the emitted 1-based line numbers are exactly the deduplicated
reference-scan lines shifted by one. -/
theorem loopNI_master {rx : List Nat → Option (Nat × Nat)} {opts : OptsR}
    {buf : List Nat}
    (hwf : RxWF rx)
    (hnz : ∀ o s e, rx (buf.drop o) = some (s, e) → s ≠ e)
    (hnm : ∀ o s e, rx (buf.drop o) = some (s, e) →
      trueLine buf (s + o) = trueLine buf (e + o))
    (hsuffix : ∀ o s e, rx (buf.drop o) = some (s, e) →
      ∀ d, d ≤ s → rx (buf.drop (o + d)) = some (s - d, e - d))
    (hiv : opts.invert = false) (hof : opts.only_files = none) :
    ∀ fuel k c m res, StInv buf k c m res →
      res.matches_.length + (numLines buf - mValOpt m) ≤ opts.max_count →
      (buf.length - c) + (numLines buf + 1 - k) < fuel →
      ∃ r, searchLoop rx opts buf fuel ⟨mkCache buf k, c, m, res⟩ = .ok r ∧
        r.matches_.map MatchR.lineno =
          res.matches_.map MatchR.lineno ++ (dedup1 m (pureScan rx buf c)).map (· + 1) := by
  intro fuel
  induction fuel with
  | zero =>
    intro k c m res _ _ hf
    exact absurd hf (by omega)
  | succ fuel ih =>
    intro k c m res hst hcnt hf
    obtain ⟨hk, hc, hmB, hres⟩ := hst
    unfold searchLoop
    rw [searchStep_eq_pure hwf hk hc]
    cases hrx : rx (buf.drop c) with
    | none =>
      rw [searchStepP_none hrx]
      dsimp only
      rw [invertTail_false hiv]
      refine ⟨res, rfl, ?_⟩
      rw [pureScan_none hc hrx]
      simp [dedup1]
    | some v =>
      obtain ⟨s0, e0⟩ := v
      obtain ⟨hse0, hel0⟩ := hwf _ _ _ hrx
      rw [List.length_drop] at hel0
      have hne0 := hnz _ _ _ hrx
      have htl0 := hnm _ _ _ hrx
      rw [searchStepP_eq_core hrx]
      have hscan := pureScan_some hwf hnz hc hrx
      rcases stepCore_dichotomy hk (by omega) (by omega) htl0 with
        ⟨hA5, hA4, hklt, hkeN, heq⟩ | ⟨hkm1, hkmN, heq⟩
      · rw [heq]
        dsimp only
        have hshift : pureScan rx buf (s0 + c) = pureScan rx buf c := by
          have hsh := pureScan_shift hwf hnz hsuffix hc hrx le_rfl
          rw [Nat.add_comm c s0] at hsh
          exact hsh
        have hmB2 : ∀ jm, m = some jm →
            jm ≤ min (trueLine buf (s0 + c)) (leastK buf (e0 + c) - 1) ∧
            jm < numLines buf := by
          intro jm hjm
          obtain ⟨h1, h2⟩ := hmB jm hjm
          have hmono := trueLine_mono buf (show c ≤ s0 + c by omega)
          exact ⟨by omega, h2⟩
        obtain ⟨r, hr1, hr2⟩ := ih (leastK buf (e0 + c)) (s0 + c) m res
          ⟨hkeN, by omega, hmB2, hres⟩ hcnt (by omega)
        refine ⟨r, hr1, ?_⟩
        rw [hr2, hshift]
      · rw [heq]
        have hlen0 : 0 < buf.length := by omega
        have hl1N : trueLine buf (s0 + c) < numLines buf :=
          trueLine_lt_numLines (numLines_pos (by
            intro hb
            rw [hb] at hlen0
            simp at hlen0)) _
        by_cases hne : some (trueLine buf (s0 + c)) = m
        · obtain ⟨k4, res2, hk41, hk42, hstep, hln, hlen2, hpres⟩ :=
            stepTail_NI_skip (c := c) (s := s0 + c) (e := e0 + c) hiv
              (not_ne_iff.mpr hne) hkmN
          rw [hstep]
          dsimp only
          have hmB2 : ∀ jm, m = some jm →
              jm ≤ min (trueLine buf (e0 + c)) (k4 - 1) ∧ jm < numLines buf := by
            intro jm hjm
            rw [← hne] at hjm
            cases hjm
            exact ⟨by omega, hl1N⟩
          obtain ⟨r, hr1, hr2⟩ := ih k4 (e0 + c) m res2
            ⟨hk42, by omega, hmB2, hpres _ hres⟩ (by omega) (by omega)
          refine ⟨r, hr1, ?_⟩
          rw [hr2, hln, hscan]
          have hd : dedup1 m (trueLine buf (s0 + c) :: pureScan rx buf (e0 + c)) =
              dedup1 m (pureScan rx buf (e0 + c)) := by
            show (if some (trueLine buf (s0 + c)) = m then
                dedup1 m (pureScan rx buf (e0 + c))
              else trueLine buf (s0 + c) ::
                dedup1 (some (trueLine buf (s0 + c))) (pureScan rx buf (e0 + c))) = _
            rw [if_pos hne]
          rw [hd]
        · have hmvle : mValOpt m ≤ trueLine buf (s0 + c) := by
            cases m with
            | none => exact Nat.zero_le _
            | some jm =>
              obtain ⟨h1, h2⟩ := hmB jm rfl
              have hmono := trueLine_mono buf (show c ≤ s0 + c by omega)
              have hjmne : jm ≠ trueLine buf (s0 + c) := by
                intro hcc
                exact hne (by rw [hcc])
              show jm + 1 ≤ _
              omega
          obtain ⟨k4, res2, hk41, hk42, hstep, hln, hlen2, hpres⟩ :=
            stepTail_NI_emit (c := c) hiv hof hne hkmN hl1N
              (by omega : res.matches_.length < opts.max_count)
          rw [hstep]
          dsimp only
          have hmB2 : ∀ jm, some (trueLine buf (s0 + c)) = some jm →
              jm ≤ min (trueLine buf (e0 + c)) (k4 - 1) ∧ jm < numLines buf := by
            intro jm hjm
            cases hjm
            exact ⟨by omega, hl1N⟩
          obtain ⟨r, hr1, hr2⟩ := ih k4 (e0 + c) (some (trueLine buf (s0 + c))) res2
            ⟨hk42, by omega, hmB2, hpres _ hmvle hres⟩
            (show res2.matches_.length +
              (numLines buf - (trueLine buf (s0 + c) + 1)) ≤ opts.max_count by omega)
            (by omega)
          refine ⟨r, hr1, ?_⟩
          rw [hr2, hln, hscan]
          have hd : dedup1 m (trueLine buf (s0 + c) :: pureScan rx buf (e0 + c)) =
              trueLine buf (s0 + c) ::
                dedup1 (some (trueLine buf (s0 + c))) (pureScan rx buf (e0 + c)) := by
            show (if some (trueLine buf (s0 + c)) = m then
                dedup1 m (pureScan rx buf (e0 + c))
              else trueLine buf (s0 + c) ::
                dedup1 (some (trueLine buf (s0 + c))) (pureScan rx buf (e0 + c))) = _
            rw [if_neg hne]
          rw [hd]
          simp

/-- Master characterisation of the inverted scan loop under the C1
hypotheses: the emitted 1-based line numbers are exactly the gaps between
the reference-scan lines, padded to the line count, shifted by one. -/
theorem loopINV_master {rx : List Nat → Option (Nat × Nat)} {opts : OptsR}
    {buf : List Nat}
    (hwf : RxWF rx)
    (hnz : ∀ o s e, rx (buf.drop o) = some (s, e) → s ≠ e)
    (hnm : ∀ o s e, rx (buf.drop o) = some (s, e) →
      trueLine buf (s + o) = trueLine buf (e + o))
    (hsuffix : ∀ o s e, rx (buf.drop o) = some (s, e) →
      ∀ d, d ≤ s → rx (buf.drop (o + d)) = some (s - d, e - d))
    (hiv : opts.invert = true) (hof : opts.only_files = none)
    (hN : 0 < numLines buf) :
    ∀ fuel k c m res, StInv buf k c m res →
      res.matches_.length + (numLines buf - mValOpt m) ≤ opts.max_count →
      (buf.length - c) + (numLines buf + 1 - k) < fuel →
      ∃ r, searchLoop rx opts buf fuel ⟨mkCache buf k, c, m, res⟩ = .ok r ∧
        r.matches_.map MatchR.lineno =
          res.matches_.map MatchR.lineno ++
            (invertEmitL (mValOpt m) (pureScan rx buf c) (numLines buf)).map (· + 1) := by
  intro fuel
  induction fuel with
  | zero =>
    intro k c m res _ _ hf
    exact absurd hf (by omega)
  | succ fuel ih =>
    intro k c m res hst hcnt hf
    obtain ⟨hk, hc, hmB, hres⟩ := hst
    have hmv : mValOpt m ≤ numLines buf := by
      cases m with
      | none => exact Nat.zero_le _
      | some jm =>
        have := (hmB jm rfl).2
        show jm + 1 ≤ numLines buf
        omega
    unfold searchLoop
    rw [searchStep_eq_pure hwf hk hc]
    cases hrx : rx (buf.drop c) with
    | none =>
      rw [searchStepP_none hrx]
      dsimp only
      obtain ⟨r, hr1, hr2⟩ := invertTail_exact hiv hof hk hN hmv hcnt
      rw [hr1]
      refine ⟨r, rfl, ?_⟩
      rw [hr2, pureScan_none hc hrx]
      rw [show invertEmitL (mValOpt m) [] (numLines buf) =
        List.range' (mValOpt m) (numLines buf - mValOpt m) from rfl]
    | some v =>
      obtain ⟨s0, e0⟩ := v
      obtain ⟨hse0, hel0⟩ := hwf _ _ _ hrx
      rw [List.length_drop] at hel0
      have hne0 := hnz _ _ _ hrx
      have htl0 := hnm _ _ _ hrx
      rw [searchStepP_eq_core hrx]
      have hscan := pureScan_some hwf hnz hc hrx
      rcases stepCore_dichotomy hk (by omega) (by omega) htl0 with
        ⟨hA5, hA4, hklt, hkeN, heq⟩ | ⟨hkm1, hkmN, heq⟩
      · rw [heq]
        dsimp only
        have hshift : pureScan rx buf (s0 + c) = pureScan rx buf c := by
          have hsh := pureScan_shift hwf hnz hsuffix hc hrx le_rfl
          rw [Nat.add_comm c s0] at hsh
          exact hsh
        have hmB2 : ∀ jm, m = some jm →
            jm ≤ min (trueLine buf (s0 + c)) (leastK buf (e0 + c) - 1) ∧
            jm < numLines buf := by
          intro jm hjm
          obtain ⟨h1, h2⟩ := hmB jm hjm
          have hmono := trueLine_mono buf (show c ≤ s0 + c by omega)
          exact ⟨by omega, h2⟩
        obtain ⟨r, hr1, hr2⟩ := ih (leastK buf (e0 + c)) (s0 + c) m res
          ⟨hkeN, by omega, hmB2, hres⟩ hcnt (by omega)
        refine ⟨r, hr1, ?_⟩
        rw [hr2, hshift]
      · rw [heq]
        have hl1N : trueLine buf (s0 + c) < numLines buf :=
          trueLine_lt_numLines hN _
        by_cases hne : some (trueLine buf (s0 + c)) = m
        · rw [stepTail_INV_skip (c := c) (s := s0 + c) (e := e0 + c) hiv
            (not_ne_iff.mpr hne)]
          dsimp only
          have hmveq : mValOpt m = trueLine buf (s0 + c) + 1 := by
            rw [← hne]
            rfl
          have hmB2 : ∀ jm, m = some jm →
              jm ≤ min (trueLine buf (e0 + c))
                (max (max k (leastK buf (s0 + c))) (leastK buf (e0 + c)) - 1) ∧
              jm < numLines buf := by
            intro jm hjm
            rw [← hne] at hjm
            cases hjm
            exact ⟨by omega, hl1N⟩
          obtain ⟨r, hr1, hr2⟩ := ih
            (max (max k (leastK buf (s0 + c))) (leastK buf (e0 + c))) (e0 + c) m res
            ⟨hkmN, by omega, hmB2, hres⟩ hcnt (by omega)
          refine ⟨r, hr1, ?_⟩
          rw [hr2, hscan]
          have hd : invertEmitL (mValOpt m)
              (trueLine buf (s0 + c) :: pureScan rx buf (e0 + c)) (numLines buf) =
              invertEmitL (mValOpt m) (pureScan rx buf (e0 + c)) (numLines buf) := by
            show List.range' (mValOpt m) (trueLine buf (s0 + c) - mValOpt m) ++
              invertEmitL (max (mValOpt m) (trueLine buf (s0 + c) + 1))
                (pureScan rx buf (e0 + c)) (numLines buf) = _
            rw [hmveq]
            have h0 : trueLine buf (s0 + c) - (trueLine buf (s0 + c) + 1) = 0 := by
              omega
            rw [h0, Nat.max_self]
            simp
          rw [hd]
        · have hmvle : mValOpt m ≤ trueLine buf (s0 + c) := by
            cases m with
            | none => exact Nat.zero_le _
            | some jm =>
              obtain ⟨h1, h2⟩ := hmB jm rfl
              have hmono := trueLine_mono buf (show c ≤ s0 + c by omega)
              have hjmne : jm ≠ trueLine buf (s0 + c) := by
                intro hcc
                exact hne (by rw [hcc])
              show jm + 1 ≤ _
              omega
          obtain ⟨k4, res2, hk41, hk42, hstep, hln, hlen2, hpres⟩ :=
            stepTail_INV_emit (c := c) hiv hof hne hkmN hl1N hmvle
              (show res.matches_.length + (trueLine buf (s0 + c) - mValOpt m)
                ≤ opts.max_count by omega)
          rw [hstep]
          dsimp only
          have hmB2 : ∀ jm, some (trueLine buf (s0 + c)) = some jm →
              jm ≤ min (trueLine buf (e0 + c)) (k4 - 1) ∧ jm < numLines buf := by
            intro jm hjm
            cases hjm
            exact ⟨by omega, hl1N⟩
          obtain ⟨r, hr1, hr2⟩ := ih k4 (e0 + c) (some (trueLine buf (s0 + c))) res2
            ⟨hk42, by omega, hmB2, hpres hres⟩
            (show res2.matches_.length +
              (numLines buf - (trueLine buf (s0 + c) + 1)) ≤ opts.max_count by omega)
            (by omega)
          refine ⟨r, hr1, ?_⟩
          rw [hr2, hln, hscan]
          have hd : invertEmitL (mValOpt m)
              (trueLine buf (s0 + c) :: pureScan rx buf (e0 + c)) (numLines buf) =
              List.range' (mValOpt m) (trueLine buf (s0 + c) - mValOpt m) ++
                invertEmitL (trueLine buf (s0 + c) + 1)
                  (pureScan rx buf (e0 + c)) (numLines buf) := by
            show List.range' (mValOpt m) (trueLine buf (s0 + c) - mValOpt m) ++
              invertEmitL (max (mValOpt m) (trueLine buf (s0 + c) + 1))
                (pureScan rx buf (e0 + c)) (numLines buf) = _
            have hmx : max (mValOpt m) (trueLine buf (s0 + c) + 1) =
                trueLine buf (s0 + c) + 1 := by omega
            rw [hmx]
          rw [hd]
          have hmv1 : mValOpt (some (trueLine buf (s0 + c))) =
              trueLine buf (s0 + c) + 1 := rfl
          rw [hmv1]
          simp


/-- The deduplicated scan lines and the inverted gap lines partition
`[mValOpt m, n)`, for a nondecreasing scan bounded by `n` that starts no
lower than the previous matched line. -/
theorem dedup_invert_partition {n : Nat} :
    ∀ (ls : List Nat) (m : Option Nat),
      (∀ l ∈ ls, l < n) → List.Pairwise (· ≤ ·) ls →
      (∀ l ∈ ls, mValOpt m ≤ l + 1) →
      (∀ x, (x ∈ dedup1 m ls ∨ x ∈ invertEmitL (mValOpt m) ls n) ↔
        (mValOpt m ≤ x ∧ x < n)) ∧
      (∀ x, x ∈ dedup1 m ls → x ∈ invertEmitL (mValOpt m) ls n → False) := by
  intro ls
  induction ls with
  | nil =>
    intro m _ _ _
    constructor
    · intro x
      show (x ∈ ([] : List Nat) ∨ x ∈ List.range' (mValOpt m) (n - mValOpt m)) ↔ _
      rw [List.mem_range'_1]
      constructor
      · rintro (h | h)
        · cases h
        · omega
      · intro h
        right
        omega
    · intro x hx
      cases hx
  | cons l ls ih =>
    intro m hbd hpw hlow
    have hln : l < n := hbd l (List.mem_cons_self l ls)
    have hhd := (List.pairwise_cons.mp hpw).1
    have hpw2 := (List.pairwise_cons.mp hpw).2
    by_cases hne : some l = m
    · have hmv : mValOpt m = l + 1 := by
        rw [← hne]
        rfl
      have hd1 : dedup1 m (l :: ls) = dedup1 m ls := by
        show (if some l = m then dedup1 m ls else l :: dedup1 (some l) ls) = _
        rw [if_pos hne]
      have hd2 : invertEmitL (mValOpt m) (l :: ls) n = invertEmitL (mValOpt m) ls n := by
        show List.range' (mValOpt m) (l - mValOpt m) ++
          invertEmitL (max (mValOpt m) (l + 1)) ls n = _
        rw [hmv]
        have h0 : l - (l + 1) = 0 := by omega
        rw [h0, Nat.max_self]
        simp
      rw [hd1, hd2]
      exact ih m (fun x hx => hbd x (List.mem_cons_of_mem l hx)) hpw2
        (fun x hx => hlow x (List.mem_cons_of_mem l hx))
    · have hmvle : mValOpt m ≤ l := by
        have hll := hlow l (List.mem_cons_self l ls)
        cases m with
        | none => exact Nat.zero_le _
        | some jm =>
          have hj : jm + 1 ≤ l + 1 := hll
          have hjne : jm ≠ l := by
            intro hcc
            exact hne (by rw [hcc])
          show jm + 1 ≤ l
          omega
      have hd1 : dedup1 m (l :: ls) = l :: dedup1 (some l) ls := by
        show (if some l = m then dedup1 m ls else l :: dedup1 (some l) ls) = _
        rw [if_neg hne]
      have hd2 : invertEmitL (mValOpt m) (l :: ls) n =
          List.range' (mValOpt m) (l - mValOpt m) ++ invertEmitL (l + 1) ls n := by
        show List.range' (mValOpt m) (l - mValOpt m) ++
          invertEmitL (max (mValOpt m) (l + 1)) ls n = _
        have hmx : max (mValOpt m) (l + 1) = l + 1 := by omega
        rw [hmx]
      obtain ⟨ihu, ihd⟩ := ih (some l)
        (fun x hx => hbd x (List.mem_cons_of_mem l hx)) hpw2
        (fun x hx => by
          have := hhd x hx
          show l + 1 ≤ x + 1
          omega)
      have hmv1 : mValOpt (some l) = l + 1 := rfl
      rw [hmv1] at ihu
      rw [hd1, hd2]
      constructor
      · intro x
        rw [List.mem_cons, List.mem_append, List.mem_range'_1]
        have hiu := ihu x
        constructor
        · rintro ((h | h) | (h | h))
          · subst h
            exact ⟨hmvle, hln⟩
          · have := hiu.mp (Or.inl h)
            exact ⟨by omega, this.2⟩
          · exact ⟨h.1, by omega⟩
          · have := hiu.mp (Or.inr h)
            exact ⟨by omega, this.2⟩
        · rintro ⟨h1, h2⟩
          rcases Nat.lt_trichotomy x l with hx | hx | hx
          · right
            left
            exact ⟨h1, by omega⟩
          · left
            left
            exact hx
          · rcases hiu.mpr ⟨by omega, h2⟩ with h | h
            · left
              right
              exact h
            · right
              right
              exact h
      · intro x hx1 hx2
        rw [List.mem_cons] at hx1
        rw [List.mem_append, List.mem_range'_1] at hx2
        have hiu := ihu x
        rcases hx1 with h1 | h1
        · subst h1
          rcases hx2 with h2 | h2
          · omega
          · have := (hiu.mp (Or.inr h2)).1
            omega
        · rcases hx2 with h2 | h2
          · have := (hiu.mp (Or.inl h1)).1
            omega
          · exact ihd x h1 h2


theorem search_text_eq {rx : List Nat → Option (Nat × Nat)} {opts : OptsR}
    {path : List Char} {buf : List Nat} (hbin : ¬ isBinaryBuf buf) :
    search rx opts path buf = searchLoop rx opts buf (2 * buf.length + 2)
      ⟨mkCache buf 0, 0, none,
        { fileResultNew (normalizedPath path) with
          has_context := (0 < opts.before ∨ 0 < opts.after) }⟩ := by
  unfold search
  dsimp only
  rw [if_neg hbin, mkCache_zero]

/-- C1 (amended): invert duality holds on a NON-EMPTY non-binary buffer with
`only_files` unset, for a well-formed leftmost-match regex function with no
zero-width and no line-crossing matches and `max_count` at least the line
count: the 1-based line-number sets of the non-inverted and the inverted run
are disjoint, and their union is exactly `{1..N}`. -/
theorem C1_invert_duality {rx : List Nat → Option (Nat × Nat)} {opts : OptsR}
    {path : List Char} {buf : List Nat}
    (hwf : RxWF rx)
    (hnz : ∀ o s e, rx (buf.drop o) = some (s, e) → s ≠ e)
    (hnm : ∀ o s e, rx (buf.drop o) = some (s, e) →
      trueLine buf (s + o) = trueLine buf (e + o))
    (hsuffix : ∀ o s e, rx (buf.drop o) = some (s, e) →
      ∀ d, d ≤ s → rx (buf.drop (o + d)) = some (s - d, e - d))
    (hof : opts.only_files = none)
    (hmc : numLines buf ≤ opts.max_count)
    (hbin : ¬ isBinaryBuf buf)
    (hbuf : buf ≠ []) :
    ∃ r1 r2, search rx { opts with invert := false } path buf = .ok r1 ∧
      search rx { opts with invert := true } path buf = .ok r2 ∧
      (∀ x, ¬(x ∈ r1.matches_.map MatchR.lineno ∧ x ∈ r2.matches_.map MatchR.lineno)) ∧
      (∀ x, (x ∈ r1.matches_.map MatchR.lineno ∨ x ∈ r2.matches_.map MatchR.lineno) ↔
        (1 ≤ x ∧ x ≤ numLines buf)) := by
  have hN : 0 < numLines buf := numLines_pos hbuf
  have hNlen := numLines_le_length buf
  have hstI : ∀ b : Bool, StInv buf 0 0 none
      { fileResultNew (normalizedPath path) with has_context := b } := by
    intro b
    refine ⟨Nat.zero_le _, Nat.zero_le _, (by intro jm hjm; cases hjm), ?_, ?_, ?_⟩ <;>
      simp [fileResultNew]
  have hcnt0 : ∀ b : Bool,
      ({ fileResultNew (normalizedPath path) with
        has_context := b } : FileResultR).matches_.length +
        (numLines buf - mValOpt none) ≤ opts.max_count := by
    intro b
    show 0 + (numLines buf - 0) ≤ opts.max_count
    omega
  obtain ⟨r1, hr1, hl1⟩ := @loopNI_master rx { opts with invert := false } buf
    hwf hnz hnm hsuffix rfl hof (2 * buf.length + 2) 0 0 none _
    (hstI _) (hcnt0 _) (by omega)
  obtain ⟨r2, hr2, hl2⟩ := @loopINV_master rx { opts with invert := true } buf
    hwf hnz hnm hsuffix rfl hof hN (2 * buf.length + 2) 0 0 none _
    (hstI _) (hcnt0 _) (by omega)
  have hs1 : search rx { opts with invert := false } path buf = .ok r1 :=
    (search_text_eq hbin).trans hr1
  have hs2 : search rx { opts with invert := true } path buf = .ok r2 :=
    (search_text_eq hbin).trans hr2
  have hl1e : r1.matches_.map MatchR.lineno =
      (dedup1 none (pureScan rx buf 0)).map (· + 1) := by
    rw [hl1]
    simp [fileResultNew]
  have hl2e : r2.matches_.map MatchR.lineno =
      (invertEmitL 0 (pureScan rx buf 0) (numLines buf)).map (· + 1) := by
    rw [hl2]
    simp [fileResultNew]
    rw [show mValOpt (none : Option Nat) = 0 from rfl]
  obtain ⟨hpf, hps⟩ := pureScanF_facts hwf hnz hnm (buf.length + 1 - 0) 0 (Nat.zero_le _)
  have hpf2 : ∀ l ∈ pureScan rx buf 0, l < numLines buf := fun l hl => (hpf l hl).2
  obtain ⟨hpart1, hpart2⟩ := dedup_invert_partition (n := numLines buf)
    (pureScan rx buf 0) none hpf2 hps (fun l _ => Nat.zero_le _)
  have hmv0 : mValOpt (none : Option Nat) = 0 := rfl
  rw [hmv0] at hpart1
  refine ⟨r1, r2, hs1, hs2, ?_, ?_⟩
  · rintro x ⟨hx1, hx2⟩
    rw [hl1e] at hx1
    rw [hl2e] at hx2
    obtain ⟨y, hy1, hy2⟩ := List.mem_map.mp hx1
    obtain ⟨z, hz1, hz2⟩ := List.mem_map.mp hx2
    have hy2b : y + 1 = x := hy2
    have hz2b : z + 1 = x := hz2
    have hyz : y = z := by omega
    subst hyz
    exact hpart2 y hy1 hz1
  · intro x
    constructor
    · rintro (hx | hx)
      · rw [hl1e] at hx
        obtain ⟨y, hy1, hy2⟩ := List.mem_map.mp hx
        have hy2b : y + 1 = x := hy2
        have := (hpart1 y).mp (Or.inl hy1)
        omega
      · rw [hl2e] at hx
        obtain ⟨y, hy1, hy2⟩ := List.mem_map.mp hx
        have hy2b : y + 1 = x := hy2
        have := (hpart1 y).mp (Or.inr hy1)
        omega
    · rintro ⟨h1, h2⟩
      rcases (hpart1 (x - 1)).mpr ⟨Nat.zero_le _, by omega⟩ with hy | hy
      · left
        rw [hl1e]
        exact List.mem_map.mpr ⟨x - 1, hy, show x - 1 + 1 = x by omega⟩
      · right
        rw [hl2e]
        exact List.mem_map.mpr ⟨x - 1, hy, show x - 1 + 1 = x by omega⟩

/-- C1 counterexample, two parts.  (1) On the EMPTY buffer (non-binary), the
inverted run panics — `create_match` is reached for line 0 of a zero-line
buffer and its `expect` fails — while the non-inverted run returns zero
matches, so no inverted line-number set exists at all.  (2) With
`--only-files` set (an option bundle the claim quantifies over), both runs
return after their first match, so line 3 of the three-line buffer
`a\nb\nc` is in neither set and the union law fails. -/
theorem C1_counterexample :
    search (rxByte 97) { c2opts with invert := true } [] [] = .panicked ∧
    okLinenos (search (rxByte 97) c2opts [] []) = some [] ∧
    isBinaryBuf [] = false ∧
    okLinenos (search (rxByte 97)
      { c2opts with only_files := some true } [] [97, 10, 98, 10, 99]) = some [1] ∧
    okLinenos (search (rxByte 97)
      { c2opts with only_files := some true, invert := true } []
      [97, 10, 98, 10, 99]) = some [2] ∧
    numLines [97, 10, 98, 10, 99] = 3 ∧
    (3 ∉ ([1] : List Nat)) ∧ (3 ∉ ([2] : List Nat)) := by
  refine ⟨rfl, rfl, rfl, rfl, rfl, rfl, by decide, by decide⟩

theorem C1_invert_duality_witness :
    ∃ r1 r2, search (rxByte 97) { c2opts with invert := false } [] [98] = .ok r1 ∧
      search (rxByte 97) { c2opts with invert := true } [] [98] = .ok r2 ∧
      (∀ x, ¬(x ∈ r1.matches_.map MatchR.lineno ∧ x ∈ r2.matches_.map MatchR.lineno)) ∧
      (∀ x, (x ∈ r1.matches_.map MatchR.lineno ∨ x ∈ r2.matches_.map MatchR.lineno) ↔
        (1 ≤ x ∧ x ≤ numLines [98])) := by
  have hnone : ∀ o, rxByte 97 (List.drop o [98]) = none := by
    intro o
    match o with
    | 0 => rfl
    | o + 1 =>
      show rxByte 97 (List.drop o []) = none
      rw [List.drop_nil]
      rfl
  exact C1_invert_duality (rxByte_wf 97)
    (by intro o s e h; rw [hnone o] at h; cases h)
    (by intro o s e h; rw [hnone o] at h; cases h)
    (by intro o s e h; rw [hnone o] at h; cases h)
    rfl (by decide) (by decide) (by decide)

end Ru
